import Mathlib

/-!
# cccrack: GF(2) matrix kernel, symbol tagger and candidate evaluator

A shallow embedding of the C sources `gf2types.h`, `gf2matrix.c`, `symtag.h`,
`symtag.c` and `cccrack.c`, followed by theorems about the embedded functions.

Conventions of the embedding.

* `unsigned int` is a natural number reduced modulo `2 ^ 32` where the C code can
  wrap, `uint64_t` a natural number below `2 ^ 64`, `uint8_t` one below `2 ^ 8`.
* A heap array is a total map from indices to values (`Nat → α`) when the code
  only ever indexes it inside its bounds, and a `List` read with `xs[i]?` when the
  code may index it outside (the read then yields `none`).
* A C loop `for (i = a; i < b; ++i)` is a left fold over `List.range' a (b - a)`.
* `calloc` is assumed to succeed, and so is `fopen` on the dump file, whose contents
  are not modelled.
* An evaluation that reads a vector outside its bounds, or whose `assert` fails,
  yields `none`; nothing is claimed about a run once this happened.
-/

namespace CCCrack

/-! ## Machine arithmetic -/

/-- Value, once converted to `uint64_t`, of the C expression `bit << off` in which
`bit` has type `uint8_t` and is therefore promoted to a 32-bit `int`: the shift is
a 32-bit shift (the count is taken modulo 32, as the shift instructions of x86-64
and AArch64 do) and the `int` result is sign-extended to 64 bits. For
`off < 31` this is `bit * 2 ^ off`. -/
def int_shl (bit off : Nat) : Nat :=
  let r := (bit <<< (off % 32)) % 2 ^ 32
  if r < 2 ^ 31 then r else r + (2 ^ 64 - 2 ^ 32)

/-- `~x` on a `uint64_t`. -/
def not64 (x : Nat) : Nat := 2 ^ 64 - 1 - x % 2 ^ 64

/-! ## gf2types.h -/

/-- `struct gf2_matrix`; `row_data` maps a row index and a block index to a
64-bit word. -/
structure gf2_matrix where
  rows : Nat
  cols : Nat
  blocks : Nat
  rank : Nat
  row_data : Nat → Nat → Nat

/-- `GF2_MATRIX_ROW_BLOCK(n)`. -/
def GF2_MATRIX_ROW_BLOCK (n : Nat) : Nat := n >>> 6

/-- `GF2_MATRIX_ROW_BLOCKS(n)`, computed on `unsigned int`. -/
def GF2_MATRIX_ROW_BLOCKS (n : Nat) : Nat := GF2_MATRIX_ROW_BLOCK ((n + 63) % 2 ^ 32)

/-- `GF2_MATRIX_ROW_SHIFT(n)`. -/
def GF2_MATRIX_ROW_SHIFT (n : Nat) : Nat := n &&& 63

/-- `gf2_matrix_set`: `row_data[row][block] = (mask & row_data[row][block]) | (bit << off)`
with `mask = ~(1ull << off)` and `bit &= 1`. The shift of `bit` is the `int` shift
`int_shl`. -/
def gf2_matrix_set (self : gf2_matrix) (row col bit : Nat) : gf2_matrix :=
  let block := GF2_MATRIX_ROW_BLOCK col
  let off := GF2_MATRIX_ROW_SHIFT col
  let mask := not64 (1 <<< off)
  let bit1 := bit &&& 1
  { self with
    row_data := fun r b =>
      if r = row ∧ b = block then (mask &&& self.row_data row block) ||| int_shl bit1 off
      else self.row_data r b }

/-- `gf2_matrix_add`: `row_data[row][block] ^= bit << off`. -/
def gf2_matrix_add (self : gf2_matrix) (row col bit : Nat) : gf2_matrix :=
  let block := GF2_MATRIX_ROW_BLOCK col
  let off := GF2_MATRIX_ROW_SHIFT col
  { self with
    row_data := fun r b =>
      if r = row ∧ b = block then self.row_data row block ^^^ int_shl bit off
      else self.row_data r b }

/-- `gf2_matrix_get`: `(row_data[row][block] >> off) & 1`. -/
def gf2_matrix_get (self : gf2_matrix) (row col : Nat) : Nat :=
  (self.row_data row (GF2_MATRIX_ROW_BLOCK col) >>> GF2_MATRIX_ROW_SHIFT col) &&& 1

/-- `gf2_matrix_get_rank`. -/
def gf2_matrix_get_rank (self : gf2_matrix) : Nat := self.rank

/-- `gf2_matrix_get_cols`. -/
def gf2_matrix_get_cols (self : gf2_matrix) : Nat := self.cols

/-- `gf2_matrix_col_is_null`: no row has the bit `1ull << off` set in word `block`. -/
def gf2_matrix_col_is_null (self : gf2_matrix) (col : Nat) : Bool :=
  (List.range self.rows).all fun i =>
    self.row_data i (GF2_MATRIX_ROW_BLOCK col) &&& (1 <<< GF2_MATRIX_ROW_SHIFT col) == 0

/-- `gf2_matrix_row_is_null`: the `blocks` words of the row are all zero. -/
def gf2_matrix_row_is_null (self : gf2_matrix) (row : Nat) : Bool :=
  (List.range self.blocks).all fun i => self.row_data row i == 0

/-! ## gf2matrix.c -/

/-- `gf2_matrix_new`: a zero-filled matrix (`calloc`). -/
def gf2_matrix_new (rows cols : Nat) : gf2_matrix :=
  { rows := rows, cols := cols, blocks := GF2_MATRIX_ROW_BLOCKS cols, rank := 0,
    row_data := fun _ _ => 0 }

/-- `gf2_matrix_eye`: `gf2_matrix_set(self, i, i, 1)` for `i < MIN(rows, cols)`. -/
def gf2_matrix_eye (rows cols : Nat) : gf2_matrix :=
  (List.range (min rows cols)).foldl (fun m i => gf2_matrix_set m i i 1)
    (gf2_matrix_new rows cols)

/-- `gf2_matrix_transpose`: a new `cols x rows` matrix filled with
`gf2_matrix_set(self, i, j, gf2_matrix_get(mat, j, i))` for `j < rows`, `i < cols`. -/
def gf2_matrix_transpose (mat : gf2_matrix) : gf2_matrix :=
  (List.range mat.rows).foldl
    (fun self j =>
      (List.range mat.cols).foldl
        (fun self i => gf2_matrix_set self i j (gf2_matrix_get mat j i))
        self)
    (gf2_matrix_new mat.cols mat.rows)

/-- `gf2_matrix_swap_rows`: exchanges the two row pointers. -/
def gf2_matrix_swap_rows (self : gf2_matrix) (a b : Nat) : gf2_matrix :=
  { self with
    row_data := fun r =>
      if r = a then self.row_data b else if r = b then self.row_data a else self.row_data r }

/-- `gf2_matrix_add_rows`: `row_data[a][i] ^= row_data[b][i]` for `i < blocks`. -/
def gf2_matrix_add_rows (self : gf2_matrix) (a b : Nat) : gf2_matrix :=
  (List.range self.blocks).foldl
    (fun m i =>
      { m with
        row_data := fun r blk =>
          if r = a ∧ blk = i then m.row_data a i ^^^ m.row_data b i else m.row_data r blk })
    self

/-- `gf2_matrix_add_cols`: `gf2_matrix_add(self, i, a, gf2_matrix_get(self, i, b))`
for `i < rows`. -/
def gf2_matrix_add_cols (self : gf2_matrix) (a b : Nat) : gf2_matrix :=
  (List.range self.rows).foldl
    (fun m i => gf2_matrix_add m i a (gf2_matrix_get m i b))
    self

/-- `gf2_matrix_copy_row`: the cells of one row, as bytes. -/
def gf2_matrix_copy_row (self : gf2_matrix) (row : Nat) : List Nat :=
  (List.range self.cols).map fun i => gf2_matrix_get self row i

/-- The pivot search of `gf2_matrix_gauss_jordan_cols` at position `i`: when
`A[i][i]` is zero, the first row `j > i` with `A[j][i] != 0` is swapped into row
`i`. Returns the value of `pivot` and the matrix. -/
def gauss_jordan_cols_pivot (self : gf2_matrix) (i : Nat) : Nat × gf2_matrix :=
  if gf2_matrix_get self i i = 0 then
    match (List.range' (i + 1) (self.rows - (i + 1))).find?
        (fun j => gf2_matrix_get self j i != 0) with
    | some j => (1, gf2_matrix_swap_rows self j i)
    | none => (0, self)
  else (gf2_matrix_get self i i, self)

/-- The elimination loop of `gf2_matrix_gauss_jordan_cols` at pivot `i`: for
`j = i + 1 .. cols - 1`, when `A[i][j] != 0` column `i` is added to column `j` and,
when `track` holds (`b != NULL`), row `i` of `b_m` to its row `j`. -/
def gauss_jordan_cols_elim (track : Bool) (i : Nat) (st : gf2_matrix × gf2_matrix) :
    gf2_matrix × gf2_matrix :=
  (List.range' (i + 1) (st.1.cols - (i + 1))).foldl
    (fun s j =>
      if gf2_matrix_get s.1 i j ≠ 0 then
        (gf2_matrix_add_cols s.1 j i, if track then gf2_matrix_add_rows s.2 j i else s.2)
      else s)
    st

/-- One iteration of the outer loop of `gf2_matrix_gauss_jordan_cols`; the state
is `(self, b_m, rank)`. -/
def gauss_jordan_cols_step (track : Bool) (st : gf2_matrix × gf2_matrix × Nat) (i : Nat) :
    gf2_matrix × gf2_matrix × Nat :=
  let pv := gauss_jordan_cols_pivot st.1 i
  if pv.1 ≠ 0 then
    let ab := gauss_jordan_cols_elim track i (pv.2, st.2.1)
    (ab.1, ab.2, (st.2.2 + 1) % 2 ^ 32)
  else (pv.2, st.2.1, st.2.2)

/-- `gf2_matrix_gauss_jordan_cols(self, b)`. `track` says whether `b != NULL`;
the result is `none` when `assert(self->cols <= self->rows)` fails, and otherwise
the reduced matrix (with its `rank` field set) and `b_m` (the `cols x cols`
transformation matrix when `track` holds, an empty matrix standing for the unused
`NULL` otherwise). -/
def gf2_matrix_gauss_jordan_cols (self : gf2_matrix) (track : Bool) :
    Option (gf2_matrix × gf2_matrix) :=
  if self.cols ≤ self.rows then
    let b_m := if track then gf2_matrix_eye self.cols self.cols else gf2_matrix_new 0 0
    let st := (List.range self.cols).foldl (gauss_jordan_cols_step track) (self, b_m, 0)
    some ({ st.1 with rank := st.2.2 }, st.2.1)
  else none

/-- `gf2_matrix_swap_cols`: for `i < rows`, the cells `(i, a)` and `(i, b)` are
exchanged with `gf2_matrix_get` and `gf2_matrix_set`. -/
def gf2_matrix_swap_cols (self : gf2_matrix) (a b : Nat) : gf2_matrix :=
  (List.range self.rows).foldl
    (fun m i =>
      let prev := gf2_matrix_get m i a
      gf2_matrix_set (gf2_matrix_set m i a (gf2_matrix_get m i b)) i b prev)
    self

/-- The pivot search of `gf2_matrix_gauss_jordan_rows` at position `i`: when
`A[i][i]` is zero, the first column `j > i` with `A[i][j] != 0` is swapped into
column `i`. Returns the value of `pivot` and the matrix. -/
def gauss_jordan_rows_pivot (self : gf2_matrix) (i : Nat) : Nat × gf2_matrix :=
  if gf2_matrix_get self i i = 0 then
    match (List.range' (i + 1) (self.cols - (i + 1))).find?
        (fun j => gf2_matrix_get self i j != 0) with
    | some j => (1, gf2_matrix_swap_cols self i j)
    | none => (0, self)
  else (gf2_matrix_get self i i, self)

/-- The elimination loop of `gf2_matrix_gauss_jordan_rows` at pivot `i`: for
`j = i + 1 .. rows - 1`, when `A[j][i] != 0` row `i` is added to row `j` and, when
`track` holds (`b != NULL`), row `i` of `b_m` to its row `j`. -/
def gauss_jordan_rows_elim (track : Bool) (i : Nat) (st : gf2_matrix × gf2_matrix) :
    gf2_matrix × gf2_matrix :=
  (List.range' (i + 1) (st.1.rows - (i + 1))).foldl
    (fun s j =>
      if gf2_matrix_get s.1 j i ≠ 0 then
        (gf2_matrix_add_rows s.1 j i, if track then gf2_matrix_add_rows s.2 j i else s.2)
      else s)
    st

/-- One iteration of the outer loop of `gf2_matrix_gauss_jordan_rows`; the state
is `(self, b_m, rank)`. -/
def gauss_jordan_rows_step (track : Bool) (st : gf2_matrix × gf2_matrix × Nat) (i : Nat) :
    gf2_matrix × gf2_matrix × Nat :=
  let pv := gauss_jordan_rows_pivot st.1 i
  if pv.1 ≠ 0 then
    let ab := gauss_jordan_rows_elim track i (pv.2, st.2.1)
    (ab.1, ab.2, (st.2.2 + 1) % 2 ^ 32)
  else (pv.2, st.2.1, st.2.2)

/-- `gf2_matrix_gauss_jordan_rows(self, b)`. `track` says whether `b != NULL`;
the result is `none` when `assert(self->rows <= self->cols)` fails, and otherwise
the reduced matrix (with its `rank` field set) and `b_m` (the `rows x rows`
transformation matrix when `track` holds, an empty matrix standing for the unused
`NULL` otherwise). -/
def gf2_matrix_gauss_jordan_rows (self : gf2_matrix) (track : Bool) :
    Option (gf2_matrix × gf2_matrix) :=
  if self.rows ≤ self.cols then
    let b_m := if track then gf2_matrix_eye self.rows self.rows else gf2_matrix_new 0 0
    let st := (List.range self.rows).foldl (gauss_jordan_rows_step track) (self, b_m, 0)
    some ({ st.1 with rank := st.2.2 }, st.2.1)
  else none

/-! ## symtag.h, symtag.c -/

/-- `struct tagging`; `dict` is the `uint8_t` array of `dict_len` entries. -/
structure tagging where
  dict : Nat → Nat
  dict_len : Nat
  tagging_id : Nat
  bps : Nat
  mask : Nat
  is_gray : Bool

/-- The entries `dict[0 .. dict_len - 1]` of a tagging, in order. -/
def tagging.dict_list (t : tagging) : List Nat := (List.range t.dict_len).map t.dict

/-- Arguments of one invocation of the `on_tagging` callback: the tagging as it
was at the time of the call, the bit buffer and its length. -/
structure tagging_call where
  tagging : tagging
  bits : List Nat
  len : Nat

/-- `struct symtag`. `priv` is the field `private`; the callback `on_tagging`
returns its `BOOL` result and the new state of `private`. The field `calls` is not
part of the C structure: it records, in order, the arguments of every invocation
of `on_tagging`. -/
structure symtag (σ : Type) where
  sym_data : List Nat
  bit_data : List Nat
  tagging : tagging
  sym_len : Nat
  bit_len : Nat
  sel_mask : Nat
  priv : σ
  on_tagging : σ → CCCrack.tagging → List Nat → Nat → Bool × σ
  calls : List tagging_call

/-- `popcount64`, with the expressions parsed as C does (`+` and `>>` bind tighter
than `&`), every intermediate value being a `uint64_t`. -/
def popcount64 (b : Nat) : Nat :=
  let b1 := ((b &&& 0x5555555555555555) + ((b >>> 1) &&& 0x5555555555555555)) % 2 ^ 64
  let b2 := ((b1 &&& 0x3333333333333333) + ((b1 >>> 2) &&& 0x3333333333333333)) % 2 ^ 64
  let b3 := ((b2 + (b2 >>> 4)) % 2 ^ 64) &&& 0x0F0F0F0F0F0F0F0F
  let b4 := (b3 + (b3 >>> 8)) % 2 ^ 64
  let b5 := (b4 + (b4 >>> 16)) % 2 ^ 64
  let b6 := ((b5 + (b5 >>> 32)) % 2 ^ 64) &&& 0x0000007F
  b6 % 2 ^ 32

/-- `tagging_compute_properties`: the loop
`for (i = 0; is_gray && i < dict_len; ++i) if (i > 0) is_gray = popcount64(dict[i] ^ dict[i - 1]) == 1`. -/
def tagging_compute_properties (self : tagging) : tagging :=
  { self with
    is_gray :=
      (List.range self.dict_len).foldl
        (fun is_gray i =>
          if is_gray then
            if i > 0 then popcount64 (self.dict i ^^^ self.dict (i - 1)) == 1 else is_gray
          else is_gray)
        true }

/-- `symtag_get_tagging_count`, the loop `while (val > 1) result *= val--` on
`uint64_t`; the first argument is `val`, the second `result`. -/
def tagging_count_loop : Nat → Nat → Nat
  | 0, result => result
  | val + 1, result =>
    if val + 1 > 1 then tagging_count_loop val ((result * (val + 1)) % 2 ^ 64) else result

/-- `symtag_get_tagging_count`. -/
def symtag_get_tagging_count {σ : Type} (self : symtag σ) : Nat :=
  tagging_count_loop self.tagging.dict_len 1

/-- `symtag_new`: `mask = (1 << bps) - 1` and `dict_len = 1 << bps` are computed
on `int`; the two buffers come zero-filled from `calloc`. -/
def symtag_new {σ : Type} (sym_data : List Nat) (len bps : Nat)
    (cb : σ → tagging → List Nat → Nat → Bool × σ) (priv : σ) : symtag σ :=
  { sym_data := sym_data
    bit_data := List.replicate ((len * bps) % 2 ^ 64) 0
    tagging :=
      { dict := fun _ => 0
        dict_len := int_shl 1 bps
        tagging_id := 0
        bps := bps
        mask := (int_shl 1 bps + (2 ^ 32 - 1)) % 2 ^ 32
        is_gray := false }
    sym_len := len
    bit_len := (len * bps) % 2 ^ 64
    sel_mask := 0
    priv := priv
    on_tagging := cb
    calls := [] }

/-- The loop `while ((sym_data[i] - '0') >= symcnt) { ++bps; symcnt <<= 1; }` of
`symtag_new_from_file`; `v` is `sym_data[i] - '0'` and the state is
`(bps, symcnt)`. The first argument bounds the number of iterations; `none` when
it is exhausted. -/
def bps_detect_loop : Nat → Nat → Nat × Nat → Option (Nat × Nat)
  | 0, _, _ => none
  | fuel + 1, v, (bps, symcnt) =>
    if v ≥ symcnt then bps_detect_loop fuel v ((bps + 1) % 2 ^ 32, (symcnt <<< 1) % 2 ^ 32)
    else some (bps, symcnt)

/-- The scan `for (i = 0; i < sym_len; ++i)` of `symtag_new_from_file` over the
bytes still to be read; the state is `(bps, symcnt, valid)`. The scan stops at the
first byte outside `['0', '0' + 64)`. -/
def bps_detect_scan : List Nat → Nat × Nat × Nat → Option (Nat × Nat × Nat)
  | [], st => some st
  | c :: rest, (bps, symcnt, valid) =>
    if c < 48 ∨ c ≥ 48 + 64 then some (bps, symcnt, valid)
    else
      match bps_detect_loop 64 (c - 48) (bps, symcnt) with
      | some (bps1, symcnt1) => bps_detect_scan rest (bps1, symcnt1, (valid + 1) % 2 ^ 32)
      | none => none

/-- `symtag_new_from_file`, from the point where the file has been mapped:
`sym_data` are the mapped bytes and `sym_len`, an `unsigned int`, their number.
`none` stands for the `NULL` result. -/
def symtag_new_from_file {σ : Type} (sym_data : List Nat) (bps : Nat)
    (cb : σ → tagging → List Nat → Nat → Bool × σ) (priv : σ) : Option (symtag σ) :=
  let sym_len := sym_data.length % 2 ^ 32
  let scanned : Option (Nat × Nat × Nat) :=
    if bps = 0 then bps_detect_scan (sym_data.take sym_len) (1, 2, 0) else some (bps, 2, 0)
  match scanned with
  | none => none
  | some (bps1, _, valid) =>
    if valid = 0 then none
    else
      let sym_len1 := if valid < sym_len then valid else sym_len
      some (symtag_new sym_data sym_len1 bps1 cb priv)

/-- The values taken by `j` in the body of `j = bps; do ... --j ... while (j != 0)`. -/
def demodulate_shifts (bps : Nat) : List Nat :=
  (List.range ((bps + (2 ^ 32 - 1)) % 2 ^ 32 + 1)).reverse

/-- The demodulation loop of `symtag_tag_internal`, as a function of the fields it
reads: for every symbol `i < sym_len` the bits
`(dict[(sym_data[i] - '0') & mask] >> --j) & 1`, the subtraction being made on
`int` and the index converted to `unsigned int`. -/
def demodulate_bits (sym_data : List Nat) (sym_len : Nat) (t : tagging) : List Nat :=
  (List.range sym_len).flatMap fun i =>
    (demodulate_shifts t.bps).map fun j =>
      (t.dict (((sym_data.getD i 0 + (2 ^ 32 - 48)) % 2 ^ 32) &&& t.mask) >>> j) &&& 1

/-- The contents of `bit_data` after the demodulation loop of
`symtag_tag_internal`. -/
def symtag_demodulate {σ : Type} (self : symtag σ) : List Nat :=
  demodulate_bits self.sym_data self.sym_len self.tagging

/-- The branch of `symtag_tag_internal` taken when every symbol has its label:
demodulate, compute the properties of the tagging, call the handler and, when it
succeeds, increment `tagging_id`. -/
def symtag_emit {σ : Type} (self : symtag σ) : Bool × symtag σ :=
  let s1 := { self with bit_data := symtag_demodulate self }
  let s2 := { s1 with tagging := tagging_compute_properties s1.tagging }
  let r := s2.on_tagging s2.priv s2.tagging s2.bit_data s2.bit_len
  let s3 :=
    { s2 with
      priv := r.2
      calls := s2.calls ++ [{ tagging := s2.tagging, bits := s2.bit_data, len := s2.bit_len }] }
  if r.1 then
    (true, { s3 with tagging := { s3.tagging with tagging_id := (s3.tagging.tagging_id + 1) % 2 ^ 32 } })
  else (false, s3)

/-- The body of the loop `for (i = 0; i < dict_len; ++i)` of `symtag_tag_internal`:
when bit `i` of `sel_mask` is clear, it is set, `dict[sym] = i` is stored (as a
`uint8_t`), the recursive call `rec_call` is made and, if it succeeds, the bit is
cleared again. The bit is `1ull << i`, a 64-bit shift whose count is taken modulo
64 (`i` stays below 64 as long as `dict_len ≤ 64`).
The first component of the state is `false` once a recursive call has failed
(`goto fail`): the remaining iterations are then skipped. -/
def symtag_tag_select {σ : Type} (rec_call : symtag σ → Nat → Bool × symtag σ) (sym : Nat)
    (acc : Bool × symtag σ) (i : Nat) : Bool × symtag σ :=
  if acc.1 then
    let bit := 1 <<< (i % 64)
    if acc.2.sel_mask &&& bit = 0 then
      let s1 :=
        { acc.2 with
          sel_mask := acc.2.sel_mask ||| bit
          tagging :=
            { acc.2.tagging with
              dict := fun x => if x = sym then i % 2 ^ 8 else acc.2.tagging.dict x } }
      let r := rec_call s1 (sym + 1)
      if r.1 then (true, { r.2 with sel_mask := r.2.sel_mask &&& not64 bit })
      else (false, r.2)
    else acc
  else acc

/-- `symtag_tag_internal(self, sym)`. The first argument bounds the depth of the
recursion (the result is `false` when it is exhausted). -/
def symtag_tag_internal {σ : Type} : Nat → symtag σ → Nat → Bool × symtag σ
  | 0, self, _ => (false, self)
  | fuel + 1, self, sym =>
    if sym < self.tagging.dict_len then
      (List.range self.tagging.dict_len).foldl
        (symtag_tag_select (symtag_tag_internal fuel) sym) (true, self)
    else symtag_emit self

/-- `symtag_tag`. -/
def symtag_tag {σ : Type} (self : symtag σ) : Bool × symtag σ :=
  symtag_tag_internal (self.tagging.dict_len + 1)
    { self with tagging := { self.tagging with tagging_id := 0 }, sel_mask := 0 } 0

/-! ## cccrack.h, cccrack.c -/

/-- `struct cccrack_rankdef`. A `PTR_LIST(T, name)` (the pair `name_list`,
`name_count`) is a list of rows; `name_count` is its length. -/
structure cccrack_rankdef where
  tagging : tagging
  h : List (List Nat)
  h_poly : List (List Nat)
  g : List (List Nat)
  g_poly : List (List Nat)
  n_a : Nat
  n : Nat
  k : Nat
  K : Nat
  muT : Nat
  likely : Bool

/-- `h_count`. -/
def cccrack_rankdef.h_count (self : cccrack_rankdef) : Nat := self.h.length

/-- `g_poly_count`. -/
def cccrack_rankdef.g_poly_count (self : cccrack_rankdef) : Nat := self.g_poly.length

/-- `cccrack_rankdef_populate`: sets `n_a` to the number of columns of `R` and
appends to `h` a copy of row `i` of `B` for every null column `i` of `R`. -/
def cccrack_rankdef_populate (self : cccrack_rankdef) (R B : gf2_matrix) : cccrack_rankdef :=
  (List.range (gf2_matrix_get_cols R)).foldl
    (fun s i =>
      if gf2_matrix_col_is_null R i then { s with h := s.h ++ [gf2_matrix_copy_row B i] } else s)
    { self with n_a := gf2_matrix_get_cols R }

/-- The loop `poly = 0; for (k = 0; k <= muT; ++k) poly |= row[n * k + j] << shift(k)`
shared by `cccrack_rankdef_extract_duals` (`shift(k) = k`) and
`cccrack_rankdef_compute_generators` (`shift(k) = K - k - 1`). The byte read from
`row` is promoted to `int` before the shift. `none` when an index falls outside
`row`. -/
def rankdef_poly (row : List Nat) (n muT j : Nat) (shift : Nat → Nat) : Option Nat :=
  (List.range (muT + 1)).foldlM
    (fun poly k => (row[(n * k + j) % 2 ^ 32]?).map fun b => poly ||| int_shl b (shift k))
    0

/-- The array `list[0 .. n - 1]` of polynomials built from one row. -/
def rankdef_polys (row : List Nat) (n muT : Nat) (shift : Nat → Nat) : Option (List Nat) :=
  (List.range n).mapM fun j => rankdef_poly row n muT j shift

/-- `cccrack_rankdef_extract_duals`; `none` when a dual vector is read outside its
bounds. -/
def cccrack_rankdef_extract_duals (self : cccrack_rankdef) : Option cccrack_rankdef :=
  self.h.foldlM
    (fun s row =>
      (rankdef_polys row self.n self.muT fun k => k).map fun list =>
        { s with h_poly := s.h_poly ++ [list] })
    self

/-- The innermost loop of the construction of the matrix `A` in
`cccrack_rankdef_compute_generators`: for `j < unknowns`,
`p = (i - equations / 2) * n + j` is computed on `unsigned int` and stored in an
`int`; when `p >= 0 && p < unknowns` the cell `(rowcnt, p)` is set to `hrow[j]`. -/
def generators_fill_row (A : gf2_matrix) (hrow : List Nat)
    (rowcnt i equations n unknowns : Nat) : Option gf2_matrix :=
  (List.range unknowns).foldlM
    (fun A j =>
      let p := (((i + (2 ^ 32 - equations / 2)) % 2 ^ 32) * n + j) % 2 ^ 32
      if p < 2 ^ 31 ∧ p < unknowns then (hrow[j]?).map fun b => gf2_matrix_set A rowcnt p b
      else some A)
    A

/-- The two outer loops of the construction of `A`: one block of `equations` rows
for every dual vector; the state is `(A, rowcnt)`. -/
def generators_fill (A : gf2_matrix) (h : List (List Nat)) (equations n unknowns : Nat) :
    Option (gf2_matrix × Nat) :=
  h.foldlM
    (fun st hrow =>
      (List.range equations).foldlM
        (fun st i =>
          (generators_fill_row st.1 hrow st.2 i equations n unknowns).map fun A =>
            (A, (st.2 + 1) % 2 ^ 32))
        st)
    (A, 0)

/-- `cccrack_rankdef_compute_generators`; `none` when a dual vector or a row of
`B` is read outside its bounds. -/
def cccrack_rankdef_compute_generators (self : cccrack_rankdef) : Option cccrack_rankdef :=
  let unknowns := (self.n * self.K) % 2 ^ 32
  let equations := (self.K + self.muT) % 2 ^ 32
  let rows := max unknowns ((self.h_count * equations) % 2 ^ 32)
  match generators_fill (gf2_matrix_new rows unknowns) self.h equations self.n unknowns with
  | none => none
  | some (A0, _) =>
    match gf2_matrix_gauss_jordan_cols A0 true with
    | none => none
    | some (A, B) =>
      ((List.range unknowns).foldlM
        (fun s i =>
          if gf2_matrix_col_is_null A i then
            let row := gf2_matrix_copy_row B i
            (rankdef_polys row self.n self.muT fun k => (self.K + (2 ^ 32 - k - 1)) % 2 ^ 32).map
              fun list => { s with g_poly := s.g_poly ++ [list], g := s.g ++ [row] }
          else some s)
        self).map fun s => { s with likely := s.g_poly_count == s.k }

/-- `struct cccrack_params`. -/
structure cccrack_params where
  bps : Nat
  tagging : Int
  dumpfile : Option String
  k : Nat
  n : Nat
  K : Nat
  no_gray : Bool
  all : Bool

/-- `cccrack_params_INITIALIZER`. -/
def cccrack_params_INITIALIZER : cccrack_params :=
  { bps := 0, tagging := -1, dumpfile := none, k := 0, n := 0, K := 0,
    no_gray := false, all := false }

/-- `struct cccrack`; `σ` is the type of the state handed to the tagger as
`private`. -/
structure cccrack (σ : Type) where
  params : cccrack_params
  symtag : symtag σ
  rankdef : List cccrack_rankdef

/-- `cccrack_get_tagging_count`. -/
def cccrack_get_tagging_count {σ : Type} (self : cccrack σ) : Nat :=
  symtag_get_tagging_count self.symtag

/-! ## Specification vocabulary -/

/-- Number of bit positions (among the 64 of a `uint64_t`) at which `a` and `b`
differ. -/
def bit_differences (a b : Nat) : Nat :=
  ((List.range 64).filter fun k => a.testBit k != b.testBit k).length

/-- The longest initial segment of the buffer made of bytes in `['0', '0' + 63]`. -/
def valid_symbols (sym_data : List Nat) : List Nat :=
  sym_data.takeWhile fun c => decide (48 ≤ c ∧ c ≤ 48 + 63)

/-- The dictionary `[0, 1, 3, 2]` for `bps = 2` (a Gray code). -/
def gray_tagging : tagging :=
  { dict := fun i => if i = 1 then 1 else if i = 2 then 3 else if i = 3 then 2 else 0
    dict_len := 4
    tagging_id := 1
    bps := 2
    mask := 3
    is_gray := false }

/-- The sequences of `k` pairwise distinct labels below `n` that avoid the labels
whose bit is set in the mask `m`, listed label by label in increasing order: the
ways in which `symtag_tag_internal` can fill the `k` remaining entries of `dict`
when `sel_mask = m`. -/
def completions (n : Nat) : Nat → Nat → List (List Nat)
  | 0, _ => [[]]
  | k + 1, m =>
    (List.range n).flatMap fun i =>
      if m.testBit i then [] else (completions n k (m ||| 2 ^ i)).map fun q => i :: q

/-- What one invocation of the callback made on behalf of the tagger `s` must
satisfy: the bit buffer is the demodulation of the symbols of `s` under the
dictionary of the call, its length is `bit_len`, and the static attributes of the
tagging are those of `s`; `is_gray` is the classification of the dictionary. -/
def good_call {σ : Type} (s : symtag σ) (c : tagging_call) : Prop :=
  c.bits = demodulate_bits s.sym_data s.sym_len c.tagging ∧ c.len = s.bit_len ∧
  c.tagging.bps = s.tagging.bps ∧ c.tagging.mask = s.tagging.mask ∧
  c.tagging.dict_len = s.tagging.dict_len ∧
  c.tagging.is_gray = (tagging_compute_properties c.tagging).is_gray

/-- Precondition of a run of the tagger: `dict_len = n ≤ 64`, `sel_mask` and
`tagging_id` are in the range of their C types and the callback always succeeds. -/
def tag_ready {σ : Type} (s : symtag σ) (n : Nat) : Prop :=
  s.tagging.dict_len = n ∧ n ≤ 64 ∧ s.sel_mask < 2 ^ 64 ∧ s.tagging.tagging_id < 2 ^ 32 ∧
  ∀ p t b l, (s.on_tagging p t b l).1 = true

/-- Effect of a call `symtag_tag_internal(self, sym)` (or of the first iterations
of its loop) started in state `s` and ended in `r`: it succeeded, left `sel_mask`,
the entries of `dict` below `sym` and the static fields unchanged, and appended to
`calls` one invocation for every sequence `q` of `comps`, in order, with dictionary
`dict[0 .. sym - 1] ++ q` and consecutive values of `tagging_id`. -/
structure tag_run {σ : Type} (s : symtag σ) (sym : Nat) (comps : List (List Nat))
    (r : Bool × symtag σ) : Prop where
  ok : r.1 = true
  sel : r.2.sel_mask = s.sel_mask
  sym_data : r.2.sym_data = s.sym_data
  sym_len : r.2.sym_len = s.sym_len
  bit_len : r.2.bit_len = s.bit_len
  on_tagging : r.2.on_tagging = s.on_tagging
  dict_len : r.2.tagging.dict_len = s.tagging.dict_len
  bps : r.2.tagging.bps = s.tagging.bps
  mask : r.2.tagging.mask = s.tagging.mask
  dict_low : ∀ x, x < sym → r.2.tagging.dict x = s.tagging.dict x
  id_lt : r.2.tagging.tagging_id < 2 ^ 32
  calls : ∃ L : List tagging_call, r.2.calls = s.calls ++ L ∧
    L.map (fun c => c.tagging.dict_list) =
      comps.map (fun q => (List.range sym).map s.tagging.dict ++ q) ∧
    r.2.tagging.tagging_id = (s.tagging.tagging_id + L.length) % 2 ^ 32 ∧
    (∀ idx c, L[idx]? = some c →
      c.tagging.tagging_id = (s.tagging.tagging_id + idx) % 2 ^ 32) ∧
    ∀ c ∈ L, good_call s c

/-- Frame of a run of the tagger started in state `s` and ended in `r`, whatever
the callback answers: the symbols, the lengths and the static attributes of the
tagging are unchanged, and every invocation appended to `calls` is a `good_call`. -/
def tag_frame {σ : Type} (s : symtag σ) (r : Bool × symtag σ) : Prop :=
  r.2.sym_data = s.sym_data ∧ r.2.sym_len = s.sym_len ∧ r.2.bit_len = s.bit_len ∧
  r.2.tagging.bps = s.tagging.bps ∧ r.2.tagging.mask = s.tagging.mask ∧
  r.2.tagging.dict_len = s.tagging.dict_len ∧
  ∃ L : List tagging_call, r.2.calls = s.calls ++ L ∧ ∀ c ∈ L, good_call s c

/-- A callback that always succeeds and keeps no state. -/
def accept_all : Unit → tagging → List Nat → Nat → Bool × Unit :=
  fun _ _ _ _ => (true, ())

/-- `XOR` over `j < n` of `f j & g j`: the product over GF(2) of two bit vectors of
length `n`. -/
def dotf (n : Nat) (f g : Nat → Nat) : Nat :=
  (List.range n).foldl (fun acc j => acc ^^^ (f j &&& g j)) 0

/-- Entry `r` of the `XOR` of the columns `j` of `A` selected by `v[j] = 1`: the
product of row `r` of `A` by the vector `v`. -/
def xor_columns (A : gf2_matrix) (v : List Nat) (r : Nat) : Nat :=
  dotf A.cols (fun j => v.getD j 0) (fun j => gf2_matrix_get A r j)

/-- The vector `v` belongs to the right null space of `A`: the `XOR` of the columns
of `A` it selects is the zero column. -/
def null_vector (A : gf2_matrix) (v : List Nat) : Prop :=
  ∀ r, r < A.rows → xor_columns A v r = 0

/-- Number of columns of `M` for which `gf2_matrix_col_is_null` holds. -/
def null_col_count (M : gf2_matrix) : Nat :=
  ((List.range M.cols).filter fun c => gf2_matrix_col_is_null M c).length

/-- Entry-wise `XOR` of the vectors of `vs`, all of length `len`. -/
def xor_vectors (len : Nat) (vs : List (List Nat)) : List Nat :=
  vs.foldl (fun acc v => List.zipWith (fun a b => a ^^^ b) acc v) (List.replicate len 0)

/-- The vectors of `vs` (of length `len`) are linearly independent over GF(2): no
non-empty selection among them has a zero `XOR`. -/
def linearly_independent (len : Nat) (vs : List (List Nat)) : Prop :=
  ∀ sub : List (List Nat), sub.Sublist vs → xor_vectors len sub = List.replicate len 0 →
    sub = []

/-- State of `gf2_matrix_gauss_jordan_cols` on the matrix `A0` before iteration `i`
of its outer loop; `st` is `(self, b_m, rank)`. The dimensions are those of `A0`;
`rank` counts positions `p < i` whose diagonal cell is 1; and, when `b_m` is
tracked, every row of `A0` is a row of `self` once each column `c` is replaced by
the combination of the columns of `A0` selected by row `c` of `b_m`, which is lower
triangular with a unit diagonal. -/
structure gj_inv (A0 : gf2_matrix) (track : Bool) (i : Nat)
    (st : gf2_matrix × gf2_matrix × Nat) : Prop where
  rows : st.1.rows = A0.rows
  cols : st.1.cols = A0.cols
  pivots : ∃ P : List Nat, P.Nodup ∧ P.length = st.2.2 ∧
    ∀ p ∈ P, p < i ∧ gf2_matrix_get st.1 p p = 1
  bcols : track = true → st.2.1.cols = A0.cols ∧ (0 < A0.cols → 0 < st.2.1.blocks)
  combo : track = true → ∀ r', r' < A0.rows → ∃ r, r < A0.rows ∧ ∀ c, c < A0.cols →
    gf2_matrix_get st.1 r c =
      dotf A0.cols (fun j => gf2_matrix_get st.2.1 c j) (fun j => gf2_matrix_get A0 r' j)
  tri : track = true → ∀ c, c < A0.cols → gf2_matrix_get st.2.1 c c = 1 ∧
    ∀ k, c < k → k < A0.cols → gf2_matrix_get st.2.1 c k = 0

/-- State of the elimination loop of `gf2_matrix_gauss_jordan_cols` at pivot `i`,
started on the matrix `As`: the columns up to `i` are those of `As`, and the
relation between `self`, `b_m` and `A0` stated in `gj_inv` holds. -/
structure elim_inv (A0 : gf2_matrix) (track : Bool) (i : Nat) (As : gf2_matrix)
    (s : gf2_matrix × gf2_matrix) : Prop where
  rows : s.1.rows = A0.rows
  cols : s.1.cols = A0.cols
  low : ∀ r c, c ≤ i → gf2_matrix_get s.1 r c = gf2_matrix_get As r c
  bcols : track = true → s.2.cols = A0.cols ∧ (0 < A0.cols → 0 < s.2.blocks)
  combo : track = true → ∀ r', r' < A0.rows → ∃ r, r < A0.rows ∧ ∀ c, c < A0.cols →
    gf2_matrix_get s.1 r c =
      dotf A0.cols (fun j => gf2_matrix_get s.2 c j) (fun j => gf2_matrix_get A0 r' j)
  tri : track = true → ∀ c, c < A0.cols → gf2_matrix_get s.2 c c = 1 ∧
    ∀ k, c < k → k < A0.cols → gf2_matrix_get s.2 c k = 0

/-- `tagging_copy`: the copy has the dictionary, `dict_len`, `tagging_id`, `bps` and
`is_gray` of `orig`; its `mask` is the one of `tagging_INITIALIZER`, which is zero. -/
def tagging_copy (orig : tagging) : tagging :=
  { dict := fun x => if x < orig.dict_len then orig.dict x else 0
    dict_len := orig.dict_len
    tagging_id := orig.tagging_id
    bps := orig.bps
    mask := 0
    is_gray := orig.is_gray }

/-- `cccrack_rankdef_new`: a zero-filled record holding a copy of the tagging. -/
def cccrack_rankdef_new (t : tagging) : cccrack_rankdef :=
  { tagging := tagging_copy t, h := [], h_poly := [], g := [], g_poly := [],
    n_a := 0, n := 0, k := 0, K := 0, muT := 0, likely := false }

/-- `cccrack_rankdef_from_matrices`. -/
def cccrack_rankdef_from_matrices (t : tagging) (R B : gf2_matrix) : cccrack_rankdef :=
  cccrack_rankdef_populate (cccrack_rankdef_new t) R B

/-- The matrix of `rows` rows and `cols ≤ 64` columns whose row `r` is the 64-bit
word `words[r]` (bit `c` of the word is the cell of column `c`). -/
def matrix_of_rows (rows cols : Nat) (words : List Nat) : gf2_matrix :=
  { rows := rows, cols := cols, blocks := GF2_MATRIX_ROW_BLOCKS cols, rank := 0,
    row_data := fun r b => if b = 0 then words.getD r 0 else 0 }

/-- Decision procedure for `null_vector`. -/
def is_null_vector (A : gf2_matrix) (v : List Nat) : Bool :=
  (List.range A.rows).all fun r => xor_columns A v r == 0

/-- All the vectors of `len` bits. -/
def all_vectors : Nat → List (List Nat)
  | 0 => [[]]
  | len + 1 => (all_vectors len).flatMap fun v => [0 :: v, 1 :: v]

/-- The vectors spanned over GF(2) by the vectors of `vs`, of length `len`. -/
def span (len : Nat) (vs : List (List Nat)) : List (List Nat) :=
  vs.sublists.map (xor_vectors len)

/-- The tagging of `bps = 1` with dictionary `[0, 1]`. -/
def binary_tagging : tagging :=
  { dict := fun i => i, dict_len := 2, tagging_id := 0, bps := 1, mask := 1, is_gray := true }

/-- Product in GF(2)[D] of two polynomials stored as integers (bit `b` is the
coefficient of `D ^ b`); the first factor has degree below 64. -/
def gf2_poly_mul (a b : Nat) : Nat :=
  (List.range 64).foldl (fun acc i => if a.testBit i then acc ^^^ (b <<< i) else acc) 0

/-- The sum over `j < n` of the products `hp[j](D) * gp[j](D)` in GF(2)[D]. -/
def poly_row_product (n : Nat) (hp gp : List Nat) : Nat :=
  (List.range n).foldl (fun acc j => acc ^^^ gf2_poly_mul (hp.getD j 0) (gp.getD j 0)) 0

/-- The 33 x 33 matrix whose only non-zero cells are `(0, 0)` and `(0, 32)`. -/
def wide_matrix : gf2_matrix := matrix_of_rows 33 33 [2 ^ 32 + 1]

/-- A hypothesis `(k, n, K) = (1, 2, 17)` with `muT = 16` and `n_a = 34`, whose only
dual vector has its entries 0 and 29 set. -/
def wide_rankdef : cccrack_rankdef :=
  { tagging := tagging_copy binary_tagging
    h := [(List.range 34).map fun i => if i = 0 ∨ i = 29 then 1 else 0]
    h_poly := [], g := [], g_poly := []
    n_a := 34, n := 2, k := 1, K := 17, muT := 16, likely := false }

/-- The 33 x 1 matrix whose only non-zero cell is `(32, 0)`. -/
def tall_matrix : gf2_matrix := matrix_of_rows 33 1 (List.replicate 32 0 ++ [1])

/-- The answers of the callback `cb` to the invocations `L`, made one after the
other from the private state `p`, and the private state left by the last one. -/
def replay {σ : Type} (cb : σ → tagging → List Nat → Nat → Bool × σ) :
    σ → List tagging_call → List Bool × σ
  | p, [] => ([], p)
  | p, c :: L =>
    ((cb p c.tagging c.bits c.len).1 :: (replay cb (cb p c.tagging c.bits c.len).2 L).1,
      (replay cb (cb p c.tagging c.bits c.len).2 L).2)

/-- Effect on the callback of a run of the tagger started in state `s` and ended in
`r`: the private state is the one left by the invocations appended to `calls`, the
result is the conjunction of their answers, and every invocation but the last was
answered with success. -/
def tag_stop {σ : Type} (s : symtag σ) (r : Bool × symtag σ) : Prop :=
  r.2.on_tagging = s.on_tagging ∧ r.2.tagging.dict_len = s.tagging.dict_len ∧
  ∃ L : List tagging_call, r.2.calls = s.calls ++ L ∧
    r.2.priv = (replay s.on_tagging s.priv L).2 ∧
    r.1 = (replay s.on_tagging s.priv L).1.all id ∧
    (replay s.on_tagging s.priv L).1.dropLast.all id = true

/-- A callback that counts its invocations and fails on the first one only. -/
def fail_first : Nat → tagging → List Nat → Nat → Bool × Nat :=
  fun p _ _ _ => (decide (p ≠ 0), p + 1)

/-! ## cccrack.c: evaluation of the hypotheses -/

/-- `CCCRACK_MAX_WIDTH`. -/
def CCCRACK_MAX_WIDTH : Nat := 100

/-- `CCCRACK_MAX_REL_HEIGHT`. -/
def CCCRACK_MAX_REL_HEIGHT : Nat := 5

/-- `memcpy(bits, src, count)` into a fresh array of `count` bytes; `none` when
`src` holds fewer than `count` bytes. -/
def copy_bytes (src : List Nat) (count : Nat) : Option (List Nat) :=
  if count ≤ src.length then some (src.take count) else none

/-- `memcpy(polys, src, n)` into a fresh zero-filled array of `n` words of 64 bits:
only the first `n` bytes of `src` are copied (the bytes of a word are stored least
significant first, as on x86-64 and AArch64), so word `i` keeps its
`min(8, n - 8 i)` low bytes. `none` when `src` holds fewer than `n` bytes. -/
def copy_poly_bytes (src : List Nat) (n : Nat) : Option (List Nat) :=
  if n ≤ 8 * src.length then
    some ((List.range n).map fun i => src.getD i 0 % 2 ^ (8 * min 8 (n - 8 * i)))
  else none

/-- `cccrack_rankdef_dup`. -/
def cccrack_rankdef_dup (orig : cccrack_rankdef) : Option cccrack_rankdef :=
  match orig.h.mapM fun row => copy_bytes row orig.n_a with
  | none => none
  | some h =>
    match orig.g.mapM fun row => copy_bytes row ((orig.n * orig.K) % 2 ^ 32) with
    | none => none
    | some g =>
      match orig.h_poly.mapM fun row => copy_poly_bytes row orig.n with
      | none => none
      | some h_poly =>
        match orig.g_poly.mapM fun row => copy_poly_bytes row orig.n with
        | none => none
        | some g_poly =>
          some
            { cccrack_rankdef_new orig.tagging with
              n_a := orig.n_a, n := orig.n, k := orig.k, K := orig.K, muT := orig.muT,
              likely := orig.likely, h := h, g := g, h_poly := h_poly, g_poly := g_poly }

/-- `cccrack_rankdef_set_second_defficiency`: `n = l - n_a` on `unsigned int`. -/
def cccrack_rankdef_set_second_defficiency (self : cccrack_rankdef) (l : Nat) :
    cccrack_rankdef :=
  { self with n := (l + (2 ^ 32 - self.n_a % 2 ^ 32)) % 2 ^ 32 }

/-- `cccrack_rankdef_is_likely`. -/
def cccrack_rankdef_is_likely (self : cccrack_rankdef) : Bool := self.likely

/-- The fields of `struct cccrack` that the evaluator reads and writes through
`self`, the object that the tagger hands to `cccrack_on_tagging` as `private`: the
parameters and the results collection (`rankdef_list`, `rankdef_count`). -/
structure cccrack_state where
  params : cccrack_params
  rankdef : List cccrack_rankdef

/-- `cccrack_push_rankdef`. -/
def cccrack_push_rankdef (self : cccrack_state) (d : cccrack_rankdef) : cccrack_state :=
  { self with rankdef := self.rankdef ++ [d] }

/-- `cccrack_eval_candidate`: the copy of `template` is completed with its dual and
generator polynomials and appended to the results when `all` is set or the copy is
likely. The `BOOL` result is always `TRUE`; `none` when a vector is read outside
its bounds or the assertion of the Gauss-Jordan reduction fails. -/
def cccrack_eval_candidate (self : cccrack_state) (template : cccrack_rankdef) :
    Option cccrack_state :=
  match cccrack_rankdef_dup template with
  | none => none
  | some dup0 =>
    match cccrack_rankdef_extract_duals dup0 with
    | none => none
    | some dup1 =>
      match cccrack_rankdef_compute_generators dup1 with
      | none => none
      | some dup =>
        if self.params.all || cccrack_rankdef_is_likely dup then
          some (cccrack_push_rankdef self dup)
        else some self

/-- The body of the inner loop of `cccrack_enumerate_configs` for given `k` and `z`:
`muT = n_a - (n_a * k) / n - z`, `K = muT / k + 1` on `unsigned int`, stored in
`template`, which is evaluated when `K > 1`. The state is `(self, template)`. -/
def enumerate_configs_body (n k : Nat) (st : cccrack_state × cccrack_rankdef) (z : Nat) :
    Option (cccrack_state × cccrack_rankdef) :=
  let muT := (st.2.n_a + (2 ^ 32 - (st.2.n_a * k) % 2 ^ 32 / n) + (2 ^ 32 - z)) % 2 ^ 32
  let t1 : cccrack_rankdef := { st.2 with muT := muT, k := k, K := (muT / k + 1) % 2 ^ 32 }
  if t1.K > 1 then (cccrack_eval_candidate st.1 t1).map fun s => (s, t1)
  else some (st.1, t1)

/-- `cccrack_enumerate_configs`: the loops `for (k = 1; k < n; ++k)` and
`for (z = 1; z <= n - k; ++z)`. Returns the object and the template as the loops
leave them (the `BOOL` result is always `TRUE`). -/
def cccrack_enumerate_configs (self : cccrack_state) (template : cccrack_rankdef) :
    Option (cccrack_state × cccrack_rankdef) :=
  (List.range' 1 (template.n - 1)).foldlM
    (fun st k => (List.range' 1 (template.n - k)).foldlM (enumerate_configs_body template.n k) st)
    (self, template)

/-- The matrix `R` of `cccrack_on_tagging`: `height` rows of `l` consecutive bits
of the buffer (`p = i * l + j` stays below `height * l`, which does not exceed the
number of bits of the buffer). -/
def on_tagging_matrix (bits : List Nat) (height l : Nat) : gf2_matrix :=
  (List.range height).foldl
    (fun R i =>
      (List.range l).foldl (fun R j => gf2_matrix_set R i j (bits.getD ((i * l + j) % 2 ^ 32) 0)) R)
    (gf2_matrix_new height l)

/-- The block `if (have_n) { ... ok = TRUE; }` of `cccrack_on_tagging`, entered once
`n` is known: with `k > 0` and `K > 0` given, the single hypothesis
`muT = k * (K - 1)` is evaluated; otherwise all of them are enumerated. Returns
`ok`, `rankdef` and the object. -/
def on_tagging_evaluate (self : cccrack_state) (rankdef : cccrack_rankdef) :
    Option (Bool × Option cccrack_rankdef × cccrack_state) :=
  if self.params.k > 0 ∧ self.params.K > 0 then
    let r1 : cccrack_rankdef :=
      { rankdef with
        k := self.params.k
        K := self.params.K
        muT := (self.params.k * ((self.params.K + (2 ^ 32 - 1)) % 2 ^ 32)) % 2 ^ 32 }
    (cccrack_eval_candidate self r1).map fun s => (true, some r1, s)
  else (cccrack_enumerate_configs self rankdef).map fun r => (true, some r.2, r.1)

/-- One iteration of the loop `for (l = 2; !ok && l < width; ++l)` of
`cccrack_on_tagging`; the state is `(ok, rankdef, self)`, `rankdef` being `none`
while the pointer is `NULL`. The test `gf2_matrix_get_rank(R) < j` is made with
`j = l`, the value left by the loop that fills `R` (which has at least one row
when the reduction did not abort). -/
def on_tagging_width (tagging : tagging) (bits : List Nat) (len width : Nat)
    (st : Bool × Option cccrack_rankdef × cccrack_state) (l : Nat) :
    Option (Bool × Option cccrack_rankdef × cccrack_state) :=
  if st.1 then some st
  else
    let height0 := (len / l) % 2 ^ 32
    let height :=
      if height0 > width * CCCRACK_MAX_REL_HEIGHT then width * CCCRACK_MAX_REL_HEIGHT
      else height0
    match gf2_matrix_gauss_jordan_cols (on_tagging_matrix bits height l) true with
    | none => none
    | some (R, B) =>
      if gf2_matrix_get_rank R < l then
        match st.2.1 with
        | none =>
          let rankdef := cccrack_rankdef_from_matrices tagging R B
          if st.2.2.params.n > 0 then
            on_tagging_evaluate st.2.2 { rankdef with n := st.2.2.params.n }
          else some (false, some rankdef, st.2.2)
        | some rankdef =>
          on_tagging_evaluate st.2.2 (cccrack_rankdef_set_second_defficiency rankdef l)
      else some st

/-- `cccrack_on_tagging`. The comparison of `params.tagging` (an `int`) with
`tagging_id` is made on `unsigned int`; `width = floor(sqrt(len))` is the integer
square root (the conversion of `len` to `double` is exact below `2 ^ 53`); writing
the dump file has no effect on the object. `none` when a vector is read outside its
bounds or the assertion of the Gauss-Jordan reduction fails. -/
def cccrack_on_tagging (self : cccrack_state) (tagging : tagging) (bits : List Nat)
    (len : Nat) : Option (Bool × cccrack_state) :=
  if self.params.tagging ≠ -1 ∧
      (self.params.tagging % 2 ^ 32).toNat ≠ tagging.tagging_id then some (true, self)
  else if !self.params.no_gray && !tagging.is_gray then some (true, self)
  else
    let width := min (Nat.sqrt len) CCCRACK_MAX_WIDTH
    ((List.range' 2 (width - 2)).foldlM (on_tagging_width tagging bits len width)
      (false, none, self)).map fun st => (true, st.2.2)

/-- The callback registered by `cccrack_new`: `cccrack_on_tagging` applied to the
object behind `private`. The state `none` stands for an object left by an
evaluation that read a vector outside its bounds or aborted: it is kept as it is,
and nothing is known of a run that reached it. -/
def cccrack_handler (priv : Option cccrack_state) (tagging : tagging) (bits : List Nat)
    (len : Nat) : Bool × Option cccrack_state :=
  match priv with
  | none => (true, none)
  | some self =>
    match cccrack_on_tagging self tagging bits len with
    | none => (true, none)
    | some r => (r.1, some r.2)

/-- `cccrack_new`, from the point where the file has been mapped: the parameters
are copied and the tagger is built on the symbols with the object as `private`. -/
def cccrack_new (sym_data : List Nat) (params : cccrack_params) :
    Option (cccrack (Option cccrack_state)) :=
  (symtag_new_from_file sym_data params.bps cccrack_handler
      (some { params := params, rankdef := [] })).map
    fun st => { params := params, symtag := st, rankdef := [] }

/-- `cccrack_run`: runs the tagger, whose callback works on the object itself;
returns the result of `symtag_tag` and the object with its results collection.
`none` when the run read a vector outside its bounds or aborted. -/
def cccrack_run (self : cccrack (Option cccrack_state)) :
    Option (Bool × cccrack (Option cccrack_state)) :=
  let r :=
    symtag_tag
      { self.symtag with priv := some { params := self.params, rankdef := self.rankdef } }
  r.2.priv.map fun st => (r.1, { self with symtag := r.2, rankdef := st.rankdef })


/-! ## Specification vocabulary: candidates and sessions -/

/-- What `cccrack_eval_candidate` guarantees of the candidate `c` it appends for the
template `tpl`: the hypothesis is the one of the template, `likely` says whether
as many generator polynomials as `k` were found, and the candidate is likely unless
`all` is set. -/
def evaluated (all : Bool) (tpl c : cccrack_rankdef) : Prop :=
  c.tagging = tagging_copy tpl.tagging ∧ c.n_a = tpl.n_a ∧ c.n = tpl.n ∧ c.k = tpl.k ∧
  c.K = tpl.K ∧ c.muT = tpl.muT ∧ c.h_count = tpl.h_count ∧
  c.likely = (c.g_poly_count == c.k) ∧
  c.g.length + tpl.g_poly.length = c.g_poly_count + tpl.g.length ∧
  (all = false → c.likely = true)


/-- The template `b` carries the same tagging, dual vectors, generators, `n_a` and
`n` as the template `a`. -/
def same_template (a b : cccrack_rankdef) : Prop :=
  a.tagging = b.tagging ∧ a.h = b.h ∧ a.n_a = b.n_a ∧ a.n = b.n ∧ a.g = b.g ∧
  a.g_poly = b.g_poly

/-- The hypothesis `(k, K, muT)` of the template `t` is one of those swept by
`cccrack_enumerate_configs`: `1 ≤ k < n`, `muT = n_a - (n_a * k) / n - z` on
`unsigned int` for some `1 ≤ z ≤ n - k`, and `K = muT / k + 1 > 1`. -/
def enumerated (t : cccrack_rankdef) : Prop :=
  1 < t.K ∧ 1 ≤ t.k ∧ t.k < t.n ∧ ∃ z, 1 ≤ z ∧ z ≤ t.n - t.k ∧
    t.muT = (t.n_a + (2 ^ 32 - (t.n_a * t.k) % 2 ^ 32 / t.n) + (2 ^ 32 - z)) % 2 ^ 32 ∧
    t.K = (t.muT / t.k + 1) % 2 ^ 32

/-- The hypothesis `(k, K, muT)` of the template `t` is the one that
`cccrack_on_tagging` evaluates under the parameters `p`: the forced one,
`muT = k * (K - 1)` on `unsigned int`, when `p.k > 0` and `p.K > 0`, and otherwise
one of those swept by `cccrack_enumerate_configs`. -/
def hypothesis_of (p : cccrack_params) (t : cccrack_rankdef) : Prop :=
  (0 < p.k ∧ 0 < p.K ∧ t.k = p.k ∧ t.K = p.K ∧
    t.muT = (p.k * ((p.K + (2 ^ 32 - 1)) % 2 ^ 32)) % 2 ^ 32) ∨
  (¬ (0 < p.k ∧ 0 < p.K) ∧ enumerated t)

/-- The candidate `c` is the evaluation, under the parameters `p`, of a template
built for the tagging `t`: the template holds a copy of `t`, no generator, at most
`n_a` dual vectors and the hypothesis selected by `p`. -/
def candidate_of (p : cccrack_params) (t : tagging) (c : cccrack_rankdef) : Prop :=
  ∃ tpl : cccrack_rankdef, tpl.tagging = tagging_copy t ∧ tpl.g = [] ∧ tpl.g_poly = [] ∧
    tpl.h_count ≤ tpl.n_a ∧ (0 < p.n → tpl.n = p.n) ∧ hypothesis_of p tpl ∧
    evaluated p.all tpl c

/-- What `cccrack_on_tagging`, called for the tagging `t` under the parameters `p`,
guarantees of a candidate `c` it appends to the results: `t` passed the gates on
the tagging id and on Gray coding, and `c` is a `candidate_of` the tagging. -/
def retained (p : cccrack_params) (t : tagging) (c : cccrack_rankdef) : Prop :=
  (p.tagging ≠ -1 → (p.tagging % 2 ^ 32).toNat = t.tagging_id) ∧
  (p.no_gray = false → t.is_gray = true) ∧ candidate_of p t c


/-- State of the loop `for (l = 2; !ok && l < width; ++l)` of `cccrack_on_tagging`,
called on the object `self` for the tagging `t`; `st` is `(ok, rankdef, self)`.
The parameters are unchanged, the results collection has only grown by candidates
of `t`, and the template, once created, holds a copy of `t`, no generator and at most
`n_a` dual vectors; it is kept for a second deficiency only when `n` is not forced. -/
def width_inv (self : cccrack_state) (t : tagging)
    (st : Bool × Option cccrack_rankdef × cccrack_state) : Prop :=
  st.2.2.params = self.params ∧
  (∃ added, st.2.2.rankdef = self.rankdef ++ added ∧
    ∀ c ∈ added, candidate_of self.params t c) ∧
  ∀ rd, st.2.1 = some rd →
    rd.tagging = tagging_copy t ∧ rd.g = [] ∧ rd.g_poly = [] ∧ rd.h_count ≤ rd.n_a ∧
    (st.1 = false → self.params.n = 0)


/-- A whole session, as `main` runs it: `cccrack_new` on the mapped symbols, then
`cccrack_run`. -/
def cccrack_session (sym_data : List Nat) (params : cccrack_params) :
    Option (Bool × cccrack (Option cccrack_state)) :=
  (cccrack_new sym_data params).bind cccrack_run

/-- The symbols `"1101001110011101000011101001110111100100110100111"`: the 49 first
bits that the convolutional encoder of rate 1/2 with generators `1` and `1 + D`
outputs for the data bits `1001101000111010110010011`. -/
def conv_symbols : List Nat :=
  [49, 49, 48, 49, 48, 48, 49, 49, 49, 48, 48, 49, 49, 49, 48, 49, 48, 48, 48, 48, 49, 49,
    49, 48, 49, 48, 48, 49, 49, 49, 48, 49, 49, 49, 49, 48, 48, 49, 48, 48, 49, 49, 48, 49,
    48, 48, 49, 49, 49]

/-- The parameters of `cccrack_params_INITIALIZER` with `(k, n, K)` forced to
`(1, 2, 1)`. -/
def short_params : cccrack_params := { cccrack_params_INITIALIZER with k := 1, n := 2, K := 1 }


/-- Relation between the object of a session run with the parameters `p` and the
object of the session run on the same symbols with `tagging` forced to `t`, as
long as the first is defined: the second is defined too, and its results are the
candidates of the first whose tagging has the id `t`, in the same order. -/
def forced_rel (p : cccrack_params) (t : Nat) (oa ob : Option cccrack_state) : Prop :=
  ∀ a, oa = some a → a.params = p ∧
    ∃ b, ob = some b ∧ b.params = { p with tagging := (t : Int) } ∧
      b.rankdef = a.rankdef.filter fun c => c.tagging.tagging_id == t

/-- The objects `a` and `b` agree on the parameters that the evaluation of a tagging
reads (`k`, `n`, `K`, `no_gray`, `all`), and their results collections are those of
`a0` and `b0` followed by the same candidates. -/
def coupled (a0 b0 : List cccrack_rankdef) (a b : cccrack_state) : Prop :=
  a.params.k = b.params.k ∧ a.params.n = b.params.n ∧ a.params.K = b.params.K ∧
  a.params.no_gray = b.params.no_gray ∧ a.params.all = b.params.all ∧
  ∃ added, a.rankdef = a0 ++ added ∧ b.rankdef = b0 ++ added


/-- The matrix of 1 row and 33 columns whose only non-zero cell is `(0, 32)`. -/
def wide_row : gf2_matrix := matrix_of_rows 1 33 [2 ^ 32]

/-- The matrix of 2 rows and 33 columns whose only non-zero cells are `(0, 32)` and
`(1, 0)`. -/
def wide_pair : gf2_matrix := matrix_of_rows 2 33 [2 ^ 32, 1]


/-- A record as `cccrack_eval_candidate` completes it for the hypothesis
`(k, n, K) = (1, 2, 2)` with `muT = 1` and `n_a = 4`: one dual vector and one
generator with their polynomials; the tagging is the one of the tagger for
`bps = 1`, with `mask = 1`. -/
def conv_rankdef : cccrack_rankdef :=
  { tagging := binary_tagging
    h := [[1, 0, 1, 1]], h_poly := [[3, 2]], g := [[1, 1, 0, 1]], g_poly := [[2, 3]]
    n_a := 4, n := 2, k := 1, K := 2, muT := 1, likely := true }

/-- A hypothesis `(k, n, K) = (2, 3, 2)` with the forced memory `muT = k * (K - 1) = 2`
and `n_a = 9`, with one dual vector of `n * (muT + 1) = 9` entries. -/
def pair_rankdef : cccrack_rankdef :=
  { tagging := tagging_copy binary_tagging
    h := [[1, 1, 0, 1, 0, 1, 0, 0, 1]], h_poly := [], g := [], g_poly := []
    n_a := 9, n := 3, k := 2, K := 2, muT := 2, likely := false }

/-- The natural binary dictionary `[0, 1, 2, 3]` for `bps = 2`, before its
classification. -/
def natural_tagging : tagging :=
  { dict := fun i => i, dict_len := 4, tagging_id := 0, bps := 2, mask := 3, is_gray := false }

/-- The parameters of `cccrack_params_INITIALIZER` with `all` set. -/
def all_params : cccrack_params := { cccrack_params_INITIALIZER with all := true }

/-- The number of rows of the matrix that `cccrack_on_tagging` builds at row width
`l`: `height = len / l`, stored in an `unsigned int` and capped at
`width * CCCRACK_MAX_REL_HEIGHT`. -/
def width_height (len width l : Nat) : Nat :=
  if (len / l) % 2 ^ 32 > width * CCCRACK_MAX_REL_HEIGHT then width * CCCRACK_MAX_REL_HEIGHT
  else (len / l) % 2 ^ 32

/-- The reduction made by `cccrack_on_tagging` at row width `l`: the reduced matrix
`R` and the transformation matrix `B`. -/
def width_reduction (bits : List Nat) (len width l : Nat) : Option (gf2_matrix × gf2_matrix) :=
  gf2_matrix_gauss_jordan_cols (on_tagging_matrix bits (width_height len width l) l) true


/-- The width `W = min(floor(sqrt(len)), CCCRACK_MAX_WIDTH)` of `cccrack_on_tagging`. -/
def analyzer_width (len : Nat) : Nat := min (Nat.sqrt len) CCCRACK_MAX_WIDTH

/-- The reduction made at row width `l` records a rank below `l`. -/
def deficient (bits : List Nat) (len width l : Nat) : Bool :=
  match width_reduction bits len width l with
  | some RB => decide (gf2_matrix_get_rank RB.1 < l)
  | none => false

/-- The row widths `2 ≤ l < W` at which the reduction records a rank below `l`, in
increasing order. -/
def deficient_widths (bits : List Nat) (len : Nat) : List Nat :=
  (List.range' 2 (analyzer_width len - 2)).filter
    (deficient bits len (analyzer_width len))

/-- The record that `cccrack_rankdef_from_matrices` builds from the reduction made
at row width `l`: `n_a = l` and the dual vectors of that reduction. -/
def width_template (t : tagging) (bits : List Nat) (len width l : Nat) :
    Option cccrack_rankdef :=
  (width_reduction bits len width l).map fun RB => cccrack_rankdef_from_matrices t RB.1 RB.2

/-- The bits of `conv_symbols` under the dictionary `[0, 1]`. -/
def conv_bits : List Nat := conv_symbols.map fun c => c - 48

/-- The record `c` has `n_a = NA`, `n = N` and the dual vectors `H`. -/
def built_from (NA N : Nat) (H : List (List Nat)) (c : cccrack_rankdef) : Prop :=
  c.n_a = NA ∧ c.n = N ∧ c.h = H

/-- State of the loop `for (l = 2; !ok && l < width; ++l)` of `cccrack_on_tagging`,
run with `n` not forced on an object `self` without results, once the row widths of
`done` have been handled; `st` is `(ok, rankdef, self)`. With no deficient width so
far the state is the initial one; with one, `l1`, the template is the record built
from the reduction at `l1`; with two or more, `l1` and `l2` being the first two,
the loop is over and every candidate has `n_a = l1`, `n = l2 - l1` and the dual
vectors of the reduction at `l1`. -/
def deficiency_inv (self : cccrack_state) (t : tagging) (bits : List Nat) (len width : Nat)
    (done : List Nat) (st : Bool × Option cccrack_rankdef × cccrack_state) : Prop :=
  (done.filter (deficient bits len width) = [] → st = (false, none, self)) ∧
  (∀ l1, done.filter (deficient bits len width) = [l1] →
    st.1 = false ∧ st.2.1 = width_template t bits len width l1 ∧ st.2.2 = self) ∧
  ∀ l1 l2 rest, done.filter (deficient bits len width) = l1 :: l2 :: rest →
    st.1 = true ∧ ∀ c ∈ st.2.2.rankdef, ∃ rd, width_template t bits len width l1 = some rd ∧
      built_from l1 (l2 - l1) rd.h c


/-- Every row of the matrix holds the same cells as row 0. -/
def same_rows (A : gf2_matrix) : Prop :=
  ∀ r c, r < A.rows → c < A.cols → gf2_matrix_get A r c = gf2_matrix_get A 0 c


/-- The 64-bit word whose byte `i` (the least significant one first) is `f i`,
`i < 8`. -/
def word8 (f : Nat → Nat) : Nat :=
  f 0 + 2 ^ 8 * (f 1 + 2 ^ 8 * (f 2 + 2 ^ 8 * (f 3 + 2 ^ 8 * (f 4 + 2 ^ 8 *
    (f 5 + 2 ^ 8 * (f 6 + 2 ^ 8 * f 7))))))

/-- The first statement of `popcount64` on one byte: every pair of bits is replaced
by the number of its bits that are set. -/
def popcount_pairs (x : Nat) : Nat := (x &&& 0x55) + ((x >>> 1) &&& 0x55)

/-- The second statement of `popcount64` on one byte. -/
def popcount_nibbles (x : Nat) : Nat := (x &&& 0x33) + ((x >>> 2) &&& 0x33)

/-- The third statement of `popcount64` on one byte. -/
def popcount_bytes (x : Nat) : Nat := (x + (x >>> 4)) &&& 0x0F

/-- Number of the bit positions below `n` at which `b` has a bit set. -/
def set_bits (n b : Nat) : Nat := ((List.range n).filter fun k => b.testBit k).length


/-- The symbols `"000101111101101000101111101101000101"`: under the dictionary
`[0, 1]` the first two deficient row widths of their 36 bits are 3 and 5. -/
def odd_symbols : List Nat :=
  [48, 48, 48, 49, 48, 49, 49, 49, 49, 49, 48, 49, 49, 48, 49, 48, 48, 48, 49, 48, 49, 49,
    49, 49, 49, 48, 49, 49, 48, 49, 48, 48, 48, 49, 48, 49]

/-- The bits of `odd_symbols` under the dictionary `[0, 1]`. -/
def odd_bits : List Nat := odd_symbols.map fun c => c - 48

/-- The template that `cccrack_on_tagging` hands to `cccrack_enumerate_configs` for
`odd_bits`: `n_a = 3`, `n = 5 - 3 = 2` and the dual vector `[1, 0, 1]`. -/
def odd_template : cccrack_rankdef :=
  { tagging := tagging_copy binary_tagging
    h := [[1, 0, 1]], h_poly := [], g := [], g_poly := []
    n_a := 3, n := 2, k := 0, K := 0, muT := 0, likely := false }

/-- A template with `n_a = 2` and `n = 5` (first deficiencies at the row widths 2
and 7), with the two unit vectors as dual vectors. -/
def narrow_template : cccrack_rankdef :=
  { tagging := tagging_copy binary_tagging
    h := [[1, 0], [0, 1]], h_poly := [], g := [], g_poly := []
    n_a := 2, n := 5, k := 0, K := 0, muT := 0, likely := false }


/-- The columns of `A` are linearly independent over GF(2): a vector whose product
with every row of `A` is zero selects no column. -/
def independent_columns (A : gf2_matrix) : Prop :=
  ∀ v : List Nat, null_vector A v → ∀ j, j < A.cols → v.getD j 0 &&& 1 = 0

/-- Some non-empty selection `f` of columns of `A` (column `j` is selected when
`f j` is odd) has a zero `XOR`. -/
def dependent_columns (A : gf2_matrix) : Prop :=
  ∃ f : Nat → Nat, (∀ r, r < A.rows → dotf A.cols f (fun j => gf2_matrix_get A r j) = 0) ∧
    ∃ j, j < A.cols ∧ f j &&& 1 = 1

/-- The 33 x 33 matrix whose rows 0 and 32 have the cells 0 and 32 set and whose
row `r`, for `0 < r < 32`, has the cell `r` set: its columns 0 and 32 are equal. -/
def twin_matrix : gf2_matrix :=
  matrix_of_rows 33 33 ([2 ^ 32 + 1] ++ (List.range' 1 31).map (fun r => 2 ^ r) ++ [2 ^ 32 + 1])

/-- State of `gf2_matrix_gauss_jordan_cols` on the matrix `A0` before iteration `k`
of its outer loop; `st` is `(self, b_m, rank)`. The dimensions are those of `A0`,
the columns of `self` are dependent exactly when those of `A0` are, and either a
pivot was found at every position so far (`rank = k`; the rows `r < k` have a 1 on
the diagonal and zeros to its right), or one was missed and a column `i < k` of
`self` is zero. -/
def full_inv (A0 : gf2_matrix) (k : Nat) (st : gf2_matrix × gf2_matrix × Nat) : Prop :=
  st.1.rows = A0.rows ∧ st.1.cols = A0.cols ∧
  (dependent_columns st.1 ↔ dependent_columns A0) ∧
  ((st.2.2 = k ∧ ∀ r, r < k → gf2_matrix_get st.1 r r = 1 ∧
      ∀ c, r < c → c < A0.cols → gf2_matrix_get st.1 r c = 0) ∨
    (st.2.2 < k ∧ ∃ i, i < k ∧ ∀ r, r < A0.rows → gf2_matrix_get st.1 r i = 0))


/-! ## cccrack.c: vectors read past their end

The definitions of this section follow the same functions of `cccrack.c` as the ones
above, with one difference: an index that falls past the end of a vector of the heap
does not stop the evaluation; it reads the value `junk row i` that lies there, as
the compiled program does. Nothing is assumed of `junk`. What is left as `none` is
the `NULL` result of the construction and the failed assertion of
`gf2_matrix_gauss_jordan_cols`, which aborts the process. A loop
`for (k = 0; k <= muT; ++k)` is followed for its `muT + 1` iterations, also when
`muT = 2 ^ 32 - 1`, where the compiled loop does not end: a run is followed to the
results it would hold, which are at least those the program retains. -/

namespace Heap

/-- The value read by `row[i]`: the entry `i` of the vector and, past its end, the
value `junk row i` found there. -/
def read (junk : List Nat → Nat → Nat) (row : List Nat) (i : Nat) : Nat :=
  row.getD i (junk row i)

/-- The loop `poly = 0; for (k = 0; k <= muT; ++k) poly |= row[n * k + j] << shift(k)`
shared by `cccrack_rankdef_extract_duals` (`shift(k) = k`) and
`cccrack_rankdef_compute_generators` (`shift(k) = K - k - 1`). The byte read from
`row` is promoted to `int` before the shift. -/
def rankdef_poly (junk : List Nat → Nat → Nat) (row : List Nat) (n muT j : Nat)
    (shift : Nat → Nat) : Nat :=
  (List.range (muT + 1)).foldl
    (fun poly k => poly ||| int_shl (read junk row ((n * k + j) % 2 ^ 32)) (shift k))
    0

/-- The array `list[0 .. n - 1]` of polynomials built from one row. -/
def rankdef_polys (junk : List Nat → Nat → Nat) (row : List Nat) (n muT : Nat)
    (shift : Nat → Nat) : List Nat :=
  (List.range n).map fun j => rankdef_poly junk row n muT j shift

/-- `cccrack_rankdef_extract_duals`. -/
def cccrack_rankdef_extract_duals (junk : List Nat → Nat → Nat) (self : cccrack_rankdef) :
    cccrack_rankdef :=
  self.h.foldl
    (fun s row =>
      { s with h_poly := s.h_poly ++ [rankdef_polys junk row self.n self.muT fun k => k] })
    self

/-- The innermost loop of the construction of the matrix `A` in
`cccrack_rankdef_compute_generators`: for `j < unknowns`,
`p = (i - equations / 2) * n + j` is computed on `unsigned int` and stored in an
`int`; when `p >= 0 && p < unknowns` the cell `(rowcnt, p)` is set to `hrow[j]`. -/
def generators_fill_row (junk : List Nat → Nat → Nat) (A : gf2_matrix) (hrow : List Nat)
    (rowcnt i equations n unknowns : Nat) : gf2_matrix :=
  (List.range unknowns).foldl
    (fun A j =>
      let p := (((i + (2 ^ 32 - equations / 2)) % 2 ^ 32) * n + j) % 2 ^ 32
      if p < 2 ^ 31 ∧ p < unknowns then gf2_matrix_set A rowcnt p (read junk hrow j)
      else A)
    A

/-- The two outer loops of the construction of `A`: one block of `equations` rows
for every dual vector; the state is `(A, rowcnt)`. -/
def generators_fill (junk : List Nat → Nat → Nat) (A : gf2_matrix) (h : List (List Nat))
    (equations n unknowns : Nat) : gf2_matrix × Nat :=
  h.foldl
    (fun st hrow =>
      (List.range equations).foldl
        (fun st i =>
          (generators_fill_row junk st.1 hrow st.2 i equations n unknowns,
            (st.2 + 1) % 2 ^ 32))
        st)
    (A, 0)

/-- `cccrack_rankdef_compute_generators`; `none` when the assertion of the
Gauss-Jordan reduction fails. -/
def cccrack_rankdef_compute_generators (junk : List Nat → Nat → Nat)
    (self : cccrack_rankdef) : Option cccrack_rankdef :=
  let unknowns := (self.n * self.K) % 2 ^ 32
  let equations := (self.K + self.muT) % 2 ^ 32
  let rows := max unknowns ((self.h_count * equations) % 2 ^ 32)
  let A0 := (generators_fill junk (gf2_matrix_new rows unknowns) self.h equations self.n
    unknowns).1
  match gf2_matrix_gauss_jordan_cols A0 true with
  | none => none
  | some (A, B) =>
    let s1 :=
      (List.range unknowns).foldl
        (fun s i =>
          if gf2_matrix_col_is_null A i then
            let row := gf2_matrix_copy_row B i
            { s with
              g_poly := s.g_poly ++
                [rankdef_polys junk row self.n self.muT
                  fun k => (self.K + (2 ^ 32 - k - 1)) % 2 ^ 32]
              g := s.g ++ [row] }
          else s)
        self
    some { s1 with likely := s1.g_poly_count == s1.k }

/-- `memcpy(bits, src, count)` into a fresh array of `count` bytes. -/
def copy_bytes (junk : List Nat → Nat → Nat) (src : List Nat) (count : Nat) : List Nat :=
  (List.range count).map fun i => read junk src i

/-- `memcpy(polys, src, n)` into a fresh zero-filled array of `n` words of 64 bits:
only the first `n` bytes of `src` are copied (the bytes of a word are stored least
significant first, as on x86-64 and AArch64), so word `i` keeps its
`min(8, n - 8 i)` low bytes. -/
def copy_poly_bytes (junk : List Nat → Nat → Nat) (src : List Nat) (n : Nat) : List Nat :=
  (List.range n).map fun i => read junk src i % 2 ^ (8 * min 8 (n - 8 * i))

/-- `cccrack_rankdef_dup`. -/
def cccrack_rankdef_dup (junk : List Nat → Nat → Nat) (orig : cccrack_rankdef) :
    cccrack_rankdef :=
  { cccrack_rankdef_new orig.tagging with
    n_a := orig.n_a, n := orig.n, k := orig.k, K := orig.K, muT := orig.muT,
    likely := orig.likely
    h := orig.h.map fun row => copy_bytes junk row orig.n_a
    g := orig.g.map fun row => copy_bytes junk row ((orig.n * orig.K) % 2 ^ 32)
    h_poly := orig.h_poly.map fun row => copy_poly_bytes junk row orig.n
    g_poly := orig.g_poly.map fun row => copy_poly_bytes junk row orig.n }

/-- `cccrack_eval_candidate`: the copy of `template` is completed with its dual and
generator polynomials and appended to the results when `all` is set or the copy is
likely. The `BOOL` result is always `TRUE`; `none` when the assertion of the
Gauss-Jordan reduction fails. -/
def cccrack_eval_candidate (junk : List Nat → Nat → Nat) (self : cccrack_state)
    (template : cccrack_rankdef) : Option cccrack_state :=
  match cccrack_rankdef_compute_generators junk
      (cccrack_rankdef_extract_duals junk (cccrack_rankdef_dup junk template)) with
  | none => none
  | some dup =>
    if self.params.all || cccrack_rankdef_is_likely dup then
      some (cccrack_push_rankdef self dup)
    else some self

/-- The body of the inner loop of `cccrack_enumerate_configs` for given `k` and `z`:
`muT = n_a - (n_a * k) / n - z`, `K = muT / k + 1` on `unsigned int`, stored in
`template`, which is evaluated when `K > 1`. The state is `(self, template)`. -/
def enumerate_configs_body (junk : List Nat → Nat → Nat) (n k : Nat)
    (st : cccrack_state × cccrack_rankdef) (z : Nat) :
    Option (cccrack_state × cccrack_rankdef) :=
  let muT := (st.2.n_a + (2 ^ 32 - (st.2.n_a * k) % 2 ^ 32 / n) + (2 ^ 32 - z)) % 2 ^ 32
  let t1 : cccrack_rankdef := { st.2 with muT := muT, k := k, K := (muT / k + 1) % 2 ^ 32 }
  if t1.K > 1 then (cccrack_eval_candidate junk st.1 t1).map fun s => (s, t1)
  else some (st.1, t1)

/-- `cccrack_enumerate_configs`: the loops `for (k = 1; k < n; ++k)` and
`for (z = 1; z <= n - k; ++z)`. Returns the object and the template as the loops
leave them (the `BOOL` result is always `TRUE`). -/
def cccrack_enumerate_configs (junk : List Nat → Nat → Nat) (self : cccrack_state)
    (template : cccrack_rankdef) : Option (cccrack_state × cccrack_rankdef) :=
  (List.range' 1 (template.n - 1)).foldlM
    (fun st k =>
      (List.range' 1 (template.n - k)).foldlM (enumerate_configs_body junk template.n k) st)
    (self, template)

/-- The block `if (have_n) { ... ok = TRUE; }` of `cccrack_on_tagging`, entered once
`n` is known: with `k > 0` and `K > 0` given, the single hypothesis
`muT = k * (K - 1)` is evaluated; otherwise all of them are enumerated. Returns
`ok`, `rankdef` and the object. -/
def on_tagging_evaluate (junk : List Nat → Nat → Nat) (self : cccrack_state)
    (rankdef : cccrack_rankdef) : Option (Bool × Option cccrack_rankdef × cccrack_state) :=
  if self.params.k > 0 ∧ self.params.K > 0 then
    let r1 : cccrack_rankdef :=
      { rankdef with
        k := self.params.k
        K := self.params.K
        muT := (self.params.k * ((self.params.K + (2 ^ 32 - 1)) % 2 ^ 32)) % 2 ^ 32 }
    (cccrack_eval_candidate junk self r1).map fun s => (true, some r1, s)
  else (cccrack_enumerate_configs junk self rankdef).map fun r => (true, some r.2, r.1)

/-- One iteration of the loop `for (l = 2; !ok && l < width; ++l)` of
`cccrack_on_tagging`; the state is `(ok, rankdef, self)`, `rankdef` being `none`
while the pointer is `NULL`. The test `gf2_matrix_get_rank(R) < j` is made with
`j = l`, the value left by the loop that fills `R` (which has at least one row
when the reduction did not abort). -/
def on_tagging_width (junk : List Nat → Nat → Nat) (tagging : tagging) (bits : List Nat)
    (len width : Nat) (st : Bool × Option cccrack_rankdef × cccrack_state) (l : Nat) :
    Option (Bool × Option cccrack_rankdef × cccrack_state) :=
  if st.1 then some st
  else
    let height0 := (len / l) % 2 ^ 32
    let height :=
      if height0 > width * CCCRACK_MAX_REL_HEIGHT then width * CCCRACK_MAX_REL_HEIGHT
      else height0
    match gf2_matrix_gauss_jordan_cols (on_tagging_matrix bits height l) true with
    | none => none
    | some (R, B) =>
      if gf2_matrix_get_rank R < l then
        match st.2.1 with
        | none =>
          let rankdef := cccrack_rankdef_from_matrices tagging R B
          if st.2.2.params.n > 0 then
            on_tagging_evaluate junk st.2.2 { rankdef with n := st.2.2.params.n }
          else some (false, some rankdef, st.2.2)
        | some rankdef =>
          on_tagging_evaluate junk st.2.2 (cccrack_rankdef_set_second_defficiency rankdef l)
      else some st

/-- `cccrack_on_tagging`. The comparison of `params.tagging` (an `int`) with
`tagging_id` is made on `unsigned int`; `width = floor(sqrt(len))` is the integer
square root (the conversion of `len` to `double` is exact below `2 ^ 53`); writing
the dump file has no effect on the object. `none` when the assertion of the
Gauss-Jordan reduction fails. -/
def cccrack_on_tagging (junk : List Nat → Nat → Nat) (self : cccrack_state)
    (tagging : tagging) (bits : List Nat) (len : Nat) : Option (Bool × cccrack_state) :=
  if self.params.tagging ≠ -1 ∧
      (self.params.tagging % 2 ^ 32).toNat ≠ tagging.tagging_id then some (true, self)
  else if !self.params.no_gray && !tagging.is_gray then some (true, self)
  else
    let width := min (Nat.sqrt len) CCCRACK_MAX_WIDTH
    ((List.range' 2 (width - 2)).foldlM (on_tagging_width junk tagging bits len width)
      (false, none, self)).map fun st => (true, st.2.2)

/-- The callback registered by `cccrack_new`: `cccrack_on_tagging` applied to the
object behind `private`. The state `none` stands for a process that the assertion
of the reduction has aborted. -/
def cccrack_handler (junk : List Nat → Nat → Nat) (priv : Option cccrack_state)
    (tagging : tagging) (bits : List Nat) (len : Nat) : Bool × Option cccrack_state :=
  match priv with
  | none => (true, none)
  | some self =>
    match cccrack_on_tagging junk self tagging bits len with
    | none => (true, none)
    | some r => (r.1, some r.2)

/-- `cccrack_new`, from the point where the file has been mapped: the parameters
are copied and the tagger is built on the symbols with the object as `private`. -/
def cccrack_new (junk : List Nat → Nat → Nat) (sym_data : List Nat)
    (params : cccrack_params) : Option (cccrack (Option cccrack_state)) :=
  (symtag_new_from_file sym_data params.bps (cccrack_handler junk)
      (some { params := params, rankdef := [] })).map
    fun st => { params := params, symtag := st, rankdef := [] }

/-- A whole session, as `main` runs it: `cccrack_new` on the mapped symbols, then
`cccrack_run`. -/
def cccrack_session (junk : List Nat → Nat → Nat) (sym_data : List Nat)
    (params : cccrack_params) : Option (Bool × cccrack (Option cccrack_state)) :=
  (cccrack_new junk sym_data params).bind cccrack_run

end Heap

/-- C7, counterexample: for `bps = 5` the count returned by
`symtag_get_tagging_count` is `32! mod 2 ^ 64 = 12400865694432886784`, not `32!`. -/
theorem symtag_get_tagging_count_bps5 :
    symtag_get_tagging_count
        (symtag_new ([] : List Nat) 0 5 (fun (_ : Unit) _ _ _ => (true, ())) ()) =
      12400865694432886784 ∧
    symtag_get_tagging_count
        (symtag_new ([] : List Nat) 0 5 (fun (_ : Unit) _ _ _ => (true, ())) ()) ≠
      Nat.factorial (2 ^ 5) := by
  decide

/-- C7, amended: for `bps` in `1..6`, `symtag_get_tagging_count` and
`cccrack_get_tagging_count` on a tagger with `dict_len = 2 ^ bps` return
`(2 ^ bps)!` reduced modulo `2 ^ 64` (the result is a `uint64_t`); this is
`(2 ^ bps)!` itself for `bps ≤ 4`, in particular 2, 24 and 40320 for
`bps = 1, 2, 3`. -/
theorem symtag_get_tagging_count_eq {σ : Type} (params : cccrack_params)
    (rankdef : List cccrack_rankdef) (sym_data : List Nat) (len bps : Nat)
    (cb : σ → tagging → List Nat → Nat → Bool × σ) (priv : σ)
    (h1 : 1 ≤ bps) (h6 : bps ≤ 6) :
    (symtag_new sym_data len bps cb priv).tagging.dict_len = 2 ^ bps ∧
    symtag_get_tagging_count (symtag_new sym_data len bps cb priv) =
      Nat.factorial (2 ^ bps) % 2 ^ 64 ∧
    cccrack_get_tagging_count
        { params := params, symtag := symtag_new sym_data len bps cb priv, rankdef := rankdef } =
      Nat.factorial (2 ^ bps) % 2 ^ 64 ∧
    (bps ≤ 4 → symtag_get_tagging_count (symtag_new sym_data len bps cb priv) =
      Nat.factorial (2 ^ bps)) ∧
    (bps = 1 → symtag_get_tagging_count (symtag_new sym_data len bps cb priv) = 2) ∧
    (bps = 2 → symtag_get_tagging_count (symtag_new sym_data len bps cb priv) = 24) ∧
    (bps = 3 → symtag_get_tagging_count (symtag_new sym_data len bps cb priv) = 40320) := by
  have hcases : bps = 1 ∨ bps = 2 ∨ bps = 3 ∨ bps = 4 ∨ bps = 5 ∨ bps = 6 := by omega
  rcases hcases with h | h | h | h | h | h <;> subst h <;>
    simp only [symtag_get_tagging_count, cccrack_get_tagging_count, symtag_new] <;> decide!

/-- Witness of `symtag_get_tagging_count_eq` at `bps = 3`. -/
theorem symtag_get_tagging_count_eq_witness :
    symtag_get_tagging_count
      (symtag_new [48, 55] 2 3 (fun (_ : Unit) _ _ _ => (true, ())) ()) = 40320 :=
  (symtag_get_tagging_count_eq
    { bps := 0, tagging := -1, dumpfile := none, k := 0, n := 0, K := 0,
      no_gray := false, all := false }
    [] [48, 55] 2 3 (fun (_ : Unit) _ _ _ => (true, ())) () (by decide) (by decide)).2.2.2.2.2.2 rfl

/-! ## Theorems: Gray classification -/

theorem popcount64_byte : ∀ x < 256, popcount64 x = bit_differences x 0 := by
  decide!

theorem bit_differences_xor (a b : Nat) : bit_differences (a ^^^ b) 0 = bit_differences a b := by
  unfold bit_differences
  congr 1
  apply List.filter_congr
  intro k _
  simp [Nat.testBit_xor]

theorem gray_fold (d : Nat → Nat) (n : Nat) :
    (List.range n).foldl
        (fun is_gray i =>
          if is_gray then
            if i > 0 then popcount64 (d i ^^^ d (i - 1)) == 1 else is_gray
          else is_gray)
        true = true ↔
      ∀ i, 0 < i → i < n → popcount64 (d i ^^^ d (i - 1)) = 1 := by
  induction n with
  | zero => simp
  | succ n ih =>
    rw [List.range_succ, List.foldl_append]
    simp only [List.foldl_cons, List.foldl_nil]
    constructor
    · intro h i hi hlt
      by_cases hg : (List.range n).foldl
        (fun is_gray i =>
          if is_gray then
            if i > 0 then popcount64 (d i ^^^ d (i - 1)) == 1 else is_gray
          else is_gray)
        true = true
      · rw [hg] at h
        rcases Nat.lt_succ_iff_lt_or_eq.mp hlt with h1 | h1
        · exact ih.mp hg i hi h1
        · subst h1
          simpa [hi] using h
      · simp [hg] at h
    · intro h
      have hg := ih.mpr (fun i hi hlt => h i hi (Nat.lt_succ_of_lt hlt))
      rw [hg]
      by_cases hn : n > 0
      · simp [hn, h n hn (Nat.lt_succ_self n)]
      · simp [hn]

/-- C8: `tagging_compute_properties` sets `is_gray` to true exactly when every
entry `dict[i]`, `0 < i < dict_len`, differs from `dict[i - 1]` in exactly one bit
(in particular for `dict_len = 2 ^ b`, `b` in `1..6`); the entries are `uint8_t`. -/
theorem tagging_compute_properties_is_gray (t : tagging) (hbyte : ∀ i, t.dict i < 256) :
    (tagging_compute_properties t).is_gray = true ↔
      ∀ i, 0 < i → i < t.dict_len → bit_differences (t.dict i) (t.dict (i - 1)) = 1 := by
  unfold tagging_compute_properties
  simp only
  rw [gray_fold]
  have key : ∀ i, popcount64 (t.dict i ^^^ t.dict (i - 1)) = bit_differences (t.dict i) (t.dict (i - 1)) := by
    intro i
    rw [popcount64_byte _ (Nat.xor_lt_two_pow (n := 8) (hbyte i) (hbyte (i - 1))), bit_differences_xor]
  simp only [key]

/-- Witness of `tagging_compute_properties_is_gray` on the dictionary `[0, 1, 3, 2]`. -/
theorem tagging_compute_properties_is_gray_witness :
    (∀ i, gray_tagging.dict i < 256) ∧
    ((tagging_compute_properties gray_tagging).is_gray = true ↔
      ∀ i, 0 < i → i < gray_tagging.dict_len →
        bit_differences (gray_tagging.dict i) (gray_tagging.dict (i - 1)) = 1) :=
  ⟨fun i => by unfold gray_tagging; simp only; split_ifs <;> decide,
   tagging_compute_properties_is_gray gray_tagging
     (fun i => by unfold gray_tagging; simp only; split_ifs <;> decide)⟩

/-! ## Theorems: construction of the tagger -/

theorem bps_detect_loop_spec (fuel v : Nat) (hv : v < 64) :
    ∀ bps, 1 ≤ bps → bps ≤ 6 → 6 < fuel + bps →
      ∃ b, bps_detect_loop fuel v (bps, 2 ^ bps) = some (b, 2 ^ b) ∧ bps ≤ b ∧ b ≤ 6 ∧
        v < 2 ^ b ∧ ∀ c, bps ≤ c → v < 2 ^ c → b ≤ c := by
  induction fuel with
  | zero => intro bps _ h6 hf; omega
  | succ fuel ih =>
    intro bps h1 h6 hf
    unfold bps_detect_loop
    by_cases hge : v ≥ 2 ^ bps
    · have hlt6 : bps < 6 := by
        by_contra hcon
        have : bps = 6 := by omega
        subst this
        omega
      have hpow : 2 ^ (bps + 1) ≤ 2 ^ 6 := Nat.pow_le_pow_right (by decide) (by omega)
      have e1 : (bps + 1) % 2 ^ 32 = bps + 1 := Nat.mod_eq_of_lt (by omega)
      have e2 : (2 ^ bps <<< 1) % 2 ^ 32 = 2 ^ (bps + 1) := by
        rw [Nat.shiftLeft_eq, ← pow_succ]
        exact Nat.mod_eq_of_lt (by omega)
      rw [if_pos hge, e1, e2]
      obtain ⟨b, hb, hle, hb6, hvb, hmin⟩ := ih (bps + 1) (by omega) (by omega) (by omega)
      refine ⟨b, hb, by omega, hb6, hvb, ?_⟩
      intro c hc hvc
      apply hmin c _ hvc
      by_contra hcon
      have : c = bps := by omega
      subst this
      omega
    · rw [if_neg hge]
      exact ⟨bps, rfl, le_refl _, h6, by omega, fun c hc _ => hc⟩

theorem bps_detect_scan_spec (l : List Nat) :
    ∀ bps valid, 1 ≤ bps → bps ≤ 6 → valid + l.length < 2 ^ 32 →
      ∃ b, bps_detect_scan l (bps, 2 ^ bps, valid) =
          some (b, 2 ^ b, valid + (valid_symbols l).length) ∧
        bps ≤ b ∧ b ≤ 6 ∧ (∀ c ∈ valid_symbols l, c - 48 < 2 ^ b) ∧
        ∀ d, bps ≤ d → (∀ c ∈ valid_symbols l, c - 48 < 2 ^ d) → b ≤ d := by
  induction l with
  | nil =>
    intro bps valid _ h6 _
    exact ⟨bps, by simp [bps_detect_scan, valid_symbols], le_refl _, h6,
      by simp [valid_symbols], fun d hd _ => hd⟩
  | cons c rest ih =>
    intro bps valid h1 h6 hlen
    unfold bps_detect_scan
    by_cases hc : c < 48 ∨ c ≥ 48 + 64
    · rw [if_pos hc]
      have hnot : ¬ (48 ≤ c ∧ c ≤ 48 + 63) := by omega
      have hv : valid_symbols (c :: rest) = [] := by
        simp only [valid_symbols]
        rw [List.takeWhile_cons_of_neg (by simpa using hnot)]
      rw [hv]
      exact ⟨bps, rfl, le_refl _, h6, by simp, fun d hd _ => hd⟩
    · rw [if_neg hc]
      have hin : 48 ≤ c ∧ c ≤ 48 + 63 := by omega
      have hv : valid_symbols (c :: rest) = c :: valid_symbols rest := by
        simp only [valid_symbols]
        rw [List.takeWhile_cons_of_pos (by simpa using hin)]
      obtain ⟨b1, hb1, hle1, hb16, hvb1, hmin1⟩ :=
        bps_detect_loop_spec 64 (c - 48) (by omega) bps h1 h6 (by omega)
      rw [hb1]
      simp only [List.length_cons] at hlen
      have e1 : (valid + 1) % 2 ^ 32 = valid + 1 := Nat.mod_eq_of_lt (by omega)
      simp only [e1]
      obtain ⟨b, hb, hle, hb6, hvb, hmin⟩ := ih b1 (valid + 1) (by omega) hb16 (by omega)
      refine ⟨b, ?_, by omega, hb6, ?_, ?_⟩
      · rw [hb, hv]
        simp only [List.length_cons]
        congr 3
        omega
      · intro x hx
        rw [hv] at hx
        rcases List.mem_cons.mp hx with hx | hx
        · subst hx
          exact lt_of_lt_of_le hvb1 (Nat.pow_le_pow_right (by decide) hle)
        · exact hvb x hx
      · intro d hd hall
        rw [hv] at hall
        apply hmin d
        · exact hmin1 d hd (hall c (List.mem_cons_self _ _))
        · intro x hx
          exact hall x (List.mem_cons_of_mem _ hx)

theorem from_file_wrapped {σ : Type} (sym_data : List Nat)
    (cb : σ → tagging → List Nat → Nat → Bool × σ) (priv : σ) :
    (sym_data.length % 2 ^ 32 = 0 → (symtag_new_from_file sym_data 0 cb priv).isNone = true) ∧
    (sym_data.length % 2 ^ 32 = 1 → sym_data.take 1 = [48] →
      (symtag_new_from_file sym_data 0 cb priv).map (fun s => (s.sym_len, s.tagging.bps)) =
        some (1, 1)) := by
  refine ⟨?_, ?_⟩
  · intro h0
    unfold symtag_new_from_file
    simp only [h0, List.take_zero, if_true]
    rfl
  · intro h1 ht
    unfold symtag_new_from_file
    simp only [h1, ht, if_true]
    rfl

/-- C10, counterexample: the length of the buffer is stored in the `unsigned int`
`sym_len`. A buffer of `2 ^ 32` bytes `'0'` has a valid prefix of `2 ^ 32` symbols,
but `sym_len` is 0 and the construction returns `NULL`; for `2 ^ 32 + 1` bytes `'0'`
the tagger is built with an effective symbol length of 1. -/
theorem symtag_new_from_file_truncates :
    (valid_symbols (List.replicate (2 ^ 32) 48)).length = 2 ^ 32 ∧
    (symtag_new_from_file (List.replicate (2 ^ 32) 48) 0 accept_all ()).isNone = true ∧
    (valid_symbols (List.replicate (2 ^ 32 + 1) 48)).length = 2 ^ 32 + 1 ∧
    (symtag_new_from_file (List.replicate (2 ^ 32 + 1) 48) 0 accept_all ()).map
      (fun s => (s.sym_len, s.tagging.bps)) = some (1, 1) := by
  have hv : ∀ m, valid_symbols (List.replicate m 48) = List.replicate m 48 := by
    intro m
    unfold valid_symbols
    rw [List.takeWhile_replicate]
    simp
  refine ⟨by rw [hv, List.length_replicate], ?_, by rw [hv, List.length_replicate], ?_⟩
  · exact (from_file_wrapped _ accept_all ()).1 (by rw [List.length_replicate]; norm_num)
  · refine (from_file_wrapped _ accept_all ()).2 (by rw [List.length_replicate]; norm_num) ?_
    rw [List.take_replicate]
    have : min 1 (2 ^ 32 + 1) = 1 := by norm_num
    rw [this]
    rfl

/-- C10, amended: on a buffer of fewer than `2 ^ 32` bytes whose first byte lies in
`['0', '0' + 63]`, construction with `bps = 0` succeeds; the effective symbol length
is the length of the longest initial run of bytes in `['0', '0' + 63]` and the
inferred `bps` is the smallest `b` in `1..6` such that every symbol value
`byte - '0'` of that run is below `2 ^ b`. -/
theorem symtag_new_from_file_autodetect {σ : Type} (sym_data : List Nat)
    (cb : σ → tagging → List Nat → Nat → Bool × σ) (priv : σ)
    (hlen : sym_data.length < 2 ^ 32)
    (hfirst : ∃ c rest, sym_data = c :: rest ∧ 48 ≤ c ∧ c ≤ 48 + 63) :
    ∃ self, symtag_new_from_file sym_data 0 cb priv = some self ∧
      self.sym_len = (valid_symbols sym_data).length ∧
      1 ≤ self.tagging.bps ∧ self.tagging.bps ≤ 6 ∧
      (∀ c ∈ valid_symbols sym_data, c - 48 < 2 ^ self.tagging.bps) ∧
      ∀ b, 1 ≤ b → (∀ c ∈ valid_symbols sym_data, c - 48 < 2 ^ b) → self.tagging.bps ≤ b := by
  obtain ⟨b, hb, hle, hb6, hvb, hmin⟩ :=
    bps_detect_scan_spec sym_data 1 0 (le_refl _) (by decide) (by omega)
  have hmod : sym_data.length % 2 ^ 32 = sym_data.length := Nat.mod_eq_of_lt hlen
  have hpos : 0 < (valid_symbols sym_data).length := by
    obtain ⟨c, rest, hc, h1, h2⟩ := hfirst
    subst hc
    have hin : 48 ≤ c ∧ c ≤ 48 + 63 := ⟨h1, h2⟩
    simp only [valid_symbols]
    rw [List.takeWhile_cons_of_pos (by simpa using hin)]
    simp
  have hvl : (valid_symbols sym_data).length ≤ sym_data.length := by
    simp only [valid_symbols]
    exact (List.takeWhile_sublist _).length_le
  refine ⟨symtag_new sym_data (valid_symbols sym_data).length b cb priv, ?_, rfl, hle, hb6, hvb, hmin⟩
  unfold symtag_new_from_file
  simp only [hmod, List.take_length, if_true]
  have h2 : (2 : Nat) = 2 ^ 1 := rfl
  rw [h2, hb]
  simp only [Nat.zero_add]
  rw [if_neg (by omega)]
  by_cases hlt : (valid_symbols sym_data).length < sym_data.length
  · rw [if_pos hlt]
  · rw [if_neg hlt]
    have : (valid_symbols sym_data).length = sym_data.length := by omega
    rw [this]

/-- Witness of `symtag_new_from_file_autodetect` on the buffer `"0123012\n"`. -/
theorem symtag_new_from_file_autodetect_witness :
    ∃ self, symtag_new_from_file [48, 49, 50, 51, 48, 49, 50, 10] 0
        (fun (_ : Unit) _ _ _ => (true, ())) () = some self ∧
      self.sym_len = (valid_symbols [48, 49, 50, 51, 48, 49, 50, 10]).length ∧
      1 ≤ self.tagging.bps ∧ self.tagging.bps ≤ 6 ∧
      (∀ c ∈ valid_symbols [48, 49, 50, 51, 48, 49, 50, 10], c - 48 < 2 ^ self.tagging.bps) ∧
      ∀ b, 1 ≤ b → (∀ c ∈ valid_symbols [48, 49, 50, 51, 48, 49, 50, 10], c - 48 < 2 ^ b) →
        self.tagging.bps ≤ b :=
  symtag_new_from_file_autodetect [48, 49, 50, 51, 48, 49, 50, 10]
    (fun (_ : Unit) _ _ _ => (true, ())) () (by decide) ⟨48, _, rfl, by decide, by decide⟩

/-! ## Theorems: demodulation -/

theorem demodulate_shifts_eq (bps : Nat) (h1 : 1 ≤ bps) (h2 : bps < 2 ^ 32) :
    demodulate_shifts bps = (List.range bps).reverse := by
  unfold demodulate_shifts
  have : (bps + (2 ^ 32 - 1)) % 2 ^ 32 + 1 = bps := by omega
  rw [this]

theorem flatMap_range_chunks (f : Nat → List Nat) (b : Nat) (hf : ∀ i, (f i).length = b) (n : Nat) :
    ((List.range n).flatMap f).length = n * b ∧
      ∀ i t, i < n → t < b → ((List.range n).flatMap f)[i * b + t]? = (f i)[t]? := by
  induction n with
  | zero => simp
  | succ n ih =>
    rw [List.range_succ, List.flatMap_append]
    simp only [List.flatMap_cons, List.flatMap_nil, List.append_nil, List.length_append, ih.1, hf]
    refine ⟨by ring, ?_⟩
    intro i t hi ht
    by_cases hin : i < n
    · have hlt : i * b + t < ((List.range n).flatMap f).length := by
        rw [ih.1]
        calc i * b + t < i * b + b := by omega
          _ = (i + 1) * b := by ring
          _ ≤ n * b := Nat.mul_le_mul_right b hin
      rw [List.getElem?_append_left hlt]
      exact ih.2 i t hin ht
    · have hi' : i = n := by omega
      subst hi'
      have hge : ((List.range i).flatMap f).length ≤ i * b + t := by
        rw [ih.1]; omega
      rw [List.getElem?_append_right hge, ih.1]
      congr 1
      omega

theorem demodulate_bits_spec (sym_data : List Nat) (sym_len : Nat) (t : tagging)
    (h1 : 1 ≤ t.bps) (h2 : t.bps < 2 ^ 32) :
    (demodulate_bits sym_data sym_len t).length = sym_len * t.bps ∧
      ∀ i u, i < sym_len → u < t.bps →
        (demodulate_bits sym_data sym_len t)[i * t.bps + u]? =
          some ((t.dict (((sym_data.getD i 0 + (2 ^ 32 - 48)) % 2 ^ 32) &&& t.mask)
            >>> (t.bps - 1 - u)) &&& 1) := by
  unfold demodulate_bits
  rw [demodulate_shifts_eq t.bps h1 h2]
  have h := flatMap_range_chunks
    (fun i => (List.range t.bps).reverse.map fun j =>
      (t.dict (((sym_data.getD i 0 + (2 ^ 32 - 48)) % 2 ^ 32) &&& t.mask) >>> j) &&& 1)
    t.bps (by intro i; simp) sym_len
  refine ⟨h.1, ?_⟩
  intro i u hi hu
  rw [h.2 i u hi hu]
  simp only [List.getElem?_map]
  have hrev : (List.range t.bps).reverse[u]? = some (t.bps - 1 - u) := by
    rw [List.getElem?_reverse (by simpa using hu)]
    simp only [List.length_range]
    rw [List.getElem?_range (by omega)]
  rw [hrev]
  rfl

/-! ## Theorems: the enumeration order of the tagger -/

theorem mem_completions (n : Nat) :
    ∀ k m q, q ∈ completions n k m ↔
      q.length = k ∧ q.Nodup ∧ ∀ x ∈ q, x < n ∧ m.testBit x = false := by
  intro k
  induction k with
  | zero =>
    intro m q
    simp only [completions, List.mem_singleton]
    constructor
    · rintro rfl; simp
    · rintro ⟨h, _, _⟩; exact List.length_eq_zero.mp h
  | succ k ih =>
    intro m q
    simp only [completions, List.mem_flatMap, List.mem_range]
    constructor
    · rintro ⟨i, hi, hq⟩
      by_cases hb : m.testBit i = true
      · simp [hb] at hq
      · simp only [hb] at hq
        simp only [Bool.false_eq_true, if_false, List.mem_map] at hq
        obtain ⟨q', hq', rfl⟩ := hq
        obtain ⟨hl, hnd, hall⟩ := (ih _ _).mp hq'
        refine ⟨by simp [hl], ?_, ?_⟩
        · rw [List.nodup_cons]
          refine ⟨?_, hnd⟩
          intro hmem
          have := (hall i hmem).2
          simp [Nat.testBit_or, Nat.testBit_two_pow_self] at this
        · intro x hx
          rcases List.mem_cons.mp hx with rfl | hx
          · exact ⟨hi, by simpa using hb⟩
          · have := hall x hx
            refine ⟨this.1, ?_⟩
            have h2 := this.2
            simp only [Nat.testBit_or, Bool.or_eq_false_iff] at h2
            exact h2.1
    · rintro ⟨hl, hnd, hall⟩
      match q, hl, hnd, hall with
      | i :: q', hl, hnd, hall =>
        have hi := hall i (List.mem_cons_self _ _)
        refine ⟨i, hi.1, ?_⟩
        simp only [hi.2, Bool.false_eq_true, if_false, List.mem_map]
        refine ⟨q', ?_, rfl⟩
        rw [ih]
        rw [List.nodup_cons] at hnd
        refine ⟨by simpa using hl, hnd.2, ?_⟩
        intro x hx
        have hx' := hall x (List.mem_cons_of_mem _ hx)
        refine ⟨hx'.1, ?_⟩
        simp only [Nat.testBit_or, Bool.or_eq_false_iff, Nat.testBit_two_pow]
        refine ⟨hx'.2, ?_⟩
        simp only [decide_eq_false_iff_not]
        rintro rfl
        exact hnd.1 hx

theorem nodup_completions (n : Nat) : ∀ k m, (completions n k m).Nodup := by
  intro k
  induction k with
  | zero => intro m; simp [completions]
  | succ k ih =>
    intro m
    simp only [completions]
    rw [List.nodup_flatMap]
    constructor
    · intro i _
      split
      · exact List.nodup_nil
      · exact (ih _).map (fun a b h => (List.cons.inj h).2)
    · have hnd : (List.range n).Pairwise (· ≠ ·) := List.nodup_range n
      refine hnd.imp ?_
      intro a b hab
      simp only [Function.onFun]
      intro q hqa hqb
      split at hqa
      · simp at hqa
      · split at hqb
        · simp at hqb
        · simp only [List.mem_map] at hqa hqb
          obtain ⟨qa, _, rfl⟩ := hqa
          obtain ⟨qb, _, h⟩ := hqb
          exact hab (List.cons.inj h).1.symm

theorem sorted_completions (n : Nat) :
    ∀ k m, (completions n k m).Pairwise (List.Lex (· < ·)) := by
  intro k
  induction k with
  | zero => intro m; simp [completions]
  | succ k ih =>
    intro m
    simp only [completions]
    rw [List.pairwise_flatMap]
    constructor
    · intro i _
      split
      · exact List.Pairwise.nil
      · rw [List.pairwise_map]
        exact (ih _).imp (fun h => List.Lex.cons h)
    · refine (List.pairwise_lt_range n).imp ?_
      intro a b hab x hx y hy
      split at hx
      · simp at hx
      · split at hy
        · simp at hy
        · simp only [List.mem_map] at hx hy
          obtain ⟨qa, _, rfl⟩ := hx
          obtain ⟨qb, _, rfl⟩ := hy
          exact List.Lex.rel hab


theorem countP_remove (P : Nat → Bool) (i : Nat) (hP : P i = true) :
    ∀ l : List Nat, l.Nodup → i ∈ l →
      l.countP (fun x => P x && x != i) + 1 = l.countP P := by
  intro l
  induction l with
  | nil => intro _ h; simp at h
  | cons a l ih =>
    intro hnd hmem
    rw [List.nodup_cons] at hnd
    by_cases ha : a = i
    · subst ha
      have hsame : l.countP (fun x => P x && x != a) = l.countP P := by
        apply List.countP_congr
        intro x hx
        have : x ≠ a := fun h => hnd.1 (h ▸ hx)
        simp [this]
      simp [List.countP_cons, hP, hsame]
    · have hmem' : i ∈ l := by
        rcases List.mem_cons.mp hmem with h | h
        · exact absurd h.symm ha
        · exact h
      have := ih hnd.2 hmem'
      simp only [List.countP_cons]
      by_cases hpa : P a = true
      · simp [hpa, ha]; omega
      · simp [hpa]; omega

theorem free_count_or (n m i : Nat) (hi : i < n) (hb : m.testBit i = false) :
    (List.range n).countP (fun x => !(m ||| 2 ^ i).testBit x) + 1 =
      (List.range n).countP (fun x => !m.testBit x) := by
  rw [← countP_remove (fun x => !m.testBit x) i (by simp [hb]) (List.range n)
    (List.nodup_range n) (List.mem_range.mpr hi)]
  congr 1
  apply List.countP_congr
  intro x _
  simp only [Nat.testBit_or, Nat.testBit_two_pow, Bool.not_or]
  by_cases hx : i = x
  · subst hx; simp
  · have : x ≠ i := fun h => hx h.symm
    simp [hx, this]

theorem length_completions (n : Nat) :
    ∀ k m, (List.range n).countP (fun x => !m.testBit x) = k →
      (completions n k m).length = Nat.factorial k := by
  intro k
  induction k with
  | zero => intro m _; simp [completions]
  | succ k ih =>
    intro m hm
    have gen : ∀ l : List Nat, (∀ i ∈ l, i < n) →
        (l.flatMap fun i =>
          if m.testBit i then [] else (completions n k (m ||| 2 ^ i)).map fun q => i :: q).length =
          l.countP (fun x => !m.testBit x) * Nat.factorial k := by
      intro l
      induction l with
      | nil => intro _; simp
      | cons a l ihl =>
        intro hl
        rw [List.flatMap_cons, List.length_append, ihl (fun i hi => hl i (List.mem_cons_of_mem _ hi))]
        by_cases hb : m.testBit a = true
        · simp [hb, List.countP_cons]
        · have hb' : m.testBit a = false := by simpa using hb
          have ha := hl a (List.mem_cons_self _ _)
          have hk := ih (m ||| 2 ^ a) (by have := free_count_or n m a ha hb'; omega)
          simp [hb', List.countP_cons, hk]
          ring
    simp only [completions]
    rw [gen (List.range n) (fun i hi => List.mem_range.mp hi), hm, Nat.factorial_succ]

theorem free_count_zero (n : Nat) : (List.range n).countP (fun x => !(0 : Nat).testBit x) = n := by
  simp

theorem mem_completions_top (n : Nat) (q : List Nat) :
    q ∈ completions n n 0 ↔ q.Perm (List.range n) := by
  rw [mem_completions]
  constructor
  · rintro ⟨hl, hnd, hall⟩
    have hsub : q ⊆ List.range n := fun x hx => List.mem_range.mpr (hall x hx).1
    exact (List.subperm_of_subset hnd hsub).perm_of_length_le (by simp [hl])
  · intro hp
    refine ⟨by simpa using hp.length_eq, hp.nodup_iff.mpr (List.nodup_range n), ?_⟩
    intro x hx
    exact ⟨List.mem_range.mp (hp.mem_iff.mp hx), by simp⟩

theorem sel_bit_eq (i : Nat) (hi : i < 64) : 1 <<< (i % 64) = 2 ^ i := by
  rw [Nat.mod_eq_of_lt hi, Nat.one_shiftLeft]

theorem and_two_pow_eq_zero (m i : Nat) : m &&& 2 ^ i = 0 ↔ m.testBit i = false := by
  constructor
  · intro h
    have := congrArg (fun x => Nat.testBit x i) h
    simpa [Nat.testBit_and, Nat.testBit_two_pow_self] using this
  · intro h
    apply Nat.eq_of_testBit_eq
    intro j
    simp only [Nat.testBit_and, Nat.testBit_two_pow, Nat.zero_testBit]
    by_cases hj : i = j
    · subst hj; simp [h]
    · simp [hj]

theorem sel_restore (m i : Nat) (hm : m < 2 ^ 64) (hi : i < 64) (hb : m.testBit i = false) :
    (m ||| 2 ^ i) &&& not64 (2 ^ i) = m := by
  have hp : 2 ^ i < 2 ^ 64 := Nat.pow_lt_pow_right (by decide) hi
  have hnot : not64 (2 ^ i) = 2 ^ 64 - (2 ^ i + 1) := by
    unfold not64
    rw [Nat.mod_eq_of_lt hp]
    omega
  rw [hnot]
  apply Nat.eq_of_testBit_eq
  intro j
  rw [Nat.testBit_and, Nat.testBit_or, Nat.testBit_two_pow_sub_succ hp, Nat.testBit_two_pow]
  by_cases hj : i = j
  · subst hj; simp [hb]
  · by_cases hj64 : j < 64
    · simp [hj, hj64]
    · have : m.testBit j = false := by
        apply Nat.testBit_lt_two_pow
        exact lt_of_lt_of_le hm (Nat.pow_le_pow_right (by decide) (by omega))
      simp [hj, hj64, this]

theorem tag_run_emit {σ : Type} (s : symtag σ) (n : Nat) (hs : tag_ready s n) :
    tag_run s n [[]] (symtag_emit s) := by
  obtain ⟨hn, _, _, hid, hcb⟩ := hs
  unfold symtag_emit
  simp only [hcb, if_true]
  refine ⟨rfl, rfl, rfl, rfl, rfl, rfl, rfl, rfl, rfl, fun _ _ => rfl, ?_, ?_⟩
  · exact Nat.mod_lt _ (by decide)
  · refine ⟨_, rfl, ?_, ?_, ?_, ?_⟩
    · simp only [List.map_cons, List.map_nil, List.append_nil, tagging.dict_list]
      rw [← hn]
      rfl
    · rfl
    · intro idx c hc
      cases idx with
      | zero =>
        simp only [List.getElem?_cons_zero, Option.some.injEq] at hc
        subst hc
        simp only [Nat.add_zero]
        exact (Nat.mod_eq_of_lt hid).symm
      | succ idx => simp at hc
    · intro c hc
      simp only [List.mem_singleton] at hc
      subst hc
      exact ⟨rfl, rfl, rfl, rfl, rfl, rfl⟩

theorem tag_run_select {σ : Type} (rec_call : symtag σ → Nat → Bool × symtag σ)
    (n sym k : Nat) (s : symtag σ) (hs : tag_ready s n) (hsym : sym < n)
    (hrec : ∀ s1 : symtag σ, tag_ready s1 n →
      tag_run s1 (sym + 1) (completions n k s1.sel_mask) (rec_call s1 (sym + 1))) :
    ∀ j, j ≤ n →
      tag_run s sym
        ((List.range j).flatMap fun i =>
          if s.sel_mask.testBit i then []
          else (completions n k (s.sel_mask ||| 2 ^ i)).map fun q => i :: q)
        ((List.range j).foldl (symtag_tag_select rec_call sym) (true, s)) := by
  obtain ⟨hn, hn64, hsel, hid, hcb⟩ := hs
  intro j
  induction j with
  | zero =>
    intro _
    refine ⟨rfl, rfl, rfl, rfl, rfl, rfl, rfl, rfl, rfl, fun _ _ => rfl, hid, ?_⟩
    exact ⟨[], by simp, by simp, by simpa using (Nat.mod_eq_of_lt hid).symm,
      by simp, by simp⟩
  | succ j ih =>
    intro hj
    have hprev := ih (by omega)
    rw [List.range_succ, List.foldl_append, List.flatMap_append]
    simp only [List.foldl_cons, List.foldl_nil, List.flatMap_cons, List.flatMap_nil,
      List.append_nil]
    generalize hacc : (List.range j).foldl (symtag_tag_select rec_call sym) (true, s) = acc
      at hprev
    generalize hC : ((List.range j).flatMap fun i =>
          if s.sel_mask.testBit i then []
          else (completions n k (s.sel_mask ||| 2 ^ i)).map fun q => i :: q) = C at hprev
    have hj64 : j < 64 := by omega
    unfold symtag_tag_select
    simp only [hprev.ok, if_true, sel_bit_eq j hj64, hprev.sel]
    by_cases hb : s.sel_mask.testBit j = true
    · have hne : ¬ (s.sel_mask &&& 2 ^ j = 0) := by
        rw [and_two_pow_eq_zero]; simp [hb]
      rw [if_neg hne]
      simp only [hb, if_true, List.append_nil]
      exact hprev
    · have hb' : s.sel_mask.testBit j = false := by simpa using hb
      rw [if_pos ((and_two_pow_eq_zero _ _).mpr hb')]
      simp only [hb', Bool.false_eq_true, if_false]
      have hj8 : j % 2 ^ 8 = j := Nat.mod_eq_of_lt (by omega)
      generalize hs1 : ({ acc.2 with
          sel_mask := s.sel_mask ||| 2 ^ j
          tagging :=
            { acc.2.tagging with
              dict := fun x => if x = sym then j % 2 ^ 8 else acc.2.tagging.dict x } } :
          symtag σ) = s1
      have e_sel : s1.sel_mask = s.sel_mask ||| 2 ^ j := by rw [← hs1]
      have e_sd : s1.sym_data = acc.2.sym_data := by rw [← hs1]
      have e_sl : s1.sym_len = acc.2.sym_len := by rw [← hs1]
      have e_bl : s1.bit_len = acc.2.bit_len := by rw [← hs1]
      have e_ot : s1.on_tagging = acc.2.on_tagging := by rw [← hs1]
      have e_calls : s1.calls = acc.2.calls := by rw [← hs1]
      have e_dl : s1.tagging.dict_len = acc.2.tagging.dict_len := by rw [← hs1]
      have e_bps : s1.tagging.bps = acc.2.tagging.bps := by rw [← hs1]
      have e_mask : s1.tagging.mask = acc.2.tagging.mask := by rw [← hs1]
      have e_id : s1.tagging.tagging_id = acc.2.tagging.tagging_id := by rw [← hs1]
      have e_dict : ∀ x, s1.tagging.dict x = if x = sym then j else acc.2.tagging.dict x := by
        intro x; rw [← hs1]; simp only [hj8]
      have hready : tag_ready s1 n := by
        refine ⟨by rw [e_dl, hprev.dict_len, hn], hn64, ?_, by rw [e_id]; exact hprev.id_lt, ?_⟩
        · rw [e_sel]
          exact Nat.or_lt_two_pow hsel (Nat.pow_lt_pow_right (by decide) hj64)
        · rw [e_ot, hprev.on_tagging]; exact hcb
      have hr := hrec s1 hready
      rw [e_sel] at hr
      simp only [hr.ok, if_true]
      obtain ⟨Lj, hLj, hmapj, hidj, hidxj, hgoodj⟩ := hprev.calls
      obtain ⟨L1, hL1, hmap1, hid1, hidx1, hgood1⟩ := hr.calls
      have hlow : ∀ x, x < sym → s1.tagging.dict x = s.tagging.dict x := by
        intro x hx
        rw [e_dict, if_neg (by omega), hprev.dict_low x hx]
      refine ⟨rfl, ?_, ?_, ?_, ?_, ?_, ?_, ?_, ?_, ?_, hr.id_lt, ?_⟩
      · show (rec_call s1 (sym + 1)).2.sel_mask &&& not64 (2 ^ j) = s.sel_mask
        rw [hr.sel, e_sel]
        exact sel_restore _ _ hsel hj64 hb'
      · show (rec_call s1 (sym + 1)).2.sym_data = _
        rw [hr.sym_data, e_sd, hprev.sym_data]
      · show (rec_call s1 (sym + 1)).2.sym_len = _
        rw [hr.sym_len, e_sl, hprev.sym_len]
      · show (rec_call s1 (sym + 1)).2.bit_len = _
        rw [hr.bit_len, e_bl, hprev.bit_len]
      · show (rec_call s1 (sym + 1)).2.on_tagging = _
        rw [hr.on_tagging, e_ot, hprev.on_tagging]
      · show (rec_call s1 (sym + 1)).2.tagging.dict_len = _
        rw [hr.dict_len, e_dl, hprev.dict_len]
      · show (rec_call s1 (sym + 1)).2.tagging.bps = _
        rw [hr.bps, e_bps, hprev.bps]
      · show (rec_call s1 (sym + 1)).2.tagging.mask = _
        rw [hr.mask, e_mask, hprev.mask]
      · intro x hx
        show (rec_call s1 (sym + 1)).2.tagging.dict x = _
        rw [hr.dict_low x (by omega), hlow x hx]
      · refine ⟨Lj ++ L1, ?_, ?_, ?_, ?_, ?_⟩
        · show (rec_call s1 (sym + 1)).2.calls = _
          rw [hL1, e_calls, hLj, List.append_assoc]
        · rw [List.map_append, List.map_append, hmapj, hmap1, List.map_map]
          congr 1
          apply List.map_congr_left
          intro q _
          simp only [Function.comp]
          rw [List.range_succ, List.map_append, List.map_cons, List.map_nil, e_dict sym,
            if_pos rfl, List.append_assoc, List.singleton_append]
          congr 1
          apply List.map_congr_left
          intro x hx
          exact hlow x (List.mem_range.mp hx)
        · show (rec_call s1 (sym + 1)).2.tagging.tagging_id = _
          rw [hid1, e_id, hidj, List.length_append]
          omega
        · intro idx c hc
          by_cases hlt : idx < Lj.length
          · rw [List.getElem?_append_left hlt] at hc
            exact hidxj idx c hc
          · rw [List.getElem?_append_right (by omega)] at hc
            rw [hidx1 _ c hc, e_id, hidj]
            omega
        · intro c hc
          rcases List.mem_append.mp hc with h | h
          · exact hgoodj c h
          · obtain ⟨g1, g2, g3, g4, g5, g6⟩ := hgood1 c h
            refine ⟨?_, ?_, ?_, ?_, ?_, g6⟩
            · rw [g1, e_sd, e_sl, hprev.sym_data, hprev.sym_len]
            · rw [g2, e_bl, hprev.bit_len]
            · rw [g3, e_bps, hprev.bps]
            · rw [g4, e_mask, hprev.mask]
            · rw [g5, e_dl, hprev.dict_len]

theorem tag_run_internal {σ : Type} (n : Nat) :
    ∀ (fuel : Nat) (s : symtag σ) (sym : Nat), tag_ready s n → sym ≤ n → n - sym < fuel →
      tag_run s sym (completions n (n - sym) s.sel_mask) (symtag_tag_internal fuel s sym) := by
  intro fuel
  induction fuel with
  | zero => intro s sym _ _ h; omega
  | succ fuel ih =>
    intro s sym hs hsym hfuel
    unfold symtag_tag_internal
    have hn := hs.1
    by_cases hlt : sym < n
    · rw [if_pos (by rw [hn]; exact hlt), hn]
      have hk : n - sym = (n - sym - 1) + 1 := by omega
      rw [hk]
      simp only [completions]
      apply tag_run_select (symtag_tag_internal fuel) n sym (n - sym - 1) s hs hlt _ n (le_refl _)
      intro s1 hs1
      have := ih s1 (sym + 1) hs1 (by omega) (by omega)
      have e : n - (sym + 1) = n - sym - 1 := by omega
      rw [e] at this
      exact this
    · rw [if_neg (by rw [hn]; exact hlt)]
      have hsn : sym = n := by omega
      subst hsn
      simp only [Nat.sub_self, completions]
      exact tag_run_emit s sym hs

theorem tag_frame_refl {σ : Type} (s : symtag σ) (b : Bool) : tag_frame s (b, s) :=
  ⟨rfl, rfl, rfl, rfl, rfl, rfl, [], by simp, by simp⟩

theorem tag_frame_trans {σ : Type} (s s1 : symtag σ) (b : Bool) (r : Bool × symtag σ)
    (h1 : tag_frame s (b, s1)) (h2 : tag_frame s1 r) : tag_frame s r := by
  obtain ⟨a1, a2, a3, a4, a5, a6, L1, hL1, hg1⟩ := h1
  obtain ⟨b1, b2, b3, b4, b5, b6, L2, hL2, hg2⟩ := h2
  simp only at a1 a2 a3 a4 a5 a6 hL1
  refine ⟨b1.trans a1, b2.trans a2, b3.trans a3, b4.trans a4, b5.trans a5, b6.trans a6,
    L1 ++ L2, by rw [hL2, hL1, List.append_assoc], ?_⟩
  intro c hc
  rcases List.mem_append.mp hc with h | h
  · exact hg1 c h
  · obtain ⟨g1, g2, g3, g4, g5, g6⟩ := hg2 c h
    exact ⟨by rw [g1, a1, a2], by rw [g2, a3], by rw [g3, a4], by rw [g4, a5], by rw [g5, a6], g6⟩

theorem tag_frame_emit {σ : Type} (s : symtag σ) : tag_frame s (symtag_emit s) := by
  unfold symtag_emit
  simp only
  split
  · exact ⟨rfl, rfl, rfl, rfl, rfl, rfl, _, rfl, by
      intro c hc
      simp only [List.mem_singleton] at hc
      subst hc
      exact ⟨rfl, rfl, rfl, rfl, rfl, rfl⟩⟩
  · exact ⟨rfl, rfl, rfl, rfl, rfl, rfl, _, rfl, by
      intro c hc
      simp only [List.mem_singleton] at hc
      subst hc
      exact ⟨rfl, rfl, rfl, rfl, rfl, rfl⟩⟩

theorem tag_frame_select {σ : Type} (rec_call : symtag σ → Nat → Bool × symtag σ) (sym : Nat)
    (hrec : ∀ s1 : symtag σ, tag_frame s1 (rec_call s1 (sym + 1)))
    (acc : Bool × symtag σ) (i : Nat) :
    tag_frame acc.2 (symtag_tag_select rec_call sym acc i) := by
  unfold symtag_tag_select
  simp only
  split
  · split
    · generalize hs1 : ({ acc.2 with
          sel_mask := acc.2.sel_mask ||| 1 <<< (i % 64)
          tagging :=
            { acc.2.tagging with
              dict := fun x => if x = sym then i % 2 ^ 8 else acc.2.tagging.dict x } } :
          symtag σ) = s1
      have h0 : tag_frame acc.2 (true, s1) := by
        rw [← hs1]
        exact ⟨rfl, rfl, rfl, rfl, rfl, rfl, [], by simp, by simp⟩
      have h1 := hrec s1
      obtain ⟨b1, b2, b3, b4, b5, b6, L2, hL2, hg2⟩ := h1
      split
      · exact tag_frame_trans _ _ _ _ h0 ⟨b1, b2, b3, b4, b5, b6, L2, hL2, hg2⟩
      · exact tag_frame_trans _ _ _ _ h0 ⟨b1, b2, b3, b4, b5, b6, L2, hL2, hg2⟩
    · exact tag_frame_refl _ _
  · exact tag_frame_refl _ _

theorem tag_frame_fold {σ : Type} (rec_call : symtag σ → Nat → Bool × symtag σ) (sym : Nat)
    (hrec : ∀ s1 : symtag σ, tag_frame s1 (rec_call s1 (sym + 1))) (s : symtag σ) :
    ∀ (l : List Nat) (acc : Bool × symtag σ), tag_frame s acc →
      tag_frame s (l.foldl (symtag_tag_select rec_call sym) acc) := by
  intro l
  induction l with
  | nil => intro acc h; exact h
  | cons i l ih =>
    intro acc h
    rw [List.foldl_cons]
    apply ih
    exact tag_frame_trans s acc.2 acc.1 _ h (tag_frame_select rec_call sym hrec acc i)

theorem tag_frame_internal {σ : Type} :
    ∀ (fuel : Nat) (s : symtag σ) (sym : Nat), tag_frame s (symtag_tag_internal fuel s sym) := by
  intro fuel
  induction fuel with
  | zero => intro s sym; exact tag_frame_refl s false
  | succ fuel ih =>
    intro s sym
    unfold symtag_tag_internal
    split
    · exact tag_frame_fold _ sym (fun s1 => ih s1 (sym + 1)) s _ _ (tag_frame_refl s true)
    · exact tag_frame_emit s

theorem int_shl_one (bps : Nat) (h : bps < 31) : int_shl 1 bps = 2 ^ bps := by
  unfold int_shl
  have h1 : bps % 32 = bps := Nat.mod_eq_of_lt (by omega)
  have h2 : 2 ^ bps < 2 ^ 31 := Nat.pow_lt_pow_right (by decide) h
  simp only [h1, Nat.one_shiftLeft]
  have h3 : 2 ^ bps % 2 ^ 32 = 2 ^ bps := Nat.mod_eq_of_lt (by omega)
  rw [h3, if_pos h2]

theorem symtag_tag_run {σ : Type} (self : symtag σ) (n : Nat) (hn : self.tagging.dict_len = n)
    (hn64 : n ≤ 64) (hcb : ∀ p t b l, (self.on_tagging p t b l).1 = true) :
    (symtag_tag self).1 = true ∧
    ∃ L : List tagging_call, (symtag_tag self).2.calls = self.calls ++ L ∧
      L.map (fun c => c.tagging.dict_list) = completions n n 0 ∧
      (∀ (idx : Nat) (c : tagging_call), L[idx]? = some c →
        c.tagging.tagging_id = idx % 2 ^ 32) := by
  have hready : tag_ready
      ({ self with tagging := { self.tagging with tagging_id := 0 }, sel_mask := 0 } : symtag σ)
      n :=
    ⟨hn, hn64, (by decide : (0 : Nat) < 2 ^ 64), (by decide : (0 : Nat) < 2 ^ 32), hcb⟩
  have h := tag_run_internal n (n + 1) _ 0 hready (Nat.zero_le _) (by omega)
  have e : symtag_tag self = symtag_tag_internal (n + 1)
      { self with tagging := { self.tagging with tagging_id := 0 }, sel_mask := 0 } 0 := by
    unfold symtag_tag
    rw [hn]
  rw [e]
  refine ⟨h.ok, ?_⟩
  obtain ⟨L, hL, hmap, _, hidx, _⟩ := h.calls
  refine ⟨L, hL, ?_, ?_⟩
  · rw [hmap]
    simp
  · intro idx c hc
    have := hidx idx c hc
    simpa using this

theorem tag_calls_select {σ : Type} (rec_call : symtag σ → Nat → Bool × symtag σ) (sym : Nat)
    (s : symtag σ) (a : Nat) (ha : a < 64)
    (hgrow : s.sel_mask.testBit a = false →
      s.calls.length <
        (rec_call
          { s with
            sel_mask := s.sel_mask ||| 2 ^ a
            tagging :=
              { s.tagging with
                dict := fun x => if x = sym then a % 2 ^ 8 else s.tagging.dict x } }
          (sym + 1)).2.calls.length) :
    (s.sel_mask.testBit a = false →
      s.calls.length < (symtag_tag_select rec_call sym (true, s) a).2.calls.length) ∧
    (s.sel_mask.testBit a = true → symtag_tag_select rec_call sym (true, s) a = (true, s)) := by
  unfold symtag_tag_select
  simp only [if_true, sel_bit_eq a ha]
  constructor
  · intro hfree
    rw [if_pos ((and_two_pow_eq_zero _ _).mpr hfree)]
    have := hgrow hfree
    split
    · exact this
    · exact this
  · intro hset
    rw [if_neg]
    intro h0
    rw [and_two_pow_eq_zero] at h0
    rw [h0] at hset
    exact Bool.noConfusion hset

theorem tag_calls_fold {σ : Type} (rec_call : symtag σ → Nat → Bool × symtag σ) (sym : Nat)
    (n : Nat) (hn64 : n ≤ 64)
    (hframe : ∀ s1 : symtag σ, tag_frame s1 (rec_call s1 (sym + 1)))
    (s : symtag σ)
    (hgrow : ∀ a, a < n → s.sel_mask.testBit a = false →
      s.calls.length <
        (rec_call
          { s with
            sel_mask := s.sel_mask ||| 2 ^ a
            tagging :=
              { s.tagging with
                dict := fun x => if x = sym then a % 2 ^ 8 else s.tagging.dict x } }
          (sym + 1)).2.calls.length) :
    ∀ l : List Nat, (∀ x ∈ l, x < n) → (∃ i ∈ l, s.sel_mask.testBit i = false) →
      s.calls.length < (l.foldl (symtag_tag_select rec_call sym) (true, s)).2.calls.length := by
  intro l
  induction l with
  | nil =>
    intro _ h
    obtain ⟨i, hi, _⟩ := h
    exact absurd hi (List.not_mem_nil i)
  | cons a l ih =>
    intro hl hex
    rw [List.foldl_cons]
    have ha : a < n := hl a (List.mem_cons_self a l)
    obtain ⟨h1, h2⟩ := tag_calls_select rec_call sym s a (by omega) (hgrow a ha)
    by_cases hfree : s.sel_mask.testBit a = false
    · have hlt := h1 hfree
      have hf := tag_frame_fold rec_call sym hframe
        (symtag_tag_select rec_call sym (true, s) a).2 l
        (symtag_tag_select rec_call sym (true, s) a) (tag_frame_refl _ _)
      obtain ⟨_, _, _, _, _, _, L, hL, _⟩ := hf
      rw [hL, List.length_append]
      omega
    · have hset : s.sel_mask.testBit a = true := by
        cases h : s.sel_mask.testBit a
        · exact absurd h hfree
        · rfl
      rw [h2 hset]
      apply ih (fun x hx => hl x (List.mem_cons_of_mem a hx))
      obtain ⟨i, hi, hif⟩ := hex
      rcases List.mem_cons.mp hi with h | h
      · rw [h, hset] at hif
        exact Bool.noConfusion hif
      · exact ⟨i, h, hif⟩

theorem tag_calls_emit {σ : Type} (s : symtag σ) :
    s.calls.length < (symtag_emit s).2.calls.length := by
  unfold symtag_emit
  simp only
  split <;> simp

theorem tag_calls_internal {σ : Type} (n : Nat) (hn64 : n ≤ 64) :
    ∀ (fuel : Nat) (s : symtag σ) (sym : Nat), s.tagging.dict_len = n → n - sym < fuel →
      n - sym ≤ (List.range n).countP (fun x => !s.sel_mask.testBit x) →
      s.calls.length < (symtag_tag_internal fuel s sym).2.calls.length := by
  intro fuel
  induction fuel with
  | zero =>
    intro s sym _ h
    exact absurd h (Nat.not_lt_zero _)
  | succ fuel ih =>
    intro s sym hn hfuel hfree
    unfold symtag_tag_internal
    split
    · rename_i hlt
      rw [hn] at hlt ⊢
      have key : ∀ s1 : symtag σ, s1.tagging.dict_len = n → s1.calls = s.calls →
          n - (sym + 1) ≤ (List.range n).countP (fun x => !s1.sel_mask.testBit x) →
          s.calls.length < (symtag_tag_internal fuel s1 (sym + 1)).2.calls.length := by
        intro s1 h1 h2 h3
        rw [← h2]
        exact ih s1 (sym + 1) h1 (by omega) h3
      apply tag_calls_fold _ sym n hn64 (fun s1 => tag_frame_internal fuel s1 (sym + 1)) s
      · intro a han hfa
        refine key _ ?_ ?_ ?_
        · exact hn
        · rfl
        have := free_count_or n s.sel_mask a han hfa
        show n - (sym + 1) ≤ (List.range n).countP (fun x => !(s.sel_mask ||| 2 ^ a).testBit x)
        omega
      · intro x hx
        exact List.mem_range.mp hx
      · have hpos : 0 < (List.range n).countP (fun x => !s.sel_mask.testBit x) := by omega
        obtain ⟨i, hi, hif⟩ := List.countP_pos_iff.mp hpos
        exact ⟨i, hi, by simpa using hif⟩
    · exact tag_calls_emit s

theorem tag_calls_nonempty {σ : Type} (self : symtag σ) (h64 : self.tagging.dict_len ≤ 64) :
    self.calls.length < (symtag_tag self).2.calls.length := by
  unfold symtag_tag
  refine tag_calls_internal self.tagging.dict_len h64 _
    { self with tagging := { self.tagging with tagging_id := 0 }, sel_mask := 0 } 0 rfl
    (by omega) ?_
  show self.tagging.dict_len - 0 ≤
    (List.range self.tagging.dict_len).countP (fun x => !(0 : Nat).testBit x)
  simp

/-- C9: for every symbol buffer, every `bps` in `1..30` (in particular `1..6`, the
values a tagger can have) and every callback, each
bit buffer handed to the callback during a run of `symtag_tag` on the tagger built
by `symtag_new` has length `len * bps` and, for `i < len` and `t < bps`, its entry
`i * bps + t` is bit `bps - 1 - t` of `dict[(sym_data[i] - '0') & mask]`, where
`dict` is the dictionary passed with it and `mask = 2 ^ bps - 1`; the difference
`sym_data[i] - '0'` is converted to `unsigned int` before the mask is applied.
Such buffers exist: for `bps ≤ 6` the callback is invoked at least once, whatever
it answers, and when it always succeeds it is invoked with every complete
dictionary, that is, every permutation of `0 .. 2 ^ bps - 1`. -/
theorem symtag_tag_bits {σ : Type} (sym_data : List Nat) (len bps : Nat)
    (cb : σ → tagging → List Nat → Nat → Bool × σ) (priv : σ)
    (h1 : 1 ≤ bps) (h30 : bps ≤ 30) (hlen : len * bps < 2 ^ 64) :
    (bps ≤ 6 → (symtag_tag (symtag_new sym_data len bps cb priv)).2.calls ≠ []) ∧
    (bps ≤ 6 → (∀ p t b l, (cb p t b l).1 = true) →
      ∀ q : List Nat, q.Perm (List.range (2 ^ bps)) →
        ∃ c ∈ (symtag_tag (symtag_new sym_data len bps cb priv)).2.calls,
          c.tagging.dict_list = q) ∧
    ∀ c ∈ (symtag_tag (symtag_new sym_data len bps cb priv)).2.calls,
      c.len = len * bps ∧ c.bits.length = len * bps ∧
      ∀ i t, i < len → t < bps →
        c.bits[i * bps + t]? =
          some ((c.tagging.dict
              (((sym_data.getD i 0 + (2 ^ 32 - 48)) % 2 ^ 32) &&& (2 ^ bps - 1))
            >>> (bps - 1 - t)) &&& 1) := by
  have hdl : (symtag_new sym_data len bps cb priv).tagging.dict_len = 2 ^ bps :=
    int_shl_one bps (by omega)
  refine ⟨?_, ?_, ?_⟩
  · intro h6 hnil
    have hp : 2 ^ bps ≤ 2 ^ 6 := Nat.pow_le_pow_right (by decide) h6
    have := tag_calls_nonempty (symtag_new sym_data len bps cb priv) (by rw [hdl]; omega)
    rw [hnil] at this
    exact absurd this (Nat.not_lt_zero _)
  · intro h6 hcb q hq
    have hp : 2 ^ bps ≤ 2 ^ 6 := Nat.pow_le_pow_right (by decide) h6
    obtain ⟨_, L, hL, hmap, _⟩ :=
      symtag_tag_run (symtag_new sym_data len bps cb priv) (2 ^ bps) hdl (by omega) hcb
    have hq' : q ∈ L.map (fun c => c.tagging.dict_list) := by
      rw [hmap]
      exact (mem_completions_top _ _).mpr hq
    obtain ⟨c, hc, hcq⟩ := List.mem_map.mp hq'
    refine ⟨c, ?_, hcq⟩
    rw [hL]
    exact List.mem_append_right _ hc
  intro c hc
  have hf := tag_frame_internal ((symtag_new sym_data len bps cb priv).tagging.dict_len + 1)
    { symtag_new sym_data len bps cb priv with
      tagging := { (symtag_new sym_data len bps cb priv).tagging with tagging_id := 0 }
      sel_mask := 0 } 0
  obtain ⟨_, _, _, _, _, _, L, hL, hg⟩ := hf
  have hcL : c ∈ L := by
    have : c ∈ (symtag_tag (symtag_new sym_data len bps cb priv)).2.calls := hc
    unfold symtag_tag at this
    rw [hL] at this
    simpa [symtag_new] using this
  obtain ⟨g1, g2, g3, g4, _, _⟩ := hg c hcL
  have hbl : (len * bps) % 2 ^ 64 = len * bps := Nat.mod_eq_of_lt hlen
  have e_bps : c.tagging.bps = bps := g3
  have hp : 2 ^ bps ≤ 2 ^ 30 := Nat.pow_le_pow_right (by decide) h30
  have hp1 : 1 ≤ 2 ^ bps := Nat.one_le_two_pow
  have e_mask : c.tagging.mask = 2 ^ bps - 1 := by
    rw [g4]
    show (int_shl 1 bps + (2 ^ 32 - 1)) % 2 ^ 32 = 2 ^ bps - 1
    rw [int_shl_one bps (by omega)]
    omega
  have hspec := demodulate_bits_spec sym_data len c.tagging (by omega) (by omega)
  rw [e_bps, e_mask] at hspec
  have e_bits : c.bits = demodulate_bits sym_data len c.tagging := g1
  have e_len : c.len = (len * bps) % 2 ^ 64 := g2
  rw [e_bits, e_len, hbl]
  exact ⟨rfl, hspec.1, hspec.2⟩

/-- Witness of `symtag_tag_bits` on the symbols `"0123012"` with `bps = 2`: the
callback is invoked, in particular with the Gray dictionary `[0, 1, 3, 2]`. -/
theorem symtag_tag_bits_witness :
    (1 ≤ 2 ∧ 2 ≤ 30 ∧ 7 * 2 < 2 ^ 64) ∧
    (symtag_tag (symtag_new [48, 49, 50, 51, 48, 49, 50] 7 2 accept_all ())).2.calls ≠ [] ∧
    (∃ c ∈ (symtag_tag (symtag_new [48, 49, 50, 51, 48, 49, 50] 7 2 accept_all ())).2.calls,
      c.tagging.dict_list = [0, 1, 3, 2]) ∧
    ∀ c ∈ (symtag_tag (symtag_new [48, 49, 50, 51, 48, 49, 50] 7 2 accept_all ())).2.calls,
      c.len = 7 * 2 ∧ c.bits.length = 7 * 2 ∧
      ∀ i t, i < 7 → t < 2 →
        c.bits[i * 2 + t]? =
          some ((c.tagging.dict
              ((([48, 49, 50, 51, 48, 49, 50].getD i 0 + (2 ^ 32 - 48)) % 2 ^ 32) &&& (2 ^ 2 - 1))
            >>> (2 - 1 - t)) &&& 1) :=
  ⟨by decide,
   (symtag_tag_bits [48, 49, 50, 51, 48, 49, 50] 7 2 accept_all () (by decide) (by decide)
    (by decide)).1 (by decide),
   (symtag_tag_bits [48, 49, 50, 51, 48, 49, 50] 7 2 accept_all () (by decide) (by decide)
    (by decide)).2.1 (by decide) (fun _ _ _ _ => rfl) [0, 1, 3, 2] (by decide),
   (symtag_tag_bits [48, 49, 50, 51, 48, 49, 50] 7 2 accept_all () (by decide) (by decide)
    (by decide)).2.2⟩

/-- C5: for every `bps ≤ 6` (in particular `bps` in `1..6`) and every tagger with
`dict_len = 2 ^ bps`, whatever its symbol buffer, a run of `symtag_tag` whose
callback always succeeds returns `TRUE` after invoking the callback exactly
`(2 ^ bps)!` times, each time with a `dict` that is a permutation of
`0 .. 2 ^ bps - 1`, and every permutation of that set is passed exactly once. -/
theorem symtag_tag_enumerates {σ : Type} (self : symtag σ) (bps : Nat) (h6 : bps ≤ 6) (hlen : self.tagging.dict_len = 2 ^ bps)
    (hcb : ∀ p t b l, (self.on_tagging p t b l).1 = true) :
    (symtag_tag self).1 = true ∧
    ∃ L : List tagging_call, (symtag_tag self).2.calls = self.calls ++ L ∧
      L.length = Nat.factorial (2 ^ bps) ∧
      (∀ c ∈ L, c.tagging.dict_list.Perm (List.range (2 ^ bps))) ∧
      ∀ p : List Nat, p.Perm (List.range (2 ^ bps)) →
        (L.map fun c => c.tagging.dict_list).count p = 1 := by
  have hp : 2 ^ bps ≤ 2 ^ 6 := Nat.pow_le_pow_right (by decide) h6
  obtain ⟨hok, L, hL, hmap, _⟩ := symtag_tag_run self (2 ^ bps) hlen (by omega) hcb
  refine ⟨hok, L, hL, ?_, ?_, ?_⟩
  · have := congrArg List.length hmap
    rw [List.length_map, length_completions _ _ _ (free_count_zero _)] at this
    exact this
  · intro c hc
    rw [← mem_completions_top, ← hmap]
    exact List.mem_map_of_mem _ hc
  · intro p hp
    rw [hmap]
    have := List.count_eq_one_of_mem (nodup_completions (2 ^ bps) (2 ^ bps) 0)
      ((mem_completions_top _ _).mpr hp)
    rw [← this]
    simp only [List.count]
    apply List.countP_congr
    intro x _
    simp

/-- C6, counterexample: with `bps = 4` there are `16! > 2 ^ 32` taggings, and the
invocation at position `2 ^ 32` of the run receives `tagging_id = 0`, not its
position: the counter is an `unsigned int`. -/
theorem symtag_tag_id_wraps :
    ∃ c, (symtag_tag (symtag_new [] 0 4 accept_all ())).2.calls[2 ^ 32]? = some c ∧
      c.tagging.tagging_id = 0 ∧ c.tagging.tagging_id ≠ 2 ^ 32 := by
  obtain ⟨_, L, hL, hmap, hidx⟩ :=
    symtag_tag_run (symtag_new [] 0 4 accept_all ()) 16 (by decide) (by decide)
      (fun _ _ _ _ => rfl)
  have hlen : L.length = Nat.factorial 16 := by
    have := congrArg List.length hmap
    rw [List.length_map, length_completions _ _ _ (free_count_zero _)] at this
    exact this
  have hlt : 2 ^ 32 < L.length := by
    rw [hlen]
    decide
  have hcalls : (symtag_tag (symtag_new [] 0 4 accept_all ())).2.calls = L := by
    rw [hL]
    rfl
  rw [hcalls]
  refine ⟨L[2 ^ 32], List.getElem?_eq_getElem hlt, ?_⟩
  have := hidx (2 ^ 32) L[2 ^ 32] (List.getElem?_eq_getElem hlt)
  rw [this]
  decide

/-- C6, amended: in a run of `symtag_tag` whose callback always succeeds
(`bps ≤ 6`), the dictionaries passed to consecutive invocations are strictly
increasing in lexicographic order, and the `tagging_id` passed with each is its
0-based position in that order reduced modulo `2 ^ 32`; for `bps ≤ 3` it is the
position itself. -/
theorem symtag_tag_order {σ : Type} (self : symtag σ) (bps : Nat) (h6 : bps ≤ 6) (hlen : self.tagging.dict_len = 2 ^ bps)
    (hcb : ∀ p t b l, (self.on_tagging p t b l).1 = true) :
    ∃ L : List tagging_call, (symtag_tag self).2.calls = self.calls ++ L ∧
      List.Chain' (List.Lex (· < ·)) (L.map fun c => c.tagging.dict_list) ∧
      (∀ (idx : Nat) (c : tagging_call), L[idx]? = some c →
        c.tagging.tagging_id = idx % 2 ^ 32) ∧
      (bps ≤ 3 → ∀ (idx : Nat) (c : tagging_call), L[idx]? = some c → c.tagging.tagging_id = idx) := by
  have hp : 2 ^ bps ≤ 2 ^ 6 := Nat.pow_le_pow_right (by decide) h6
  obtain ⟨_, L, hL, hmap, hidx⟩ := symtag_tag_run self (2 ^ bps) hlen (by omega) hcb
  refine ⟨L, hL, ?_, hidx, ?_⟩
  · rw [hmap]
    exact (sorted_completions _ _ _).chain'
  · intro h3 idx c hc
    rw [hidx idx c hc]
    apply Nat.mod_eq_of_lt
    have hl : L.length = Nat.factorial (2 ^ bps) := by
      have := congrArg List.length hmap
      rw [List.length_map, length_completions _ _ _ (free_count_zero _)] at this
      exact this
    have hi : idx < L.length := by
      by_contra hcon
      rw [List.getElem?_eq_none (by omega)] at hc
      exact absurd hc (by simp)
    have hcases : bps = 0 ∨ bps = 1 ∨ bps = 2 ∨ bps = 3 := by omega
    rcases hcases with h | h | h | h <;> subst h <;> rw [hl] at hi <;>
      exact lt_trans hi (by decide)

/-- Witness of `symtag_tag_enumerates` on the symbols `"01"` with `bps = 1`. -/
theorem symtag_tag_enumerates_witness :
    (symtag_tag (symtag_new [48, 49] 2 1 accept_all ())).1 = true ∧
    ∃ L : List tagging_call,
      (symtag_tag (symtag_new [48, 49] 2 1 accept_all ())).2.calls =
        (symtag_new [48, 49] 2 1 accept_all ()).calls ++ L ∧
      L.length = Nat.factorial (2 ^ 1) ∧
      (∀ c ∈ L, c.tagging.dict_list.Perm (List.range (2 ^ 1))) ∧
      ∀ p : List Nat, p.Perm (List.range (2 ^ 1)) →
        (L.map fun c => c.tagging.dict_list).count p = 1 :=
  symtag_tag_enumerates (symtag_new [48, 49] 2 1 accept_all ()) 1 (by decide) (by decide)
    (fun _ _ _ _ => rfl)

/-- Witness of `symtag_tag_order` on the symbols `"0123"` with `bps = 2`. -/
theorem symtag_tag_order_witness :
    ∃ L : List tagging_call,
      (symtag_tag (symtag_new [48, 49, 50, 51] 4 2 accept_all ())).2.calls =
        (symtag_new [48, 49, 50, 51] 4 2 accept_all ()).calls ++ L ∧
      List.Chain' (List.Lex (· < ·)) (L.map fun c => c.tagging.dict_list) ∧
      (∀ (idx : Nat) (c : tagging_call), L[idx]? = some c →
        c.tagging.tagging_id = idx % 2 ^ 32) ∧
      (2 ≤ 3 → ∀ (idx : Nat) (c : tagging_call), L[idx]? = some c →
        c.tagging.tagging_id = idx) :=
  symtag_tag_order (symtag_new [48, 49, 50, 51] 4 2 accept_all ()) 2 (by decide) (by decide)
    (fun _ _ _ _ => rfl)

/-! ## Theorems: cells of a matrix of at most 32 columns -/

theorem bit_eq_testBit (w c : Nat) : (w >>> c) &&& 1 = (w.testBit c).toNat := by
  rw [Nat.and_one_is_mod, Nat.toNat_testBit, Nat.shiftRight_eq_div_pow]

theorem block_shift_small (c : Nat) (hc : c < 64) :
    GF2_MATRIX_ROW_BLOCK c = 0 ∧ GF2_MATRIX_ROW_SHIFT c = c := by
  unfold GF2_MATRIX_ROW_BLOCK GF2_MATRIX_ROW_SHIFT
  constructor
  · rw [Nat.shiftRight_eq_div_pow]
    exact Nat.div_eq_of_lt hc
  · have : (63 : Nat) = 2 ^ 6 - 1 := rfl
    rw [this, Nat.and_pow_two_sub_one_eq_mod]
    exact Nat.mod_eq_of_lt hc

theorem get_eq (M : gf2_matrix) (r c : Nat) (hc : c < 64) :
    gf2_matrix_get M r c = ((M.row_data r 0).testBit c).toNat := by
  unfold gf2_matrix_get
  rw [(block_shift_small c hc).1, (block_shift_small c hc).2, bit_eq_testBit]

theorem get_le_one (M : gf2_matrix) (r c : Nat) : gf2_matrix_get M r c ≤ 1 := by
  unfold gf2_matrix_get
  rw [Nat.and_one_is_mod]
  omega

theorem int_shl_zero (off : Nat) : int_shl 0 off = 0 := by
  unfold int_shl
  simp

theorem int_shl_one_testBit :
    ∀ off < 32, ∀ c < 32, (int_shl 1 off).testBit c = decide (c = off) := by
  decide!

theorem int_shl_testBit (b off c : Nat) (hb : b ≤ 1) (hoff : off < 32) (hc : c < 32) :
    (int_shl b off).testBit c = (decide (c = off) && decide (b = 1)) := by
  have hcases : b = 0 ∨ b = 1 := by omega
  rcases hcases with h | h
  · subst h
    rw [int_shl_zero]
    simp
  · subst h
    rw [int_shl_one_testBit off hoff c hc]
    simp

theorem not64_two_pow_testBit (off c : Nat) (hoff : off < 64) :
    (not64 (1 <<< off)).testBit c = (decide (c < 64) && !decide (off = c)) := by
  have hp : 2 ^ off < 2 ^ 64 := Nat.pow_lt_pow_right (by decide) hoff
  have hnot : not64 (1 <<< off) = 2 ^ 64 - (2 ^ off + 1) := by
    unfold not64
    rw [Nat.one_shiftLeft, Nat.mod_eq_of_lt hp]
    omega
  rw [hnot, Nat.testBit_two_pow_sub_succ hp, Nat.testBit_two_pow]

theorem get_set (M : gf2_matrix) (r c b r' c' : Nat) (hc : c < 32) (hc' : c' < 32) :
    gf2_matrix_get (gf2_matrix_set M r c b) r' c' =
      if r' = r ∧ c' = c then b &&& 1 else gf2_matrix_get M r' c' := by
  rw [get_eq (gf2_matrix_set M r c b) r' c' (by omega), get_eq M r' c' (by omega)]
  unfold gf2_matrix_set
  simp only [(block_shift_small c (by omega)).1, (block_shift_small c (by omega)).2]
  by_cases hr : r' = r
  · subst hr
    simp only [true_and, and_self, if_true]
    have hb1 : b &&& 1 ≤ 1 := by rw [Nat.and_one_is_mod]; omega
    rw [Nat.testBit_or, Nat.testBit_and, not64_two_pow_testBit c c' (by omega),
      int_shl_testBit _ _ _ hb1 hc hc']
    by_cases hcc : c' = c
    · subst hcc
      simp only [if_true]
      have : b &&& 1 = 0 ∨ b &&& 1 = 1 := by omega
      rcases this with h | h <;> simp [h]
    · have hcc' : ¬ c = c' := fun h => hcc h.symm
      simp [hcc, hcc', show c' < 64 by omega]
  · simp [hr]

theorem get_add (M : gf2_matrix) (r c b r' c' : Nat) (hb : b ≤ 1) (hc : c < 32) (hc' : c' < 32) :
    gf2_matrix_get (gf2_matrix_add M r c b) r' c' =
      if r' = r ∧ c' = c then gf2_matrix_get M r c ^^^ b else gf2_matrix_get M r' c' := by
  rw [get_eq (gf2_matrix_add M r c b) r' c' (by omega), get_eq M r c (by omega),
    get_eq M r' c' (by omega)]
  unfold gf2_matrix_add
  simp only [(block_shift_small c (by omega)).1, (block_shift_small c (by omega)).2]
  by_cases hr : r' = r
  · subst hr
    simp only [true_and, and_self, if_true]
    rw [Nat.testBit_xor, int_shl_testBit _ _ _ hb hc hc']
    by_cases hcc : c' = c
    · subst hcc
      simp only [if_true]
      have : b = 0 ∨ b = 1 := by omega
      rcases this with h | h <;> subst h <;> cases (M.row_data r' 0).testBit c' <;> rfl
    · simp [hcc]
  · simp [hr]
theorem get_swap_rows (M : gf2_matrix) (a b r c : Nat) :
    gf2_matrix_get (gf2_matrix_swap_rows M a b) r c =
      gf2_matrix_get M (if r = a then b else if r = b then a else r) c := by
  unfold gf2_matrix_get gf2_matrix_swap_rows
  simp only
  split
  · rfl
  · split <;> rfl

theorem add_cols_fold (M : gf2_matrix) (a b : Nat) :
    ∀ n, ((List.range n).foldl (fun m i => gf2_matrix_add m i a (gf2_matrix_get m i b)) M).rows =
        M.rows ∧
      ((List.range n).foldl (fun m i => gf2_matrix_add m i a (gf2_matrix_get m i b)) M).cols =
        M.cols ∧
      ∀ r blk,
        ((List.range n).foldl (fun m i => gf2_matrix_add m i a (gf2_matrix_get m i b)) M).row_data
            r blk =
          if r < n ∧ blk = GF2_MATRIX_ROW_BLOCK a then
            M.row_data r blk ^^^ int_shl (gf2_matrix_get M r b) (GF2_MATRIX_ROW_SHIFT a)
          else M.row_data r blk := by
  intro n
  induction n with
  | zero => simp
  | succ n ih =>
    rw [List.range_succ, List.foldl_append]
    simp only [List.foldl_cons, List.foldl_nil]
    generalize hm : (List.range n).foldl
      (fun m i => gf2_matrix_add m i a (gf2_matrix_get m i b)) M = m at ih
    obtain ⟨h1, h2, h3⟩ := ih
    refine ⟨h1, h2, ?_⟩
    intro r blk
    have hget : gf2_matrix_get m n b = gf2_matrix_get M n b := by
      unfold gf2_matrix_get
      rw [h3 n, if_neg (by omega)]
    rw [hget]
    simp only [gf2_matrix_add]
    by_cases hr : r = n
    · subst hr
      by_cases hblk : blk = GF2_MATRIX_ROW_BLOCK a
      · subst hblk
        simp only [and_self, if_true, Nat.lt_succ_self]
        rw [h3 r, if_neg (by omega)]
      · simp only [hblk, and_false, if_false]
        rw [h3 r, if_neg (by omega)]
    · simp only [hr, false_and, if_false]
      rw [h3 r blk]
      by_cases hlt : r < n
      · have : r < n + 1 := by omega
        simp only [hlt, this]
      · have : ¬ r < n + 1 := by omega
        simp only [hlt, this]

theorem add_cols_rows (M : gf2_matrix) (a b : Nat) : (gf2_matrix_add_cols M a b).rows = M.rows :=
  (add_cols_fold M a b M.rows).1

theorem add_cols_cols (M : gf2_matrix) (a b : Nat) : (gf2_matrix_add_cols M a b).cols = M.cols :=
  (add_cols_fold M a b M.rows).2.1

theorem get_add_cols (M : gf2_matrix) (a b r c : Nat) (ha : a < 32) (hc : c < 32) :
    gf2_matrix_get (gf2_matrix_add_cols M a b) r c =
      if r < M.rows ∧ c = a then gf2_matrix_get M r a ^^^ gf2_matrix_get M r b
      else gf2_matrix_get M r c := by
  have h := (add_cols_fold M a b M.rows).2.2 r 0
  rw [(block_shift_small a (by omega)).1, (block_shift_small a (by omega)).2] at h
  have e : (gf2_matrix_add_cols M a b).row_data r 0 =
      if r < M.rows ∧ 0 = 0 then M.row_data r 0 ^^^ int_shl (gf2_matrix_get M r b) a
      else M.row_data r 0 := h
  rw [get_eq (gf2_matrix_add_cols M a b) r c (by omega), e, get_eq M r a (by omega),
    get_eq M r c (by omega)]
  by_cases hr : r < M.rows
  · simp only [hr, true_and, if_true]
    rw [Nat.testBit_xor, int_shl_testBit _ _ _ (get_le_one M r b) ha hc]
    by_cases hca : c = a
    · subst hca
      simp only [if_true]
      have : gf2_matrix_get M r b = 0 ∨ gf2_matrix_get M r b = 1 := by
        have := get_le_one M r b
        omega
      rcases this with h | h <;> rw [h] <;> cases (M.row_data r 0).testBit c <;> rfl
    · simp [hca]
  · simp [hr]

theorem add_rows_fold (M : gf2_matrix) (a b : Nat) :
    ∀ n,
      ((List.range n).foldl
          (fun m i =>
            { m with
              row_data := fun r blk =>
                if r = a ∧ blk = i then m.row_data a i ^^^ m.row_data b i else m.row_data r blk })
          M).rows = M.rows ∧
      ((List.range n).foldl
          (fun m i =>
            { m with
              row_data := fun r blk =>
                if r = a ∧ blk = i then m.row_data a i ^^^ m.row_data b i else m.row_data r blk })
          M).cols = M.cols ∧
      ((List.range n).foldl
          (fun m i =>
            { m with
              row_data := fun r blk =>
                if r = a ∧ blk = i then m.row_data a i ^^^ m.row_data b i else m.row_data r blk })
          M).blocks = M.blocks ∧
      ∀ r blk,
        ((List.range n).foldl
          (fun m i =>
            { m with
              row_data := fun r blk =>
                if r = a ∧ blk = i then m.row_data a i ^^^ m.row_data b i else m.row_data r blk })
          M).row_data r blk =
          if r = a ∧ blk < n then M.row_data a blk ^^^ M.row_data b blk else M.row_data r blk := by
  intro n
  induction n with
  | zero => simp
  | succ n ih =>
    rw [List.range_succ, List.foldl_append]
    simp only [List.foldl_cons, List.foldl_nil]
    generalize hm : (List.range n).foldl
      (fun m i =>
        { m with
          row_data := fun r blk =>
            if r = a ∧ blk = i then m.row_data a i ^^^ m.row_data b i else m.row_data r blk })
      M = m at ih
    obtain ⟨h1, h2, h3, h4⟩ := ih
    refine ⟨h1, h2, h3, ?_⟩
    intro r blk
    show (if r = a ∧ blk = n then m.row_data a n ^^^ m.row_data b n else m.row_data r blk) = _
    by_cases hr : r = a ∧ blk = n
    · obtain ⟨hra, hbn⟩ := hr
      subst hra hbn
      simp only [and_self, if_true, true_and, Nat.lt_succ_self]
      rw [h4 r blk, h4 b blk]
      simp
    · rw [if_neg hr, h4 r blk]
      by_cases hra : r = a
      · subst hra
        have hbn : blk ≠ n := fun h => hr ⟨rfl, h⟩
        by_cases hlt : blk < n
        · simp [hlt, Nat.lt_succ_of_lt hlt]
        · have : ¬ blk < n + 1 := by omega
          simp [hlt, this]
      · simp [hra]

theorem add_rows_rows (M : gf2_matrix) (a b : Nat) : (gf2_matrix_add_rows M a b).rows = M.rows :=
  (add_rows_fold M a b M.blocks).1

theorem add_rows_cols (M : gf2_matrix) (a b : Nat) : (gf2_matrix_add_rows M a b).cols = M.cols :=
  (add_rows_fold M a b M.blocks).2.1

theorem add_rows_blocks (M : gf2_matrix) (a b : Nat) :
    (gf2_matrix_add_rows M a b).blocks = M.blocks :=
  (add_rows_fold M a b M.blocks).2.2.1

theorem get_add_rows (M : gf2_matrix) (a b r c : Nat) (hblk : 0 < M.blocks) (hc : c < 64) :
    gf2_matrix_get (gf2_matrix_add_rows M a b) r c =
      if r = a then gf2_matrix_get M a c ^^^ gf2_matrix_get M b c else gf2_matrix_get M r c := by
  have h := (add_rows_fold M a b M.blocks).2.2.2 r 0
  rw [get_eq _ _ _ hc, get_eq M a c hc, get_eq M b c hc, get_eq M r c hc]
  have e : (gf2_matrix_add_rows M a b).row_data r 0 =
      if r = a ∧ 0 < M.blocks then M.row_data a 0 ^^^ M.row_data b 0 else M.row_data r 0 := h
  rw [e]
  by_cases hr : r = a
  · subst hr
    simp only [hblk, and_self, if_true, Nat.testBit_xor]
    cases (M.row_data r 0).testBit c <;> cases (M.row_data b 0).testBit c <;> rfl
  · simp [hr]

theorem col_is_null_iff (M : gf2_matrix) (c : Nat) (hc : c < 64) :
    gf2_matrix_col_is_null M c = true ↔ ∀ r, r < M.rows → gf2_matrix_get M r c = 0 := by
  unfold gf2_matrix_col_is_null
  rw [List.all_eq_true]
  simp only [(block_shift_small c hc).1, (block_shift_small c hc).2, List.mem_range,
    Nat.one_shiftLeft, beq_iff_eq]
  constructor
  · intro h r hr
    rw [get_eq M r c hc, (and_two_pow_eq_zero _ _).mp (h r hr)]
    rfl
  · intro h r hr
    rw [and_two_pow_eq_zero]
    have := h r hr
    rw [get_eq M r c hc] at this
    cases hb : (M.row_data r 0).testBit c
    · rfl
    · rw [hb] at this
      exact absurd this (by decide)

/-! ## Theorems: invariants of the column reduction -/

theorem dotf_succ (n : Nat) (f g : Nat → Nat) :
    dotf (n + 1) f g = dotf n f g ^^^ (f n &&& g n) := by
  unfold dotf
  rw [List.range_succ, List.foldl_append]
  rfl

theorem dotf_xor (n : Nat) (f f' g : Nat → Nat) :
    dotf n (fun j => f j ^^^ f' j) g = dotf n f g ^^^ dotf n f' g := by
  induction n with
  | zero => simp [dotf]
  | succ n ih =>
    rw [dotf_succ, dotf_succ, dotf_succ, ih, Nat.and_xor_distrib_right]
    simp only [Nat.xor_assoc]
    congr 1
    rw [← Nat.xor_assoc, ← Nat.xor_assoc, Nat.xor_comm (f n &&& g n)]

theorem dotf_congr (n : Nat) (f f' g g' : Nat → Nat) (hf : ∀ j, j < n → f j = f' j)
    (hg : ∀ j, j < n → g j = g' j) : dotf n f g = dotf n f' g' := by
  induction n with
  | zero => rfl
  | succ n ih =>
    rw [dotf_succ, dotf_succ, ih (fun j hj => hf j (by omega)) (fun j hj => hg j (by omega)),
      hf n (by omega), hg n (by omega)]

theorem dotf_unit (n c : Nat) (g : Nat → Nat) (hg : ∀ j, g j ≤ 1) :
    dotf n (fun j => if c = j then 1 else 0) g = if c < n then g c else 0 := by
  induction n with
  | zero => rfl
  | succ n ih =>
    rw [dotf_succ, ih]
    by_cases hc : c = n
    · subst hc
      have := hg c
      have h1 : g c = 0 ∨ g c = 1 := by omega
      rcases h1 with h | h <;> simp [h]
    · by_cases hlt : c < n
      · have : c < n + 1 := by omega
        simp [hc, hlt, this]
      · have : ¬ c < n + 1 := by omega
        simp [hc, hlt, this]

theorem eye_fold (rows cols : Nat) :
    ∀ k, k ≤ 32 →
      ((List.range k).foldl (fun m i => gf2_matrix_set m i i 1) (gf2_matrix_new rows cols)).rows =
        rows ∧
      ((List.range k).foldl (fun m i => gf2_matrix_set m i i 1) (gf2_matrix_new rows cols)).cols =
        cols ∧
      ((List.range k).foldl (fun m i => gf2_matrix_set m i i 1)
        (gf2_matrix_new rows cols)).blocks = GF2_MATRIX_ROW_BLOCKS cols ∧
      ∀ r c, c < 32 →
        gf2_matrix_get
          ((List.range k).foldl (fun m i => gf2_matrix_set m i i 1) (gf2_matrix_new rows cols))
          r c = if r = c ∧ r < k then 1 else 0 := by
  intro k
  induction k with
  | zero =>
    intro _
    refine ⟨rfl, rfl, rfl, ?_⟩
    intro r c hc
    simp only [List.range_zero, List.foldl_nil, Nat.not_lt_zero, and_false, if_false]
    rw [get_eq _ _ _ (by omega)]
    simp [gf2_matrix_new]
  | succ k ih =>
    intro hk
    obtain ⟨h1, h2, h3, h4⟩ := ih (by omega)
    rw [List.range_succ, List.foldl_append]
    simp only [List.foldl_cons, List.foldl_nil]
    refine ⟨h1, h2, h3, ?_⟩
    intro r c hc
    rw [get_set _ _ _ _ _ _ (by omega) hc, h4 r c hc]
    by_cases hr : r = k
    · subst hr
      by_cases hcr : c = r
      · subst hcr; simp
      · have : ¬ r = c := fun h => hcr h.symm
        simp [hcr, this]
    · by_cases hrc : r = c
      · subst hrc
        by_cases hlt : r < k
        · have : r < k + 1 := by omega
          simp [hr, hlt, this]
        · have : ¬ r < k + 1 := by omega
          simp [hr, hlt, this]
      · simp [hr, hrc]

theorem eye_spec (n : Nat) (hn : n ≤ 32) :
    (gf2_matrix_eye n n).rows = n ∧ (gf2_matrix_eye n n).cols = n ∧
    (0 < n → 0 < (gf2_matrix_eye n n).blocks) ∧
    ∀ r c, c < n → gf2_matrix_get (gf2_matrix_eye n n) r c = if r = c then 1 else 0 := by
  have h := eye_fold n n n hn
  have e : gf2_matrix_eye n n =
      (List.range n).foldl (fun m i => gf2_matrix_set m i i 1) (gf2_matrix_new n n) := by
    unfold gf2_matrix_eye
    rw [Nat.min_self]
  rw [e]
  refine ⟨h.1, h.2.1, ?_, ?_⟩
  · intro hpos
    rw [h.2.2.1]
    unfold GF2_MATRIX_ROW_BLOCKS GF2_MATRIX_ROW_BLOCK
    have h1 : (n + 63) % 2 ^ 32 = n + 63 := Nat.mod_eq_of_lt (by omega)
    rw [h1, Nat.shiftRight_eq_div_pow]
    have : 1 ≤ (n + 63) / 2 ^ 6 := by
      rw [Nat.le_div_iff_mul_le (by decide)]
      omega
    omega
  · intro r c hc
    rw [h.2.2.2 r c (by omega)]
    by_cases hrc : r = c
    · subst hrc; simp [hc]
    · simp [hrc]

theorem elim_inv_step (A0 : gf2_matrix) (track : Bool) (i : Nat) (As : gf2_matrix)
    (h32 : A0.cols ≤ 32) (hi : i < A0.cols)
    (s : gf2_matrix × gf2_matrix) (j : Nat) (hij : i < j) (hj : j < A0.cols)
    (hs : elim_inv A0 track i As s) :
    elim_inv A0 track i As
      (if gf2_matrix_get s.1 i j ≠ 0 then
        (gf2_matrix_add_cols s.1 j i, if track then gf2_matrix_add_rows s.2 j i else s.2)
      else s) := by
  by_cases hg : gf2_matrix_get s.1 i j ≠ 0
  · rw [if_pos hg]
    have hA : ∀ r c, c < A0.cols →
        gf2_matrix_get (gf2_matrix_add_cols s.1 j i) r c =
          if r < A0.rows ∧ c = j then gf2_matrix_get s.1 r j ^^^ gf2_matrix_get s.1 r i
          else gf2_matrix_get s.1 r c := by
      intro r c hc
      rw [get_add_cols s.1 j i r c (by omega) (by omega), hs.rows]
    refine ⟨?_, ?_, ?_, ?_, ?_, ?_⟩
    · show (gf2_matrix_add_cols s.1 j i).rows = _
      rw [add_cols_rows, hs.rows]
    · show (gf2_matrix_add_cols s.1 j i).cols = _
      rw [add_cols_cols, hs.cols]
    · intro r c hc
      show gf2_matrix_get (gf2_matrix_add_cols s.1 j i) r c = _
      rw [hA r c (by omega), if_neg (by omega)]
      exact hs.low r c hc
    · intro ht
      subst ht
      simp only [if_true]
      rw [add_rows_cols, add_rows_blocks]
      exact hs.bcols rfl
    · intro ht
      subst ht
      simp only [if_true]
      have hblk := (hs.bcols rfl).2 (by omega)
      intro r' hr'
      obtain ⟨r, hr, hc⟩ := hs.combo rfl r' hr'
      refine ⟨r, hr, ?_⟩
      intro c hcn
      show gf2_matrix_get (gf2_matrix_add_cols s.1 j i) r c = _
      rw [hA r c hcn]
      by_cases hcj : c = j
      · subst hcj
        rw [if_pos ⟨hr, rfl⟩, hc c hcn, hc i hi, ← dotf_xor]
        apply dotf_congr
        · intro k hk
          rw [get_add_rows s.2 c i c k hblk (by omega), if_pos rfl]
        · intro _ _; rfl
      · rw [if_neg (fun h => hcj h.2), hc c hcn]
        apply dotf_congr
        · intro k hk
          rw [get_add_rows s.2 j i c k hblk (by omega), if_neg hcj]
        · intro _ _; rfl
    · intro ht
      subst ht
      simp only [if_true]
      have hblk := (hs.bcols rfl).2 (by omega)
      intro c hcn
      have htc := hs.tri rfl c hcn
      have hti := hs.tri rfl i hi
      by_cases hcj : c = j
      · subst hcj
        refine ⟨?_, ?_⟩
        · rw [get_add_rows s.2 c i c c hblk (by omega), if_pos rfl, htc.1, hti.2 c hij hcn]
          rfl
        · intro k hk hkn
          rw [get_add_rows s.2 c i c k hblk (by omega), if_pos rfl, htc.2 k hk hkn,
            hti.2 k (by omega) hkn]
          rfl
      · refine ⟨?_, ?_⟩
        · rw [get_add_rows s.2 j i c c hblk (by omega), if_neg hcj]
          exact htc.1
        · intro k hk hkn
          rw [get_add_rows s.2 j i c k hblk (by omega), if_neg hcj]
          exact htc.2 k hk hkn
  · rw [if_neg hg]
    exact hs

theorem elim_inv_fold (A0 : gf2_matrix) (track : Bool) (i : Nat) (As : gf2_matrix)
    (h32 : A0.cols ≤ 32) (hi : i < A0.cols) :
    ∀ (l : List Nat), (∀ j ∈ l, i < j ∧ j < A0.cols) →
      ∀ s : gf2_matrix × gf2_matrix, elim_inv A0 track i As s →
        elim_inv A0 track i As
          (l.foldl
            (fun s j =>
              if gf2_matrix_get s.1 i j ≠ 0 then
                (gf2_matrix_add_cols s.1 j i, if track then gf2_matrix_add_rows s.2 j i else s.2)
              else s)
            s) := by
  intro l
  induction l with
  | nil => intro _ s hs; exact hs
  | cons j l ih =>
    intro hl s hs
    rw [List.foldl_cons]
    apply ih (fun x hx => hl x (List.mem_cons_of_mem _ hx))
    have hj := hl j (List.mem_cons_self _ _)
    exact elim_inv_step A0 track i As h32 hi s j hj.1 hj.2 hs

theorem elim_inv_of_gj (A0 : gf2_matrix) (track : Bool) (i : Nat)
    (st : gf2_matrix × gf2_matrix × Nat) (hs : gj_inv A0 track i st) :
    elim_inv A0 track i st.1 (st.1, st.2.1) :=
  ⟨hs.rows, hs.cols, fun _ _ _ => rfl, hs.bcols, hs.combo, hs.tri⟩

theorem nodup_lt_length (P : List Nat) (i : Nat) (hnd : P.Nodup) (hlt : ∀ p ∈ P, p < i) :
    P.length ≤ i := by
  have hsub : P ⊆ List.range i := fun x hx => List.mem_range.mpr (hlt x hx)
  have := (List.subperm_of_subset hnd hsub).length_le
  simpa using this

theorem pivot_spec (A : gf2_matrix) (i : Nat) (hi : i < A.rows) :
    ((gauss_jordan_cols_pivot A i).1 = 0 ∧ (gauss_jordan_cols_pivot A i).2 = A) ∨
    ((gauss_jordan_cols_pivot A i).1 ≠ 0 ∧
      gf2_matrix_get (gauss_jordan_cols_pivot A i).2 i i = 1 ∧
      (gauss_jordan_cols_pivot A i).2.rows = A.rows ∧
      (gauss_jordan_cols_pivot A i).2.cols = A.cols ∧
      ∃ j, i ≤ j ∧ j < A.rows ∧ ∀ r c,
        gf2_matrix_get (gauss_jordan_cols_pivot A i).2 r c =
          gf2_matrix_get A (if r = j then i else if r = i then j else r) c) := by
  unfold gauss_jordan_cols_pivot
  by_cases h0 : gf2_matrix_get A i i = 0
  · rw [if_pos h0]
    cases hf : (List.range' (i + 1) (A.rows - (i + 1))).find?
        (fun j => gf2_matrix_get A j i != 0) with
    | none => exact Or.inl ⟨rfl, rfl⟩
    | some j =>
      right
      have hmem := List.mem_of_find?_eq_some hf
      have hpred := List.find?_some hf
      rw [List.mem_range'_1] at hmem
      have hji : gf2_matrix_get A j i = 1 := by
        have h1 := get_le_one A j i
        have h2 : gf2_matrix_get A j i ≠ 0 := by simpa using hpred
        omega
      refine ⟨Nat.one_ne_zero, ?_, rfl, rfl, j, by omega, by omega, ?_⟩
      · show gf2_matrix_get (gf2_matrix_swap_rows A j i) i i = 1
        rw [get_swap_rows, if_neg (by omega), if_pos rfl]
        exact hji
      · intro r c
        show gf2_matrix_get (gf2_matrix_swap_rows A j i) r c = _
        rw [get_swap_rows]
  · rw [if_neg h0]
    right
    have h1 := get_le_one A i i
    refine ⟨h0, by show gf2_matrix_get A i i = 1; omega, rfl, rfl, i, le_refl _, hi, ?_⟩
    intro r c
    show gf2_matrix_get A r c = _
    by_cases hr : r = i
    · subst hr; simp
    · simp [hr]

theorem gj_inv_step (A0 : gf2_matrix) (track : Bool) (h32 : A0.cols ≤ 32)
    (hrows : A0.cols ≤ A0.rows) (i : Nat) (hi : i < A0.cols)
    (st : gf2_matrix × gf2_matrix × Nat) (hs : gj_inv A0 track i st) :
    gj_inv A0 track (i + 1) (gauss_jordan_cols_step track st i) := by
  unfold gauss_jordan_cols_step
  simp only
  obtain ⟨P, hPnd, hPlen, hP⟩ := hs.pivots
  rcases pivot_spec st.1 i (by rw [hs.rows]; omega) with ⟨hz, hA⟩ | ⟨hnz, hii, hpr, hpc, j, hij, hj, hget⟩
  · rw [if_neg (by simp [hz]), hA]
    exact ⟨hs.rows, hs.cols, ⟨P, hPnd, hPlen, fun p hp => ⟨by have := (hP p hp).1; omega,
      (hP p hp).2⟩⟩, hs.bcols, hs.combo, hs.tri⟩
  · rw [if_pos hnz]
    rw [hs.rows] at hj
    have hpiv : elim_inv A0 track i (gauss_jordan_cols_pivot st.1 i).2
        ((gauss_jordan_cols_pivot st.1 i).2, st.2.1) := by
      refine ⟨by rw [hpr, hs.rows], by rw [hpc, hs.cols], fun _ _ _ => rfl, hs.bcols, ?_, hs.tri⟩
      intro ht r' hr'
      obtain ⟨r, hr, hc⟩ := hs.combo ht r' hr'
      refine ⟨if r = j then i else if r = i then j else r, ?_, ?_⟩
      · split
        · omega
        · split <;> omega
      · intro c hcn
        show gf2_matrix_get (gauss_jordan_cols_pivot st.1 i).2 _ c = _
        rw [hget, ← hc c hcn]
        congr 1
        by_cases h1 : r = j
        · subst h1
          by_cases h2 : i = r
          · subst h2; simp
          · simp [h2]
        · by_cases h2 : r = i
          · subst h2
            simp [h1]
          · simp [h1, h2]
    have hel := elim_inv_fold A0 track i (gauss_jordan_cols_pivot st.1 i).2 h32 hi
      (List.range' (i + 1) ((gauss_jordan_cols_pivot st.1 i).2.cols - (i + 1)))
      (by
        intro x hx
        rw [List.mem_range'_1, hpc, hs.cols] at hx
        omega)
      _ hpiv
    have hel' : elim_inv A0 track i (gauss_jordan_cols_pivot st.1 i).2
        (gauss_jordan_cols_elim track i ((gauss_jordan_cols_pivot st.1 i).2, st.2.1)) := hel
    refine ⟨hel'.rows, hel'.cols, ?_, hel'.bcols, hel'.combo, hel'.tri⟩
    refine ⟨i :: P, ?_, ?_, ?_⟩
    · rw [List.nodup_cons]
      refine ⟨fun hmem => ?_, hPnd⟩
      have := (hP i hmem).1
      omega
    · have hle := nodup_lt_length P i hPnd (fun p hp => (hP p hp).1)
      show (i :: P).length = (st.2.2 + 1) % 2 ^ 32
      rw [List.length_cons, hPlen]
      omega
    · intro p hp
      show p < i + 1 ∧
        gf2_matrix_get
          (gauss_jordan_cols_elim track i ((gauss_jordan_cols_pivot st.1 i).2, st.2.1)).1 p p = 1
      rcases List.mem_cons.mp hp with h | h
      · subst h
        refine ⟨by omega, ?_⟩
        rw [hel'.low p p (le_refl _)]
        exact hii
      · have hp' := hP p h
        refine ⟨by omega, ?_⟩
        rw [hel'.low p p (by omega), hget, if_neg (by omega), if_neg (by omega)]
        exact hp'.2

theorem gj_inv_init (A0 : gf2_matrix) (track : Bool) (h32 : A0.cols ≤ 32) :
    gj_inv A0 track 0
      (A0, if track then gf2_matrix_eye A0.cols A0.cols else gf2_matrix_new 0 0, 0) := by
  obtain ⟨_, e2, e3, e4⟩ := eye_spec A0.cols h32
  refine ⟨rfl, rfl, ⟨[], List.nodup_nil, rfl, by simp⟩, ?_, ?_, ?_⟩
  · intro ht
    subst ht
    exact ⟨e2, e3⟩
  · intro ht r' hr'
    subst ht
    refine ⟨r', hr', ?_⟩
    intro c hc
    simp only [if_true]
    rw [dotf_congr A0.cols _ (fun j => if c = j then 1 else 0) _
      (fun j => gf2_matrix_get A0 r' j) (fun j hj => e4 c j hj) (fun _ _ => rfl),
      dotf_unit _ _ _ (fun j => get_le_one A0 r' j), if_pos hc]
  · intro ht c hc
    subst ht
    simp only [if_true]
    refine ⟨by rw [e4 c c hc, if_pos rfl], ?_⟩
    intro k hk hkn
    rw [e4 c k hkn, if_neg (by omega)]

theorem gj_inv_fold (A0 : gf2_matrix) (track : Bool) (h32 : A0.cols ≤ 32)
    (hrows : A0.cols ≤ A0.rows) (st0 : gf2_matrix × gf2_matrix × Nat)
    (h0 : gj_inv A0 track 0 st0) :
    ∀ k, k ≤ A0.cols →
      gj_inv A0 track k ((List.range k).foldl (gauss_jordan_cols_step track) st0) := by
  intro k
  induction k with
  | zero => intro _; exact h0
  | succ k ih =>
    intro hk
    rw [List.range_succ, List.foldl_append]
    exact gj_inv_step A0 track h32 hrows k (by omega) _ (ih (by omega))

theorem gauss_jordan_cols_spec (A : gf2_matrix) (track : Bool) (h32 : A.cols ≤ 32)
    (hrows : A.cols ≤ A.rows) :
    ∃ st : gf2_matrix × gf2_matrix × Nat,
      gf2_matrix_gauss_jordan_cols A track = some ({ st.1 with rank := st.2.2 }, st.2.1) ∧
      gj_inv A track A.cols st := by
  refine ⟨(List.range A.cols).foldl (gauss_jordan_cols_step track)
    (A, if track then gf2_matrix_eye A.cols A.cols else gf2_matrix_new 0 0, 0), ?_, ?_⟩
  · unfold gf2_matrix_gauss_jordan_cols
    rw [if_pos hrows]
  · exact gj_inv_fold A track h32 hrows _ (gj_inv_init A track h32) A.cols (le_refl _)

theorem null_cols_le (A0 : gf2_matrix) (track : Bool) (h32 : A0.cols ≤ 32)
    (hrows : A0.cols ≤ A0.rows) (st : gf2_matrix × gf2_matrix × Nat)
    (hs : gj_inv A0 track A0.cols st) :
    st.2.2 + null_col_count ({ st.1 with rank := st.2.2 } : gf2_matrix) ≤ A0.cols := by
  obtain ⟨P, hPnd, hPlen, hP⟩ := hs.pivots
  unfold null_col_count
  have hcols : ({ st.1 with rank := st.2.2 } : gf2_matrix).cols = A0.cols := hs.cols
  rw [hcols, ← hPlen, ← List.length_append]
  apply nodup_lt_length
  · rw [List.nodup_append]
    refine ⟨hPnd, (List.nodup_range _).filter _, ?_⟩
    intro p hp hq
    rw [List.mem_filter] at hq
    have hnull := hq.2
    have hp' := hP p hp
    rw [col_is_null_iff _ p (by omega)] at hnull
    have h0 := hnull p (by show p < st.1.rows; rw [hs.rows]; omega)
    have h1 : gf2_matrix_get st.1 p p = 0 := h0
    rw [hp'.2] at h1
    exact absurd h1 (by decide)
  · intro p hp
    rcases List.mem_append.mp hp with h | h
    · exact (hP p h).1
    · rw [List.mem_filter, List.mem_range] at h
      exact h.1

/-! ## Theorems: null columns of the reduced matrix -/

theorem copy_row_length (B : gf2_matrix) (c : Nat) : (gf2_matrix_copy_row B c).length = B.cols := by
  simp [gf2_matrix_copy_row]

theorem copy_row_getD (B : gf2_matrix) (c j : Nat) (hj : j < B.cols) :
    (gf2_matrix_copy_row B c).getD j 0 = gf2_matrix_get B c j := by
  unfold gf2_matrix_copy_row
  rw [List.getD_eq_getElem?_getD, List.getElem?_map, List.getElem?_range hj]
  rfl

theorem null_col_null_vector (A0 : gf2_matrix) (st : gf2_matrix × gf2_matrix × Nat)
    (h32 : A0.cols ≤ 32) (hs : gj_inv A0 true A0.cols st) (c : Nat) (hc : c < A0.cols)
    (hnull : gf2_matrix_col_is_null st.1 c = true) :
    null_vector A0 (gf2_matrix_copy_row st.2.1 c) := by
  intro r' hr'
  obtain ⟨r, hr, hcombo⟩ := hs.combo rfl r' hr'
  rw [col_is_null_iff _ c (by omega)] at hnull
  have h0 := hnull r (by rw [hs.rows]; exact hr)
  rw [hcombo c hc] at h0
  unfold xor_columns
  refine Eq.trans ?_ h0
  apply dotf_congr
  · intro j hj
    exact copy_row_getD _ _ _ (by rw [(hs.bcols rfl).1]; exact hj)
  · intro _ _; rfl

theorem populate_fold (R B : gf2_matrix) :
    ∀ (l : List Nat) (s0 : cccrack_rankdef),
      (l.foldl
        (fun (s : cccrack_rankdef) i =>
          if gf2_matrix_col_is_null R i then { s with h := s.h ++ [gf2_matrix_copy_row B i] }
          else s)
        s0).h =
        s0.h ++ (l.filter fun c => gf2_matrix_col_is_null R c).map (gf2_matrix_copy_row B) ∧
      (l.foldl
        (fun (s : cccrack_rankdef) i =>
          if gf2_matrix_col_is_null R i then { s with h := s.h ++ [gf2_matrix_copy_row B i] }
          else s)
        s0).n_a = s0.n_a := by
  intro l
  induction l with
  | nil => intro s0; simp
  | cons i l ih =>
    intro s0
    rw [List.foldl_cons]
    by_cases hn : gf2_matrix_col_is_null R i = true
    · rw [if_pos hn, (ih _).1, (ih _).2, List.filter_cons, if_pos hn]
      simp
    · rw [if_neg hn, (ih _).1, (ih _).2, List.filter_cons, if_neg hn]
      simp

theorem from_matrices_h (t : tagging) (R B : gf2_matrix) :
    (cccrack_rankdef_from_matrices t R B).h =
      ((List.range R.cols).filter fun c => gf2_matrix_col_is_null R c).map
        (gf2_matrix_copy_row B) ∧
    (cccrack_rankdef_from_matrices t R B).n_a = R.cols := by
  have h := populate_fold R B (List.range R.cols)
    { cccrack_rankdef_new t with n_a := gf2_matrix_get_cols R }
  exact ⟨by simpa [cccrack_rankdef_new] using h.1, h.2⟩

theorem xor_vectors_fold (len k : Nat) (hk : k < len) :
    ∀ (vs : List (List Nat)) (acc : List Nat), acc.length = len →
      (∀ v ∈ vs, v.length = len) →
      (vs.foldl (fun acc v => List.zipWith (fun a b => a ^^^ b) acc v) acc).getD k 0 =
        (vs.map fun v => v.getD k 0).foldl (fun a b => a ^^^ b) (acc.getD k 0) := by
  intro vs
  induction vs with
  | nil => intro acc _ _; rfl
  | cons v vs ih =>
    intro acc hacc hvs
    rw [List.foldl_cons, List.map_cons, List.foldl_cons]
    have hv := hvs v (List.mem_cons_self _ _)
    rw [ih _ (by simp [hacc, hv]) (fun w hw => hvs w (List.mem_cons_of_mem _ hw))]
    congr 1
    rw [List.getD_eq_getElem?_getD, List.getD_eq_getElem?_getD, List.getD_eq_getElem?_getD,
      List.getElem?_zipWith]
    rw [List.getElem?_eq_getElem (by omega : k < acc.length),
      List.getElem?_eq_getElem (by omega : k < v.length)]
    rfl

theorem xor_fold_zero (l : List Nat) (hl : ∀ x ∈ l, x = 0) :
    l.foldl (fun a b => a ^^^ b) 0 = 0 := by
  induction l with
  | nil => rfl
  | cons x l ih =>
    rw [List.foldl_cons, hl x (List.mem_cons_self _ _)]
    exact ih (fun y hy => hl y (List.mem_cons_of_mem _ hy))

theorem triangular_independent (B : gf2_matrix) (n : Nat) (hcols : B.cols = n)
    (htri : ∀ c, c < n → gf2_matrix_get B c c = 1 ∧
      ∀ k, c < k → k < n → gf2_matrix_get B c k = 0)
    (N : List Nat) (hN : N.Sublist (List.range n)) :
    linearly_independent n (N.map (gf2_matrix_copy_row B)) := by
  intro sub hsub hzero
  rw [List.sublist_map_iff] at hsub
  obtain ⟨N', hN', rfl⟩ := hsub
  have hsorted : N'.Pairwise (· < ·) := (List.pairwise_lt_range n).sublist (hN'.trans hN)
  have hlt : ∀ c ∈ N', c < n := fun c hc =>
    List.mem_range.mp ((hN'.trans hN).subset hc)
  rcases List.eq_nil_or_concat N' with h | ⟨N'', c, h⟩
  · subst h; rfl
  · exfalso
    rw [List.concat_eq_append] at h
    subst h
    have hc : c < n := hlt c (by simp)
    have hbelow : ∀ c' ∈ N'', c' < c := by
      intro c' hc'
      rw [List.pairwise_append] at hsorted
      exact hsorted.2.2 c' hc' c (by simp)
    have hentry := xor_vectors_fold n c hc ((N'' ++ [c]).map (gf2_matrix_copy_row B))
      (List.replicate n 0) (by simp) (by
        intro v hv
        rw [List.mem_map] at hv
        obtain ⟨x, _, rfl⟩ := hv
        rw [copy_row_length, hcols])
    have hentry : (xor_vectors n ((N'' ++ [c]).map (gf2_matrix_copy_row B))).getD c 0 = _ :=
      hentry
    rw [hzero] at hentry
    rw [List.map_append, List.map_append, List.foldl_append] at hentry
    simp only [List.map_cons, List.map_nil, List.foldl_cons, List.foldl_nil] at hentry
    rw [copy_row_getD B c c (by rw [hcols]; exact hc), (htri c hc).1] at hentry
    have hz : ((N''.map (gf2_matrix_copy_row B)).map fun v => v.getD c 0).foldl
        (fun a b => a ^^^ b) ((List.replicate n 0).getD c 0) = 0 := by
      have e0 : (List.replicate n 0).getD c 0 = 0 := by
        simp [List.getD_eq_getElem?_getD, List.getElem?_replicate, hc]
      rw [e0]
      apply xor_fold_zero
      intro x hx
      simp only [List.mem_map] at hx
      obtain ⟨v, ⟨c', hc', rfl⟩, rfl⟩ := hx
      have hcc := hbelow c' hc'
      rw [copy_row_getD B c' c (by rw [hcols]; exact hc)]
      exact (htri c' (by omega)).2 c hcc hc
    rw [hz] at hentry
    have e0 : (List.replicate n 0).getD c 0 = 0 := by
      simp [List.getD_eq_getElem?_getD, List.getElem?_replicate, hc]
    rw [e0] at hentry
    exact absurd hentry (by decide)

/-! ## Theorems: the column reduction and the dual vectors -/

/-- C1, failing input: on the 33 x 33 matrix whose non-zero cells are `(0, 0)` and
`(0, 32)`, column 0 of the reduced matrix is null and row 0 of `B` is
`[1, 0, ..., 0]`, but the `XOR` of the selected columns of the original matrix,
its column 0, has entry 1 in row 0. -/
theorem gauss_jordan_cols_wide :
    (gf2_matrix_gauss_jordan_cols wide_matrix true).map
      (fun p => (gf2_matrix_col_is_null p.1 0, gf2_matrix_copy_row p.2 0,
        xor_columns wide_matrix (gf2_matrix_copy_row p.2 0) 0)) =
      some (true, 1 :: List.replicate 32 0, 1) := by
  decide!

/-- C3, counterexample: on the 2 x 2 matrix whose only non-zero cell is `(0, 1)`
the recorded rank is 0 and one column of the reduced matrix is null: the sum is 1,
not `cols = 2`. -/
theorem gauss_jordan_cols_rank_gap :
    (gf2_matrix_gauss_jordan_cols (matrix_of_rows 2 2 [2, 0]) false).map
      (fun p => (gf2_matrix_get_rank p.1, null_col_count p.1, p.1.cols)) = some (0, 1, 2) := by
  decide

/-- C2, counterexample: on the 3 x 3 matrix whose non-zero cells are `(0, 1)` and
`(0, 2)`, a single dual vector `[1, 0, 0]` is collected, although `[0, 1, 1]` is a
null vector of the matrix that it does not span, and the null space has 4 vectors
(dimension 2). -/
theorem gauss_jordan_cols_span_gap :
    (gf2_matrix_gauss_jordan_cols (matrix_of_rows 3 3 [6, 0, 0]) true).map
      (fun p => (cccrack_rankdef_from_matrices binary_tagging p.1 p.2).h) = some [[1, 0, 0]] ∧
    is_null_vector (matrix_of_rows 3 3 [6, 0, 0]) [0, 1, 1] = true ∧
    [0, 1, 1] ∉ span 3 [[1, 0, 0]] ∧
    ((all_vectors 3).filter (is_null_vector (matrix_of_rows 3 3 [6, 0, 0]))).length = 4 := by
  decide

/-! ## Theorems: dual and generator polynomials -/

/-- C4, failing input: for the hypothesis `(k, n, K) = (1, 2, 17)` with the dual
vector whose entries 0 and 29 are set, `cccrack_rankdef_extract_duals` followed by
`cccrack_rankdef_compute_generators` yields a candidate with `likely` true,
`H = [1, D^14]` and `G = [D^15 + 1, D + 1]`, for which the sum of the products
is `1 + D^14`, not 0 modulo `D^(K + muT)`. -/
theorem compute_generators_wide :
    ((cccrack_rankdef_extract_duals wide_rankdef).bind cccrack_rankdef_compute_generators).map
      (fun s => (s.likely, s.h_poly, s.g_poly,
        (s.h_poly.map fun hp => s.g_poly.map fun gp =>
          poly_row_product s.n hp gp % 2 ^ (s.K + s.muT)))) =
      some (true, [[1, 16384]], [[32769, 3]], [[16385]]) := by
  decide!

/-! ## Theorems: captures that are rejected -/

theorem scan_invalid_head (c : Nat) (rest : List Nat) (st : Nat × Nat × Nat)
    (hc : ¬ (48 ≤ c ∧ c ≤ 48 + 63)) : bps_detect_scan (c :: rest) st = some st := by
  obtain ⟨bps, symcnt, valid⟩ := st
  have : c < 48 ∨ c ≥ 48 + 64 := by omega
  simp [bps_detect_scan, this]

/-- C11: when the buffer is empty or its first byte lies outside `['0', '0' + 63]`,
the valid symbol prefix is empty and `symtag_new_from_file` returns `NULL`,
whatever `bps` was asked for. -/
theorem symtag_new_from_file_invalid {σ : Type} (sym_data : List Nat) (bps : Nat)
    (cb : σ → tagging → List Nat → Nat → Bool × σ) (priv : σ)
    (h : sym_data = [] ∨ ∃ c rest, sym_data = c :: rest ∧ ¬ (48 ≤ c ∧ c ≤ 48 + 63)) :
    (valid_symbols sym_data).length = 0 ∧
      symtag_new_from_file sym_data bps cb priv = none := by
  refine ⟨?_, ?_⟩
  · rcases h with h | ⟨c, rest, h, hc⟩
    · subst h; rfl
    · subst h; simp [valid_symbols, List.takeWhile, hc]
  · unfold symtag_new_from_file
    by_cases hb : bps = 0
    · have hs : bps_detect_scan (sym_data.take (sym_data.length % 2 ^ 32)) (1, 2, 0) =
          some (1, 2, 0) := by
        rcases h with h | ⟨c, rest, h, hc⟩
        · subst h; rfl
        · subst h
          cases hn : (c :: rest).length % 2 ^ 32 with
          | zero => rfl
          | succ m => rw [List.take_succ_cons]; exact scan_invalid_head c _ _ hc
      norm_num at hs
      simp [hb, hs]
    · simp [hb]

theorem symtag_new_from_file_invalid_witness :
    (valid_symbols [10, 48, 49]).length = 0 ∧
      symtag_new_from_file [10, 48, 49] 0 accept_all () = none :=
  symtag_new_from_file_invalid [10, 48, 49] 0 accept_all ()
    (Or.inr ⟨10, [48, 49], rfl, by decide⟩)

/-- C12, failing behaviour: with an explicit `bps` (any value `bps + 1` other than 0)
the count `valid` is never incremented, so `symtag_new_from_file` returns `NULL` for
every buffer, buffers made only of valid symbols included. -/
theorem symtag_new_from_file_forced_bps {σ : Type} (sym_data : List Nat) (bps : Nat)
    (cb : σ → tagging → List Nat → Nat → Bool × σ) (priv : σ) :
    symtag_new_from_file sym_data (bps + 1) cb priv = none := by
  simp [symtag_new_from_file]

/-! ## Theorems: wide matrices -/

/-- C19, failing behaviour: in a zero matrix of one row and 33 columns, setting
cell `(0, 32)` to 1 leaves that cell at 0 and sets cell `(0, 0)` instead, and
setting cell `(0, 31)` to 1 also sets cell `(0, 32)`. -/
theorem gf2_matrix_set_wide :
    gf2_matrix_get (gf2_matrix_set (gf2_matrix_new 1 33) 0 32 1) 0 32 = 0 ∧
    gf2_matrix_get (gf2_matrix_set (gf2_matrix_new 1 33) 0 32 1) 0 0 = 1 ∧
    gf2_matrix_get (gf2_matrix_new 1 33) 0 0 = 0 ∧
    gf2_matrix_get (gf2_matrix_set (gf2_matrix_new 1 33) 0 31 1) 0 32 = 1 ∧
    gf2_matrix_get (gf2_matrix_new 1 33) 0 32 = 0 := by
  decide

/-- C20, failing behaviour: the transpose of the 33 x 1 matrix whose only non-zero
cell is `(32, 0)` has cell `(0, 32)` at 0 and cell `(0, 0)` at 1, and transposing
twice does not give the matrix back. -/
theorem gf2_matrix_transpose_wide :
    gf2_matrix_get tall_matrix 32 0 = 1 ∧
    gf2_matrix_get (gf2_matrix_transpose tall_matrix) 0 32 = 0 ∧
    gf2_matrix_get tall_matrix 0 0 = 0 ∧
    gf2_matrix_get (gf2_matrix_transpose tall_matrix) 0 0 = 1 ∧
    gf2_matrix_get (gf2_matrix_transpose (gf2_matrix_transpose tall_matrix)) 32 0 = 0 := by
  decide!

/-! ## Theorems: failure of the callback -/

theorem replay_append {σ : Type} (cb : σ → tagging → List Nat → Nat → Bool × σ) :
    ∀ (L1 L2 : List tagging_call) (p : σ),
      replay cb p (L1 ++ L2) =
        ((replay cb p L1).1 ++ (replay cb (replay cb p L1).2 L2).1,
          (replay cb (replay cb p L1).2 L2).2) := by
  intro L1
  induction L1 with
  | nil => intro L2 p; simp [replay]
  | cons c L1 ih => intro L2 p; simp [replay, ih]

theorem replay_length {σ : Type} (cb : σ → tagging → List Nat → Nat → Bool × σ) :
    ∀ (L : List tagging_call) (p : σ), (replay cb p L).1.length = L.length := by
  intro L
  induction L with
  | nil => intro p; rfl
  | cons c L ih => intro p; simp [replay, ih]

theorem tag_stop_refl {σ : Type} (s : symtag σ) : tag_stop s (true, s) :=
  ⟨rfl, rfl, [], by simp, rfl, rfl, rfl⟩

theorem tag_stop_trans {σ : Type} (s s1 : symtag σ) (acc r r' : Bool × symtag σ)
    (h1 : tag_stop s acc) (hacc : acc.1 = true)
    (e1 : s1.priv = acc.2.priv) (e2 : s1.calls = acc.2.calls)
    (e3 : s1.on_tagging = acc.2.on_tagging)
    (e4 : s1.tagging.dict_len = acc.2.tagging.dict_len)
    (h2 : tag_stop s1 r) (f0 : r'.1 = r.1)
    (f1 : r'.2.priv = r.2.priv) (f2 : r'.2.calls = r.2.calls)
    (f3 : r'.2.on_tagging = r.2.on_tagging)
    (f4 : r'.2.tagging.dict_len = r.2.tagging.dict_len) : tag_stop s r' := by
  obtain ⟨a1, a2, L1, hL1, hp1, hr1, hd1⟩ := h1
  obtain ⟨b1, b2, L2, hL2, hp2, hr2, hd2⟩ := h2
  rw [e3, a1, e1, hp1] at hp2 hr2 hd2
  rw [hacc] at hr1
  have hall : ∀ a ∈ (replay s.on_tagging s.priv L1).1, a = true := by
    intro a ha
    have := List.all_eq_true.mp hr1.symm a ha
    simpa using this
  refine ⟨by rw [f3, b1, e3, a1], by rw [f4, b2, e4, a2], L1 ++ L2,
    by rw [f2, hL2, e2, hL1, List.append_assoc], ?_, ?_, ?_⟩
  · rw [f1, hp2, replay_append]
  · rw [f0, hr2, replay_append, List.all_append, ← hr1, Bool.true_and]
  · rw [replay_append]
    simp only
    by_cases hn : (replay s.on_tagging (replay s.on_tagging s.priv L1).2 L2).1 = []
    · rw [hn, List.append_nil]
      rw [List.all_eq_true]
      intro a ha
      simpa using hall a (List.dropLast_subset _ ha)
    · rw [List.dropLast_append_of_ne_nil _ hn, List.all_append, ← hr1, hd2]
      rfl

theorem tag_stop_emit {σ : Type} (s : symtag σ) : tag_stop s (symtag_emit s) := by
  unfold symtag_emit
  simp only
  split
  · rename_i h
    exact ⟨rfl, rfl, [_], rfl, rfl, by simp [replay, h], by simp [replay]⟩
  · rename_i h
    exact ⟨rfl, rfl, [_], rfl, rfl, by simp [replay, h], by simp [replay]⟩

theorem tag_stop_select {σ : Type} (rec_call : symtag σ → Nat → Bool × symtag σ) (sym n : Nat)
    (hrec : ∀ s1 : symtag σ, s1.tagging.dict_len = n → tag_stop s1 (rec_call s1 (sym + 1)))
    (s : symtag σ) (hn : s.tagging.dict_len = n)
    (acc : Bool × symtag σ) (i : Nat) (h : tag_stop s acc) :
    tag_stop s (symtag_tag_select rec_call sym acc i) := by
  unfold symtag_tag_select
  simp only
  split
  · rename_i hacc
    split
    · generalize hs1 : ({ acc.2 with
          sel_mask := acc.2.sel_mask ||| 1 <<< (i % 64)
          tagging :=
            { acc.2.tagging with
              dict := fun x => if x = sym then i % 2 ^ 8 else acc.2.tagging.dict x } } :
          symtag σ) = s1
      have e1 : s1.priv = acc.2.priv := by rw [← hs1]
      have e2 : s1.calls = acc.2.calls := by rw [← hs1]
      have e3 : s1.on_tagging = acc.2.on_tagging := by rw [← hs1]
      have e4 : s1.tagging.dict_len = acc.2.tagging.dict_len := by rw [← hs1]
      have h1 := hrec s1 (by rw [e4, h.2.1, hn])
      split
      · rename_i hr
        exact tag_stop_trans s s1 acc _ _ h hacc e1 e2 e3 e4 h1 hr.symm rfl rfl rfl rfl
      · rename_i hr
        exact tag_stop_trans s s1 acc _ _ h hacc e1 e2 e3 e4 h1
          (by simpa using hr) rfl rfl rfl rfl
    · exact h
  · exact h

theorem tag_stop_fold {σ : Type} (rec_call : symtag σ → Nat → Bool × symtag σ) (sym n : Nat)
    (hrec : ∀ s1 : symtag σ, s1.tagging.dict_len = n → tag_stop s1 (rec_call s1 (sym + 1)))
    (s : symtag σ) (hn : s.tagging.dict_len = n) :
    ∀ (l : List Nat) (acc : Bool × symtag σ), tag_stop s acc →
      tag_stop s (l.foldl (symtag_tag_select rec_call sym) acc) := by
  intro l
  induction l with
  | nil => intro acc h; exact h
  | cons i l ih =>
    intro acc h
    rw [List.foldl_cons]
    exact ih _ (tag_stop_select rec_call sym n hrec s hn acc i h)

theorem tag_stop_internal {σ : Type} (n : Nat) :
    ∀ (fuel : Nat) (s : symtag σ) (sym : Nat), s.tagging.dict_len = n → 0 < fuel →
      n < fuel + sym → tag_stop s (symtag_tag_internal fuel s sym) := by
  intro fuel
  induction fuel with
  | zero => intro s sym _ h0; omega
  | succ fuel ih =>
    intro s sym hn _ hf
    unfold symtag_tag_internal
    split
    · rename_i hlt
      exact tag_stop_fold _ sym n
        (fun s1 h1 => ih s1 (sym + 1) h1 (by omega) (by omega)) s hn _ _ (tag_stop_refl s)
    · exact tag_stop_emit s

theorem tag_stop_tag {σ : Type} (self : symtag σ) : tag_stop self (symtag_tag self) := by
  unfold symtag_tag
  have h := tag_stop_internal self.tagging.dict_len (self.tagging.dict_len + 1)
    { self with tagging := { self.tagging with tagging_id := 0 }, sel_mask := 0 } 0 rfl
    (by omega) (by omega)
  exact tag_stop_trans self _ (true, self) _ _ (tag_stop_refl self) rfl rfl rfl rfl rfl h
    rfl rfl rfl rfl rfl

theorem replay_invariant {σ : Type} (cb : σ → tagging → List Nat → Nat → Bool × σ)
    (P : σ → Prop) (hP : ∀ p t b l, P p → P (cb p t b l).2) :
    ∀ (L : List tagging_call) (p : σ), P p → P (replay cb p L).2 := by
  intro L
  induction L with
  | nil => intro p h; exact h
  | cons c L ih => intro p h; exact ih _ (hP p c.tagging c.bits c.len h)

/-- C18, counterexample: on the symbols `"01"` with `bps = 1` there are two taggings;
a callback that fails on its first invocation (and would succeed afterwards) is
invoked once only, and `symtag_tag` returns failure. -/
theorem symtag_tag_fail_first :
    symtag_get_tagging_count (symtag_new [48, 49] 2 1 fail_first 0) = 2 ∧
    (symtag_tag (symtag_new [48, 49] 2 1 fail_first 0)).1 = false ∧
    (symtag_tag (symtag_new [48, 49] 2 1 fail_first 0)).2.calls.length = 1 ∧
    (symtag_tag (symtag_new [48, 49] 2 1 fail_first 0)).2.priv = 1 := by
  decide

/-- C18, amended: the enumeration of `symtag_tag` stops at the first invocation of
the callback that reports failure. The result of `symtag_tag` is the conjunction of
the answers of the callback to the invocations made, every invocation but the last
was answered with success, and the private state is the one left by the last. -/
theorem symtag_tag_stops {σ : Type} (self : symtag σ) :
    ∃ L : List tagging_call, (symtag_tag self).2.calls = self.calls ++ L ∧
      (symtag_tag self).2.priv = (replay self.on_tagging self.priv L).2 ∧
      (symtag_tag self).1 = (replay self.on_tagging self.priv L).1.all id ∧
      ∀ idx, idx + 1 < L.length →
        (replay self.on_tagging self.priv L).1[idx]? = some true := by
  obtain ⟨_, _, L, hL, hp, hr, hd⟩ := tag_stop_tag self
  refine ⟨L, hL, hp, hr, ?_⟩
  intro idx hidx
  have hlen := replay_length self.on_tagging L self.priv
  have hlt : idx < (replay self.on_tagging self.priv L).1.dropLast.length := by
    rw [List.length_dropLast, hlen]; omega
  have hmem := List.getElem_mem hlt
  have htrue := List.all_eq_true.mp hd _ hmem
  have hget : (replay self.on_tagging self.priv L).1.dropLast[idx]? =
      (replay self.on_tagging self.priv L).1[idx]? := by
    rw [List.dropLast_eq_take, List.getElem?_take_of_lt]
    rw [hlen]; omega
  rw [← hget, List.getElem?_eq_getElem hlt]
  simpa using htrue

/-! ## Theorems: evaluation of the hypotheses -/


theorem foldlM_option_inv {α β : Type} (f : β → α → Option β) (P : β → Prop) :
    ∀ (l : List α), (∀ b a b', a ∈ l → P b → f b a = some b' → P b') →
      ∀ (b b' : β), P b → l.foldlM f b = some b' → P b' := by
  intro l
  induction l with
  | nil =>
    intro _ b b' hb h
    simp only [List.foldlM_nil, Option.pure_def, Option.some.injEq] at h
    exact h ▸ hb
  | cons a l ih =>
    intro hstep b b' hb h
    rw [List.foldlM_cons] at h
    cases hfa : f b a with
    | none => rw [hfa] at h; simp at h
    | some b1 =>
      rw [hfa] at h
      simp only [Option.bind_eq_bind, Option.some_bind] at h
      exact ih (fun b a b' ha => hstep b a b' (List.mem_cons_of_mem _ ha)) b1 b'
        (hstep b a b1 (List.mem_cons_self _ _) hb hfa) h

theorem mapM_option_length {α β : Type} (f : α → Option β) :
    ∀ (l : List α) (l' : List β), l.mapM f = some l' → l'.length = l.length := by
  intro l
  induction l with
  | nil =>
    intro l' h
    simp only [List.mapM_nil, Option.pure_def, Option.some.injEq] at h
    subst h; rfl
  | cons a l ih =>
    intro l' h
    rw [List.mapM_cons] at h
    cases hfa : f a with
    | none => rw [hfa] at h; simp at h
    | some b =>
      cases hl : l.mapM f with
      | none => rw [hfa, hl] at h; simp at h
      | some l1 =>
        rw [hfa, hl] at h
        simp at h
        subst h
        simp [ih l1 hl]

theorem extract_duals_fields (s s' : cccrack_rankdef)
    (h : cccrack_rankdef_extract_duals s = some s') :
    s'.tagging = s.tagging ∧ s'.h = s.h ∧ s'.g = s.g ∧ s'.g_poly = s.g_poly ∧
    s'.n_a = s.n_a ∧ s'.n = s.n ∧ s'.k = s.k ∧ s'.K = s.K ∧ s'.muT = s.muT := by
  unfold cccrack_rankdef_extract_duals at h
  refine foldlM_option_inv _
    (fun x : cccrack_rankdef => x.tagging = s.tagging ∧ x.h = s.h ∧ x.g = s.g ∧
      x.g_poly = s.g_poly ∧ x.n_a = s.n_a ∧ x.n = s.n ∧ x.k = s.k ∧ x.K = s.K ∧
      x.muT = s.muT) s.h ?_ s s' ⟨rfl, rfl, rfl, rfl, rfl, rfl, rfl, rfl, rfl⟩ h
  intro b a b' _ hb hf
  cases hp : rankdef_polys a s.n s.muT fun k => k with
  | none => rw [hp] at hf; simp at hf
  | some list =>
    rw [hp] at hf
    simp only [Option.map_some', Option.some.injEq] at hf
    subst hf
    exact hb

theorem compute_generators_fields (s s' : cccrack_rankdef)
    (h : cccrack_rankdef_compute_generators s = some s') :
    s'.tagging = s.tagging ∧ s'.h = s.h ∧ s'.h_poly = s.h_poly ∧
    s'.n_a = s.n_a ∧ s'.n = s.n ∧ s'.k = s.k ∧ s'.K = s.K ∧ s'.muT = s.muT ∧
    s'.likely = (s'.g_poly_count == s'.k) ∧
    s'.g.length + s.g_poly.length = s'.g_poly_count + s.g.length := by
  unfold cccrack_rankdef_compute_generators at h
  simp only at h
  split at h
  · simp at h
  · split at h
    · simp at h
    · rename_i A B _
      cases hf : (List.range ((s.n * s.K) % 2 ^ 32)).foldlM
        (fun (s1 : cccrack_rankdef) i =>
          if gf2_matrix_col_is_null A i then
            (rankdef_polys (gf2_matrix_copy_row B i) s.n s.muT
              fun k => (s.K + (2 ^ 32 - k - 1)) % 2 ^ 32).map
              fun list => { s1 with g_poly := s1.g_poly ++ [list],
                                    g := s1.g ++ [gf2_matrix_copy_row B i] }
          else some s1) s with
      | none => rw [hf] at h; simp at h
      | some s1 =>
        rw [hf] at h
        simp only [Option.map_some', Option.some.injEq] at h
        have hP := foldlM_option_inv _
          (fun x : cccrack_rankdef => x.tagging = s.tagging ∧ x.h = s.h ∧
            x.h_poly = s.h_poly ∧ x.n_a = s.n_a ∧ x.n = s.n ∧ x.k = s.k ∧ x.K = s.K ∧
            x.muT = s.muT ∧ x.g.length + s.g_poly.length = x.g_poly.length + s.g.length)
          _ (by
            intro b a b' _ hb hstep
            split at hstep
            · cases hp : rankdef_polys (gf2_matrix_copy_row B a) s.n s.muT
                  fun k => (s.K + (2 ^ 32 - k - 1)) % 2 ^ 32 with
              | none => rw [hp] at hstep; simp at hstep
              | some list =>
                rw [hp] at hstep
                simp only [Option.map_some', Option.some.injEq] at hstep
                subst hstep
                obtain ⟨h1, h2, h3, h4, h5, h6, h7, h8, h9⟩ := hb
                refine ⟨h1, h2, h3, h4, h5, h6, h7, h8, ?_⟩
                simp only [List.length_append, List.length_singleton]
                omega
            · simp only [Option.some.injEq] at hstep
              subst hstep
              exact hb) s s1 ⟨rfl, rfl, rfl, rfl, rfl, rfl, rfl, rfl, Nat.add_comm _ _⟩ hf
        subst h
        obtain ⟨h1, h2, h3, h4, h5, h6, h7, h8, h9⟩ := hP
        exact ⟨h1, h2, h3, h4, h5, h6, h7, h8, rfl, h9⟩

theorem rankdef_dup_fields (orig d : cccrack_rankdef) (h : cccrack_rankdef_dup orig = some d) :
    d.tagging = tagging_copy orig.tagging ∧ d.n_a = orig.n_a ∧ d.n = orig.n ∧
    d.k = orig.k ∧ d.K = orig.K ∧ d.muT = orig.muT ∧ d.likely = orig.likely ∧
    d.h.length = orig.h.length ∧ d.g.length = orig.g.length ∧
    d.g_poly.length = orig.g_poly.length ∧ d.h_poly.length = orig.h_poly.length := by
  unfold cccrack_rankdef_dup at h
  split at h
  · simp at h
  · rename_i hh hh_eq
    split at h
    · simp at h
    · rename_i g hg_eq
      split at h
      · simp at h
      · rename_i hp hp_eq
        split at h
        · simp at h
        · rename_i gp gp_eq
          simp only [Option.some.injEq] at h
          subst h
          exact ⟨rfl, rfl, rfl, rfl, rfl, rfl, rfl, mapM_option_length _ _ _ hh_eq,
            mapM_option_length _ _ _ hg_eq, mapM_option_length _ _ _ gp_eq,
            mapM_option_length _ _ _ hp_eq⟩

theorem eval_candidate_spec (self self' : cccrack_state) (tpl : cccrack_rankdef)
    (h : cccrack_eval_candidate self tpl = some self') :
    self'.params = self.params ∧
    (self'.rankdef = self.rankdef ∨
      ∃ c, self'.rankdef = self.rankdef ++ [c] ∧ evaluated self.params.all tpl c) := by
  unfold cccrack_eval_candidate at h
  split at h
  · simp at h
  · rename_i d0 hd0
    split at h
    · simp at h
    · rename_i d1 hd1
      split at h
      · simp at h
      · rename_i d hd
        have a := rankdef_dup_fields _ _ hd0
        have b := extract_duals_fields _ _ hd1
        have c := compute_generators_fields _ _ hd
        split at h
        · rename_i hsave
          simp only [Option.some.injEq] at h
          subst h
          refine ⟨rfl, Or.inr ⟨d, rfl, ?_⟩⟩
          obtain ⟨a1, a2, a3, a4, a5, a6, a7, a8, a9, a10, a11⟩ := a
          obtain ⟨b1, b2, b3, b4, b5, b6, b7, b8, b9⟩ := b
          obtain ⟨c1, c2, c3, c4, c5, c6, c7, c8, c9, c10⟩ := c
          refine ⟨by rw [c1, b1, a1], by rw [c4, b5, a2], by rw [c5, b6, a3],
            by rw [c6, b7, a4], by rw [c7, b8, a5], by rw [c8, b9, a6], ?_, c9, ?_, ?_⟩
          · unfold cccrack_rankdef.h_count; rw [c2, b2, a8]
          · rw [b4, b3, a10, a9] at c10; exact c10
          · intro hall
            simpa [hall, cccrack_rankdef_is_likely] using hsave
        · simp only [Option.some.injEq] at h
          subst h
          exact ⟨rfl, Or.inl rfl⟩


theorem same_template_refl (a : cccrack_rankdef) : same_template a a :=
  ⟨rfl, rfl, rfl, rfl, rfl, rfl⟩

theorem enumerate_body_spec (self : cccrack_state) (tpl : cccrack_rankdef) (k z : Nat)
    (hk : 1 ≤ k ∧ k < tpl.n) (hz : 1 ≤ z ∧ z ≤ tpl.n - k)
    (st st' : cccrack_state × cccrack_rankdef)
    (hst : st.1.params = self.params ∧ same_template st.2 tpl ∧
      ∃ added, st.1.rankdef = self.rankdef ++ added ∧
        ∀ c ∈ added, ∃ t1, same_template t1 tpl ∧ enumerated t1 ∧
          evaluated self.params.all t1 c)
    (h : enumerate_configs_body tpl.n k st z = some st') :
    st'.1.params = self.params ∧ same_template st'.2 tpl ∧
      ∃ added, st'.1.rankdef = self.rankdef ++ added ∧
        ∀ c ∈ added, ∃ t1, same_template t1 tpl ∧ enumerated t1 ∧
          evaluated self.params.all t1 c := by
  obtain ⟨hp, hsame, added, hadd, hall⟩ := hst
  unfold enumerate_configs_body at h
  simp only at h
  generalize ht1 : ({ st.2 with
      muT := (st.2.n_a + (2 ^ 32 - (st.2.n_a * k) % 2 ^ 32 / tpl.n) + (2 ^ 32 - z)) % 2 ^ 32
      k := k
      K := ((st.2.n_a + (2 ^ 32 - (st.2.n_a * k) % 2 ^ 32 / tpl.n) + (2 ^ 32 - z)) % 2 ^ 32 / k
        + 1) % 2 ^ 32 } : cccrack_rankdef) = t1 at h
  have hs1 : same_template t1 tpl := by
    rw [← ht1]; exact hsame
  split at h
  · rename_i hK
    cases he : cccrack_eval_candidate st.1 t1 with
    | none => rw [he] at h; simp at h
    | some s1 =>
      rw [he] at h
      simp only [Option.map_some', Option.some.injEq] at h
      subst h
      obtain ⟨e1, e2⟩ := eval_candidate_spec _ _ _ he
      refine ⟨e1.trans hp, hs1, ?_⟩
      rcases e2 with e2 | ⟨c, e2, e3⟩
      · exact ⟨added, by rw [e2, hadd], hall⟩
      · refine ⟨added ++ [c], by rw [e2, hadd, List.append_assoc], ?_⟩
        intro c' hc'
        rcases List.mem_append.mp hc' with hc' | hc'
        · exact hall c' hc'
        · simp only [List.mem_singleton] at hc'
          subst hc'
          rw [hp] at e3
          refine ⟨t1, hs1, ?_, e3⟩
          have hn : t1.n = tpl.n := hs1.2.2.2.1
          have hna : t1.n_a = st.2.n_a := by rw [← ht1]
          have hkk : t1.k = k := by rw [← ht1]
          have hmu : t1.muT =
              (st.2.n_a + (2 ^ 32 - (st.2.n_a * k) % 2 ^ 32 / tpl.n) + (2 ^ 32 - z)) % 2 ^ 32 := by
            rw [← ht1]
          have hKK : t1.K = (t1.muT / k + 1) % 2 ^ 32 := by rw [← ht1]
          have hK1 : 1 < t1.K := by rw [← ht1]; exact hK
          refine ⟨hK1, by rw [hkk]; exact hk.1, by rw [hkk, hn]; exact hk.2, z, hz.1,
            by rw [hkk, hn]; exact hz.2, by rw [hmu, hna, hkk, hn], by rw [hKK, hkk]⟩
  · simp only [Option.some.injEq] at h
    subst h
    exact ⟨hp, hs1, added, hadd, hall⟩

theorem enumerate_configs_spec (self self' : cccrack_state) (tpl tpl' : cccrack_rankdef)
    (h : cccrack_enumerate_configs self tpl = some (self', tpl')) :
    self'.params = self.params ∧ same_template tpl' tpl ∧
      ∃ added, self'.rankdef = self.rankdef ++ added ∧
        ∀ c ∈ added, ∃ t1, same_template t1 tpl ∧ enumerated t1 ∧
          evaluated self.params.all t1 c := by
  unfold cccrack_enumerate_configs at h
  refine foldlM_option_inv _
    (fun st : cccrack_state × cccrack_rankdef =>
      st.1.params = self.params ∧ same_template st.2 tpl ∧
      ∃ added, st.1.rankdef = self.rankdef ++ added ∧
        ∀ c ∈ added, ∃ t1, same_template t1 tpl ∧ enumerated t1 ∧
          evaluated self.params.all t1 c) _ ?_ (self, tpl) (self', tpl')
    ⟨rfl, same_template_refl tpl, [], by simp, by simp⟩ h
  intro b k b' hk hb hstep
  rw [List.mem_range'_1] at hk
  refine foldlM_option_inv _
    (fun st : cccrack_state × cccrack_rankdef =>
      st.1.params = self.params ∧ same_template st.2 tpl ∧
      ∃ added, st.1.rankdef = self.rankdef ++ added ∧
        ∀ c ∈ added, ∃ t1, same_template t1 tpl ∧ enumerated t1 ∧
          evaluated self.params.all t1 c) _ ?_ b b' hb hstep
  intro st z st' hz hst hbody
  rw [List.mem_range'_1] at hz
  exact enumerate_body_spec self tpl k z ⟨hk.1, by omega⟩ ⟨hz.1, by omega⟩ st st' hst hbody


theorem populate_fields (R B : gf2_matrix) :
    ∀ (l : List Nat) (s0 : cccrack_rankdef),
      (l.foldl
        (fun (s : cccrack_rankdef) i =>
          if gf2_matrix_col_is_null R i then { s with h := s.h ++ [gf2_matrix_copy_row B i] }
          else s)
        s0).tagging = s0.tagging ∧
      (l.foldl
        (fun (s : cccrack_rankdef) i =>
          if gf2_matrix_col_is_null R i then { s with h := s.h ++ [gf2_matrix_copy_row B i] }
          else s)
        s0).g = s0.g ∧
      (l.foldl
        (fun (s : cccrack_rankdef) i =>
          if gf2_matrix_col_is_null R i then { s with h := s.h ++ [gf2_matrix_copy_row B i] }
          else s)
        s0).g_poly = s0.g_poly := by
  intro l
  induction l with
  | nil => intro s0; exact ⟨rfl, rfl, rfl⟩
  | cons i l ih =>
    intro s0
    rw [List.foldl_cons]
    split
    · exact ih _
    · exact ih _

theorem from_matrices_template (t : tagging) (R B : gf2_matrix) :
    (cccrack_rankdef_from_matrices t R B).tagging = tagging_copy t ∧
    (cccrack_rankdef_from_matrices t R B).g = [] ∧
    (cccrack_rankdef_from_matrices t R B).g_poly = [] ∧
    (cccrack_rankdef_from_matrices t R B).h_count ≤
      (cccrack_rankdef_from_matrices t R B).n_a := by
  have h := populate_fields R B (List.range R.cols)
    { cccrack_rankdef_new t with n_a := gf2_matrix_get_cols R }
  have h2 := from_matrices_h t R B
  refine ⟨h.1, h.2.1, h.2.2, ?_⟩
  unfold cccrack_rankdef.h_count
  rw [h2.1, h2.2, List.length_map]
  exact (List.length_filter_le _ _).trans (by simp)

theorem evaluate_spec (self self' : cccrack_state) (rd : cccrack_rankdef) (ok : Bool)
    (rd' : Option cccrack_rankdef)
    (h : on_tagging_evaluate self rd = some (ok, rd', self')) :
    ok = true ∧ (∃ r, rd' = some r ∧ same_template r rd) ∧ self'.params = self.params ∧
      ∃ added, self'.rankdef = self.rankdef ++ added ∧
        ∀ c ∈ added, ∃ t1, same_template t1 rd ∧ hypothesis_of self.params t1 ∧
          evaluated self.params.all t1 c := by
  unfold on_tagging_evaluate at h
  split at h
  · rename_i hk
    simp only at h
    generalize hr1 : ({ rd with
        k := self.params.k
        K := self.params.K
        muT := (self.params.k * ((self.params.K + (2 ^ 32 - 1)) % 2 ^ 32)) % 2 ^ 32 } :
        cccrack_rankdef) = r1 at h
    have hs1 : same_template r1 rd := by rw [← hr1]; exact same_template_refl rd
    cases he : cccrack_eval_candidate self r1 with
    | none => rw [he] at h; simp at h
    | some s1 =>
      rw [he] at h
      simp only [Option.map_some', Option.some.injEq, Prod.mk.injEq] at h
      obtain ⟨h1, h2, h3⟩ := h
      subst h1 h2 h3
      obtain ⟨e1, e2⟩ := eval_candidate_spec _ _ _ he
      refine ⟨rfl, ⟨r1, rfl, hs1⟩, e1, ?_⟩
      rcases e2 with e2 | ⟨c, e2, e3⟩
      · exact ⟨[], by simp [e2], by simp⟩
      · refine ⟨[c], e2, ?_⟩
        intro c' hc'
        simp only [List.mem_singleton] at hc'
        subst hc'
        refine ⟨r1, hs1, Or.inl ⟨hk.1, hk.2, ?_, ?_, ?_⟩, e3⟩ <;> rw [← hr1]
  · rename_i hk
    cases he : cccrack_enumerate_configs self rd with
    | none => rw [he] at h; simp at h
    | some r =>
      rw [he] at h
      simp only [Option.map_some', Option.some.injEq, Prod.mk.injEq] at h
      obtain ⟨h1, h2, h3⟩ := h
      subst h1 h2 h3
      obtain ⟨e1, e2, added, e3, e4⟩ := enumerate_configs_spec self r.1 rd r.2 he
      refine ⟨rfl, ⟨r.2, rfl, e2⟩, e1, added, e3, ?_⟩
      intro c hc
      obtain ⟨t1, a, b, d⟩ := e4 c hc
      exact ⟨t1, a, Or.inr ⟨hk, b⟩, d⟩


theorem evaluate_inv (self : cccrack_state) (t : tagging) (s : cccrack_state)
    (rd : cccrack_rankdef) (st' : Bool × Option cccrack_rankdef × cccrack_state)
    (hp : s.params = self.params)
    (hadd : ∃ added, s.rankdef = self.rankdef ++ added ∧
      ∀ c ∈ added, candidate_of self.params t c)
    (hrd : rd.tagging = tagging_copy t ∧ rd.g = [] ∧ rd.g_poly = [] ∧ rd.h_count ≤ rd.n_a)
    (hn : 0 < self.params.n → rd.n = self.params.n)
    (h : on_tagging_evaluate s rd = some st') : width_inv self t st' := by
  obtain ⟨ok, rd', s'⟩ := st'
  obtain ⟨h1, ⟨r, h2, h3⟩, h4, added', h5, h6⟩ := evaluate_spec s s' rd ok rd' h
  obtain ⟨added, ha1, ha2⟩ := hadd
  obtain ⟨b1, b2, b3, b4⟩ := hrd
  have tpl_ok : ∀ t1 : cccrack_rankdef, same_template t1 rd →
      t1.tagging = tagging_copy t ∧ t1.g = [] ∧ t1.g_poly = [] ∧ t1.h_count ≤ t1.n_a ∧
      (0 < self.params.n → t1.n = self.params.n) := by
    intro t1 ⟨c1, c2, c3, c4, c5, c6⟩
    refine ⟨c1.trans b1, c5.trans b2, c6.trans b3, ?_, fun h0 => c4.trans (hn h0)⟩
    unfold cccrack_rankdef.h_count at b4 ⊢
    rw [c2, c3]; exact b4
  refine ⟨h4.trans hp, ⟨added ++ added', by rw [h5, ha1, List.append_assoc], ?_⟩, ?_⟩
  · intro c hc
    rcases List.mem_append.mp hc with hc | hc
    · exact ha2 c hc
    · obtain ⟨t1, d1, d2, d3⟩ := h6 c hc
      obtain ⟨e1, e2, e3, e4, e5⟩ := tpl_ok t1 d1
      rw [hp] at d2 d3
      exact ⟨t1, e1, e2, e3, e4, e5, d2, d3⟩
  · intro rd1 hrd1
    simp only at hrd1
    rw [h2] at hrd1
    simp only [Option.some.injEq] at hrd1
    subst hrd1
    obtain ⟨e1, e2, e3, e4, _⟩ := tpl_ok r h3
    refine ⟨e1, e2, e3, e4, ?_⟩
    intro hf
    simp only at hf
    rw [h1] at hf
    exact absurd hf (by decide)

theorem width_step_inv (self : cccrack_state) (t : tagging) (bits : List Nat) (len width : Nat)
    (st st' : Bool × Option cccrack_rankdef × cccrack_state) (l : Nat)
    (hst : width_inv self t st) (h : on_tagging_width t bits len width st l = some st') :
    width_inv self t st' := by
  unfold on_tagging_width at h
  split at h
  · simp only [Option.some.injEq] at h
    subst h; exact hst
  · rename_i hok
    simp only at h
    split at h
    · simp at h
    · rename_i R B _
      obtain ⟨hp, hadd, hrd⟩ := hst
      split at h
      · split at h
        · rename_i hnone
          split at h
          · rename_i hn
            obtain ⟨f1, f2, f3, f4⟩ := from_matrices_template t R B
            exact evaluate_inv self t st.2.2
              ({ cccrack_rankdef_from_matrices t R B with n := st.2.2.params.n }) st' hp hadd
              ⟨f1, f2, f3, f4⟩ (fun _ => by show st.2.2.params.n = _; rw [hp]) h
          · rename_i hn
            simp only [Option.some.injEq] at h
            subst h
            refine ⟨hp, hadd, ?_⟩
            intro rd hrd1
            simp only [Option.some.injEq] at hrd1
            subst hrd1
            obtain ⟨f1, f2, f3, f4⟩ := from_matrices_template t R B
            refine ⟨f1, f2, f3, f4, fun _ => ?_⟩
            rw [hp] at hn
            omega
        · rename_i rd hsome
          obtain ⟨g1, g2, g3, g4, g5⟩ := hrd rd hsome
          have hn0 : self.params.n = 0 := g5 (by simpa using hok)
          exact evaluate_inv self t st.2.2 (cccrack_rankdef_set_second_defficiency rd l) st'
            hp hadd ⟨g1, g2, g3, g4⟩ (fun h0 => by omega) h
      · simp only [Option.some.injEq] at h
        subst h; exact ⟨hp, hadd, hrd⟩

theorem on_tagging_spec (self : cccrack_state) (t : tagging) (bits : List Nat) (len : Nat)
    (r : Bool × cccrack_state) (h : cccrack_on_tagging self t bits len = some r) :
    r.1 = true ∧ r.2.params = self.params ∧
      ∃ added, r.2.rankdef = self.rankdef ++ added ∧
        ∀ c ∈ added, retained self.params t c := by
  unfold cccrack_on_tagging at h
  split at h
  · simp only [Option.some.injEq] at h
    subst h
    exact ⟨rfl, rfl, [], by simp, by simp⟩
  · rename_i hid
    split at h
    · simp only [Option.some.injEq] at h
      subst h
      exact ⟨rfl, rfl, [], by simp, by simp⟩
    · rename_i hgray
      simp only at h
      cases hf : (List.range' 2 (min (Nat.sqrt len) CCCRACK_MAX_WIDTH - 2)).foldlM
          (on_tagging_width t bits len (min (Nat.sqrt len) CCCRACK_MAX_WIDTH))
          (false, none, self) with
      | none => rw [hf] at h; simp at h
      | some st =>
        rw [hf] at h
        simp only [Option.map_some', Option.some.injEq] at h
        subst h
        have hinv := foldlM_option_inv _ (width_inv self t) _
          (fun b a b' _ hb hstep => width_step_inv self t bits len _ b b' a hb hstep)
          (false, none, self) st ⟨rfl, ⟨[], by simp, by simp⟩, by simp⟩ hf
        obtain ⟨hp, ⟨added, ha1, ha2⟩, _⟩ := hinv
        refine ⟨rfl, hp, added, ha1, ?_⟩
        intro c hc
        refine ⟨?_, ?_, ha2 c hc⟩
        · intro hne
          by_contra hcon
          exact hid ⟨hne, hcon⟩
        · intro hng
          cases hg : t.is_gray with
          | true => rfl
          | false => simp [hng, hg] at hgray


theorem handler_retained (p : cccrack_params) (rd0 : List cccrack_rankdef)
    (o : Option cccrack_state) (t : tagging) (bits : List Nat) (len : Nat)
    (ho : ∀ s, o = some s → s.params = p ∧ ∃ added, s.rankdef = rd0 ++ added ∧
      ∀ c ∈ added, ∃ t, retained p t c) :
    ∀ s, (cccrack_handler o t bits len).2 = some s → s.params = p ∧
      ∃ added, s.rankdef = rd0 ++ added ∧ ∀ c ∈ added, ∃ t, retained p t c := by
  intro s hs
  unfold cccrack_handler at hs
  split at hs
  · simp at hs
  · rename_i s0
    obtain ⟨hp, added, ha1, ha2⟩ := ho s0 rfl
    split at hs
    · simp at hs
    · rename_i r hr
      simp only [Option.some.injEq] at hs
      subst hs
      obtain ⟨_, h2, added', h3, h4⟩ := on_tagging_spec s0 t bits len r hr
      refine ⟨h2.trans hp, added ++ added', by rw [h3, ha1, List.append_assoc], ?_⟩
      intro c hc
      rcases List.mem_append.mp hc with hc | hc
      · exact ha2 c hc
      · exact ⟨t, by rw [← hp]; exact h4 c hc⟩

theorem tag_retained (s0 : symtag (Option cccrack_state))
    (hcb : s0.on_tagging = cccrack_handler) (p : cccrack_params)
    (rd0 : List cccrack_rankdef) (hpriv : s0.priv = some { params := p, rankdef := rd0 }) :
    ∀ s, (symtag_tag s0).2.priv = some s → s.params = p ∧
      ∃ added, s.rankdef = rd0 ++ added ∧ ∀ c ∈ added, ∃ t, retained p t c := by
  obtain ⟨_, _, L, _, hp, _, _⟩ := tag_stop_tag s0
  rw [hcb, hpriv] at hp
  rw [hp]
  exact replay_invariant cccrack_handler
    (fun o : Option cccrack_state => ∀ s, o = some s → s.params = p ∧
      ∃ added, s.rankdef = rd0 ++ added ∧ ∀ c ∈ added, ∃ t, retained p t c)
    (fun o t b l ho => handler_retained p rd0 o t b l ho) L
    (some { params := p, rankdef := rd0 })
    (by
      intro s hs
      simp only [Option.some.injEq] at hs
      subst hs
      exact ⟨rfl, [], by simp, by simp⟩)

theorem run_retained (self : cccrack (Option cccrack_state))
    (hcb : self.symtag.on_tagging = cccrack_handler)
    (r : Bool × cccrack (Option cccrack_state)) (h : cccrack_run self = some r) :
    ∃ added, r.2.rankdef = self.rankdef ++ added ∧
      ∀ c ∈ added, ∃ t, retained self.params t c := by
  unfold cccrack_run at h
  obtain ⟨s, hs, hr⟩ := Option.map_eq_some'.mp h
  subst hr
  exact (tag_retained
    ({ self.symtag with priv := some { params := self.params, rankdef := self.rankdef } })
    hcb self.params self.rankdef rfl s hs).2

theorem from_file_on_tagging {σ : Type} (sym_data : List Nat) (bps : Nat)
    (cb : σ → tagging → List Nat → Nat → Bool × σ) (priv : σ) (s : symtag σ)
    (h : symtag_new_from_file sym_data bps cb priv = some s) : s.on_tagging = cb := by
  unfold symtag_new_from_file at h
  simp only at h
  split at h
  · simp at h
  · split at h
    · simp at h
    · simp only [Option.some.injEq] at h
      subst h
      rfl

theorem cccrack_new_spec (sym_data : List Nat) (p : cccrack_params)
    (a : cccrack (Option cccrack_state)) (h : cccrack_new sym_data p = some a) :
    a.params = p ∧ a.rankdef = [] ∧ a.symtag.on_tagging = cccrack_handler := by
  unfold cccrack_new at h
  cases hs : symtag_new_from_file sym_data p.bps cccrack_handler
      (some { params := p, rankdef := [] }) with
  | none => rw [hs] at h; simp at h
  | some st =>
    rw [hs] at h
    simp only [Option.map_some', Option.some.injEq] at h
    subst h
    exact ⟨rfl, rfl, from_file_on_tagging _ _ _ _ _ hs⟩

theorem session_retained (sym_data : List Nat) (p : cccrack_params)
    (r : Bool × cccrack (Option cccrack_state)) (h : cccrack_session sym_data p = some r) :
    ∀ c ∈ r.2.rankdef, ∃ t, retained p t c := by
  unfold cccrack_session at h
  cases ha : cccrack_new sym_data p with
  | none => rw [ha] at h; simp at h
  | some a =>
    rw [ha] at h
    simp only [Option.some_bind] at h
    obtain ⟨h1, h2, h3⟩ := cccrack_new_spec sym_data p a ha
    obtain ⟨added, h4, h5⟩ := run_retained a h3 r h
    rw [h2, List.nil_append] at h4
    rw [h4, ← h1]
    exact h5


/-! ## Theorems: candidates of a session -/


theorem foldlM_option_sim {α β γ : Type} (f : β → α → Option β) (g : γ → α → Option γ)
    (R : β → γ → Prop)
    (hstep : ∀ b c a b', R b c → f b a = some b' → ∃ c', g c a = some c' ∧ R b' c') :
    ∀ (l : List α) (b : β) (c : γ) (b' : β), R b c → l.foldlM f b = some b' →
      ∃ c', l.foldlM g c = some c' ∧ R b' c' := by
  intro l
  induction l with
  | nil =>
    intro b c b' hR h
    simp only [List.foldlM_nil, Option.pure_def, Option.some.injEq] at h
    subst h
    exact ⟨c, rfl, hR⟩
  | cons a l ih =>
    intro b c b' hR h
    rw [List.foldlM_cons] at h
    cases hfa : f b a with
    | none => rw [hfa] at h; simp at h
    | some b1 =>
      rw [hfa] at h
      simp only [Option.bind_eq_bind, Option.some_bind] at h
      obtain ⟨c1, hc1, hR1⟩ := hstep b c a b1 hR hfa
      obtain ⟨c', hc', hR'⟩ := ih b1 c1 b' hR1 h
      refine ⟨c', ?_, hR'⟩
      rw [List.foldlM_cons, hc1]
      simpa using hc'

theorem eval_candidate_coupled (a0 b0 : List cccrack_rankdef) (a b a' : cccrack_state)
    (tpl : cccrack_rankdef) (hab : coupled a0 b0 a b)
    (h : cccrack_eval_candidate a tpl = some a') :
    ∃ b', cccrack_eval_candidate b tpl = some b' ∧ coupled a0 b0 a' b' := by
  obtain ⟨h1, h2, h3, h4, h5, added, h6, h7⟩ := hab
  unfold cccrack_eval_candidate at h ⊢
  cases hd0 : cccrack_rankdef_dup tpl with
  | none => rw [hd0] at h; simp at h
  | some d0 =>
    cases hd1 : cccrack_rankdef_extract_duals d0 with
    | none => rw [hd0] at h; simp only [hd1] at h; simp at h
    | some d1 =>
      cases hd : cccrack_rankdef_compute_generators d1 with
      | none => rw [hd0] at h; simp only [hd1, hd] at h; simp at h
      | some d =>
        rw [hd0] at h
        simp only [hd1, hd] at h ⊢
        rw [← h5]
        split at h
        · rename_i hsave
          simp only [Option.some.injEq] at h
          subst h
          rw [if_pos hsave]
          refine ⟨_, rfl, h1, h2, h3, h4, h5, added ++ [d], ?_, ?_⟩
          · simp [cccrack_push_rankdef, h6]
          · simp [cccrack_push_rankdef, h7]
        · rename_i hsave
          simp only [Option.some.injEq] at h
          subst h
          rw [if_neg hsave]
          exact ⟨_, rfl, h1, h2, h3, h4, h5, added, h6, h7⟩

theorem enumerate_configs_coupled (a0 b0 : List cccrack_rankdef) (a b : cccrack_state)
    (tpl : cccrack_rankdef) (ra : cccrack_state × cccrack_rankdef) (hab : coupled a0 b0 a b)
    (h : cccrack_enumerate_configs a tpl = some ra) :
    ∃ rb, cccrack_enumerate_configs b tpl = some rb ∧ coupled a0 b0 ra.1 rb.1 ∧
      ra.2 = rb.2 := by
  unfold cccrack_enumerate_configs at h ⊢
  refine foldlM_option_sim _ _
    (fun (x y : cccrack_state × cccrack_rankdef) => coupled a0 b0 x.1 y.1 ∧ x.2 = y.2)
    ?_ _ (a, tpl) (b, tpl) ra ⟨hab, rfl⟩ h
  intro x y k x' hxy hx
  refine foldlM_option_sim _ _
    (fun (x y : cccrack_state × cccrack_rankdef) => coupled a0 b0 x.1 y.1 ∧ x.2 = y.2)
    ?_ _ x y x' hxy hx
  intro u v z u' huv hu
  unfold enumerate_configs_body at hu ⊢
  simp only at hu ⊢
  rw [← huv.2]
  split at hu
  · rename_i hK
    rw [if_pos hK]
    cases he : cccrack_eval_candidate u.1 _ with
    | none => rw [he] at hu; simp at hu
    | some s1 =>
      rw [he] at hu
      simp only [Option.map_some', Option.some.injEq] at hu
      subst hu
      obtain ⟨b', hb', hc'⟩ := eval_candidate_coupled a0 b0 u.1 v.1 s1 _ huv.1 he
      rw [hb']
      exact ⟨_, rfl, hc', rfl⟩
  · rename_i hK
    rw [if_neg hK]
    simp only [Option.some.injEq] at hu
    subst hu
    exact ⟨_, rfl, huv.1, rfl⟩

theorem evaluate_coupled (a0 b0 : List cccrack_rankdef) (a b : cccrack_state)
    (rd : cccrack_rankdef) (ra : Bool × Option cccrack_rankdef × cccrack_state)
    (hab : coupled a0 b0 a b) (h : on_tagging_evaluate a rd = some ra) :
    ∃ rb, on_tagging_evaluate b rd = some rb ∧ ra.1 = rb.1 ∧ ra.2.1 = rb.2.1 ∧
      coupled a0 b0 ra.2.2 rb.2.2 := by
  unfold on_tagging_evaluate at h ⊢
  rw [← hab.1, ← hab.2.2.1]
  split at h
  · rename_i hk
    rw [if_pos hk]
    simp only at h ⊢
    cases he : cccrack_eval_candidate a _ with
    | none => rw [he] at h; simp at h
    | some s1 =>
      rw [he] at h
      simp only [Option.map_some', Option.some.injEq] at h
      subst h
      obtain ⟨b', hb', hc'⟩ := eval_candidate_coupled a0 b0 a b s1 _ hab he
      rw [hb']
      exact ⟨_, rfl, rfl, rfl, hc'⟩
  · rename_i hk
    rw [if_neg hk]
    cases he : cccrack_enumerate_configs a rd with
    | none => rw [he] at h; simp at h
    | some r =>
      rw [he] at h
      simp only [Option.map_some', Option.some.injEq] at h
      subst h
      obtain ⟨rb, hb', hc', heq⟩ := enumerate_configs_coupled a0 b0 a b rd r hab he
      rw [hb']
      exact ⟨_, rfl, rfl, by simp [heq], hc'⟩

theorem width_step_coupled (a0 b0 : List cccrack_rankdef) (t : tagging) (bits : List Nat)
    (len width l : Nat) (x y x' : Bool × Option cccrack_rankdef × cccrack_state)
    (hxy : x.1 = y.1 ∧ x.2.1 = y.2.1 ∧ coupled a0 b0 x.2.2 y.2.2)
    (h : on_tagging_width t bits len width x l = some x') :
    ∃ y', on_tagging_width t bits len width y l = some y' ∧
      x'.1 = y'.1 ∧ x'.2.1 = y'.2.1 ∧ coupled a0 b0 x'.2.2 y'.2.2 := by
  obtain ⟨h1, h2, h3⟩ := hxy
  unfold on_tagging_width at h ⊢
  rw [← h1, ← h2, ← h3.2.1]
  split at h
  · rename_i hok
    rw [if_pos hok]
    simp only [Option.some.injEq] at h
    subst h
    exact ⟨y, rfl, h1, h2, h3⟩
  · rename_i hok
    rw [if_neg hok]
    simp only at h ⊢
    cases hgj : gf2_matrix_gauss_jordan_cols
        (on_tagging_matrix bits
          (if len / l % 2 ^ 32 > width * CCCRACK_MAX_REL_HEIGHT then
            width * CCCRACK_MAX_REL_HEIGHT
          else len / l % 2 ^ 32) l) true with
    | none => rw [hgj] at h; simp at h
    | some RB =>
      obtain ⟨R, B⟩ := RB
      rw [hgj] at h
      simp only at h ⊢
      split at h
      · rename_i hrank
        rw [if_pos hrank]
        cases hx : x.2.1 with
        | none =>
          rw [hx] at h
          simp only at h ⊢
          split at h
          · rename_i hn
            rw [if_pos hn]
            exact evaluate_coupled a0 b0 x.2.2 y.2.2 _ x' h3 h
          · rename_i hn
            rw [if_neg hn]
            simp only [Option.some.injEq] at h
            subst h
            exact ⟨_, rfl, rfl, rfl, h3⟩
        | some rd =>
          rw [hx] at h
          simp only at h ⊢
          exact evaluate_coupled a0 b0 x.2.2 y.2.2 _ x' h3 h
      · rename_i hrank
        rw [if_neg hrank]
        simp only [Option.some.injEq] at h
        subst h
        exact ⟨y, rfl, h1, h2, h3⟩

theorem on_tagging_coupled (a0 b0 : List cccrack_rankdef) (a b : cccrack_state) (t : tagging)
    (bits : List Nat) (len : Nat) (ra : Bool × cccrack_state) (hab : coupled a0 b0 a b)
    (hga : ¬ (a.params.tagging ≠ -1 ∧ (a.params.tagging % 2 ^ 32).toNat ≠ t.tagging_id))
    (hgb : ¬ (b.params.tagging ≠ -1 ∧ (b.params.tagging % 2 ^ 32).toNat ≠ t.tagging_id))
    (h : cccrack_on_tagging a t bits len = some ra) :
    ∃ rb, cccrack_on_tagging b t bits len = some rb ∧ ra.1 = rb.1 ∧
      coupled a0 b0 ra.2 rb.2 := by
  unfold cccrack_on_tagging at h ⊢
  rw [if_neg hga] at h
  rw [if_neg hgb, ← hab.2.2.2.1]
  split at h
  · rename_i hg
    rw [if_pos hg]
    simp only [Option.some.injEq] at h
    subst h
    exact ⟨_, rfl, rfl, hab⟩
  · rename_i hg
    rw [if_neg hg]
    simp only at h ⊢
    obtain ⟨st, hst, hr⟩ := Option.map_eq_some'.mp h
    subst hr
    obtain ⟨y', hy', e1, e2, e3⟩ := foldlM_option_sim _ _
      (fun (x y : Bool × Option cccrack_rankdef × cccrack_state) =>
        x.1 = y.1 ∧ x.2.1 = y.2.1 ∧ coupled a0 b0 x.2.2 y.2.2)
      (fun x y l x' hxy hx => width_step_coupled a0 b0 t bits len _ l x y x' hxy hx)
      _ (false, none, a) (false, none, b) st ⟨rfl, rfl, hab⟩ hst
    rw [hy']
    exact ⟨_, rfl, rfl, e3⟩

theorem handler_true (o : Option cccrack_state) (t : tagging) (bits : List Nat) (len : Nat) :
    (cccrack_handler o t bits len).1 = true := by
  unfold cccrack_handler
  split
  · rfl
  · split
    · rfl
    · rename_i r hr
      exact (on_tagging_spec _ t bits len r hr).1

theorem retained_tagging_id (p : cccrack_params) (t : tagging) (c : cccrack_rankdef)
    (h : retained p t c) : c.tagging.tagging_id = t.tagging_id := by
  obtain ⟨_, _, tpl, h1, _, _, _, _, _, h2, _⟩ := h
  rw [h2, h1]
  rfl

theorem handler_forced (p : cccrack_params) (t : Nat) (hp : p.tagging = -1) (ht : t < 2 ^ 31)
    (oa ob : Option cccrack_state) (tg : tagging) (bits : List Nat) (len : Nat)
    (h : forced_rel p t oa ob) :
    (cccrack_handler oa tg bits len).1 = (cccrack_handler ob tg bits len).1 ∧
    forced_rel p t (cccrack_handler oa tg bits len).2 (cccrack_handler ob tg bits len).2 := by
  refine ⟨by rw [handler_true, handler_true], ?_⟩
  intro a' ha'
  cases oa with
  | none => simp [cccrack_handler] at ha'
  | some a =>
    obtain ⟨hap, b, hb, hbp, hbr⟩ := h a rfl
    subst hb
    cases hra : cccrack_on_tagging a tg bits len with
    | none => simp [cccrack_handler, hra] at ha'
    | some rA =>
      simp only [cccrack_handler, hra, Option.some.injEq] at ha'
      subst ha'
      obtain ⟨_, s2, added, s3, s4⟩ := on_tagging_spec a tg bits len rA hra
      refine ⟨s2.trans hap, ?_⟩
      have hids : ∀ c ∈ added, c.tagging.tagging_id = tg.tagging_id :=
        fun c hc => retained_tagging_id _ _ _ (s4 c hc)
      have hcast : (((t : Int) % 2 ^ 32).toNat) = t := by omega
      by_cases hid : tg.tagging_id = t
      · have hab : coupled a.rankdef b.rankdef a b := by
          unfold coupled
          rw [hap, hbp]
          exact ⟨rfl, rfl, rfl, rfl, rfl, [], by simp, by simp⟩
        obtain ⟨rB, hrB, _, c1, c2, c3, c4, c5, added', c6, c7⟩ :=
          on_tagging_coupled a.rankdef b.rankdef a b tg bits len rA hab
            (by rw [hap, hp]; simp)
            (by rw [hbp]; simp only [hcast, hid]; simp) hra
        obtain ⟨_, t2, _⟩ := on_tagging_spec b tg bits len rB hrB
        refine ⟨rB.2, by simp [cccrack_handler, hrB], t2.trans hbp, ?_⟩
        have hadd : added' = added := List.append_cancel_left (c6.symm.trans s3)
        rw [c7, c6, hadd, List.filter_append, ← hbr]
        congr 1
        symm
        rw [List.filter_eq_self]
        intro c hc
        simp [hids c hc, hid]
      · have hgate : cccrack_on_tagging b tg bits len = some (true, b) := by
          unfold cccrack_on_tagging
          rw [if_pos]
          rw [hbp]
          simp only [hcast]
          exact ⟨by omega, fun h => hid h.symm⟩
        refine ⟨b, by simp [cccrack_handler, hgate], hbp, ?_⟩
        rw [s3, List.filter_append, ← hbr]
        have : added.filter (fun c => c.tagging.tagging_id == t) = [] := by
          rw [List.filter_eq_nil_iff]
          intro c hc
          simp [hids c hc, hid]
        rw [this, List.append_nil]

theorem swap_rows_twice (M : gf2_matrix) (a b r : Nat) :
    (gf2_matrix_swap_rows (gf2_matrix_swap_rows M a b) a b).row_data r = M.row_data r := by
  unfold gf2_matrix_swap_rows
  simp only
  by_cases ha : r = a
  · subst ha
    by_cases hb : b = r
    · subst hb; simp
    · simp [hb]
  · by_cases hb : r = b
    · subst hb; simp [ha]
    · simp [ha, hb]

/-- C21, failing behaviour: exchanging two rows twice gives back every cell of every
matrix, but exchanging the columns 0 and 32 of the 1 x 33 matrix whose only
non-zero cell is `(0, 32)` twice leaves cell `(0, 32)` at 0 and cell `(0, 0)` at 1. -/
theorem gf2_matrix_swap_cols_wide :
    (∀ (M : gf2_matrix) (a b r c : Nat),
      gf2_matrix_get (gf2_matrix_swap_rows (gf2_matrix_swap_rows M a b) a b) r c =
        gf2_matrix_get M r c) ∧
    gf2_matrix_get wide_row 0 32 = 1 ∧
    gf2_matrix_get (gf2_matrix_swap_cols (gf2_matrix_swap_cols wide_row 0 32) 0 32) 0 32 = 0 ∧
    gf2_matrix_get wide_row 0 0 = 0 ∧
    gf2_matrix_get (gf2_matrix_swap_cols (gf2_matrix_swap_cols wide_row 0 32) 0 32) 0 0 = 1 := by
  refine ⟨?_, by decide!, by decide!, by decide!, by decide!⟩
  intro M a b r c
  unfold gf2_matrix_get
  rw [swap_rows_twice]

/-- C22, failing behaviour: `gf2_matrix_eye(33, 33)` has cell `(32, 32)` at 0 and
the cells `(32, 0)` and `(31, 32)` at 1; reduced by columns it records the rank 32,
its cell `(31, 0)` becomes 1 and the transformation matrix returned has cell
`(32, 31)` at 1. -/
theorem gf2_matrix_eye_wide :
    gf2_matrix_get (gf2_matrix_eye 33 33) 32 32 = 0 ∧
    gf2_matrix_get (gf2_matrix_eye 33 33) 32 0 = 1 ∧
    gf2_matrix_get (gf2_matrix_eye 33 33) 31 32 = 1 ∧
    (gf2_matrix_gauss_jordan_cols (gf2_matrix_eye 33 33) true).map
      (fun r => (r.1.rank, gf2_matrix_get r.1 31 0, gf2_matrix_get r.2 32 31)) =
      some (32, 1, 1) := by
  decide!

/-- C28, failing behaviour: on the 2 x 33 matrix whose non-zero cells are `(0, 32)`
and `(1, 0)`, the reduction by rows records the rank 1 and leaves row 1 null with
row 1 of `B` equal to `[1, 1]`, although the `XOR` of the two original rows is not
zero (it has cell 0 set); the reduction by columns of the transpose records the
rank 2. -/
theorem gauss_jordan_rows_wide :
    (gf2_matrix_gauss_jordan_rows wide_pair true).map
      (fun r => (r.1.rank, gf2_matrix_row_is_null r.1 1, gf2_matrix_copy_row r.2 1)) =
      some (1, true, [1, 1]) ∧
    gf2_matrix_get wide_pair 0 0 ^^^ gf2_matrix_get wide_pair 1 0 = 1 ∧
    (gf2_matrix_gauss_jordan_cols (gf2_matrix_transpose wide_pair) true).map
      (fun r => r.1.rank) = some 2 := by
  decide!

/-! ## Theorems: copies, generators and hypotheses -/

/-- C27, failing behaviour: the copy of `conv_rankdef` made by `cccrack_rankdef_dup`
has `mask = 0` where the original has 1, and its polynomial arrays are `[3, 0]` and
`[2, 0]` where the original has `[3, 2]` and `[2, 3]`; the dual vector, the generator
and the numeric fields are reproduced. -/
theorem rankdef_dup_truncates :
    (conv_rankdef.tagging.mask, conv_rankdef.h_poly, conv_rankdef.g_poly) =
      (1, [[3, 2]], [[2, 3]]) ∧
    (cccrack_rankdef_dup conv_rankdef).map
      (fun d => (d.tagging.mask, d.h_poly, d.g_poly)) = some (0, [[3, 0]], [[2, 0]]) ∧
    (cccrack_rankdef_dup conv_rankdef).map
      (fun d => (d.h, d.g, [d.n_a, d.n, d.k, d.K, d.muT], d.likely)) =
      some ([[1, 0, 1, 1]], [[1, 1, 0, 1]], [4, 2, 1, 2, 1], true) := by
  decide

/-- C25, failing behaviour: for the hypothesis `(k, n, K) = (2, 3, 2)` with
`muT = 2`, the dual polynomials are extracted, the constraint matrix is built and
reduced and its column 2 is null; row 2 of `B` has `n * K = 6` entries, and the
loop that builds polynomial 0 from it reads entry `n * 2 + 0 = 6`, outside the row:
`cccrack_rankdef_compute_generators` yields no defined result. -/
theorem compute_generators_reads_outside :
    (cccrack_rankdef_extract_duals pair_rankdef).isSome = true ∧
    ((cccrack_rankdef_extract_duals pair_rankdef).bind
      cccrack_rankdef_compute_generators).isNone = true ∧
    ((generators_fill (gf2_matrix_new 6 6) pair_rankdef.h 4 3 6).bind
      fun r => gf2_matrix_gauss_jordan_cols r.1 true).map
      (fun ab => (gf2_matrix_col_is_null ab.1 2, (gf2_matrix_copy_row ab.2 2).length,
        rankdef_poly (gf2_matrix_copy_row ab.2 2) 3 2 0
          fun k => (2 + (2 ^ 32 - k - 1)) % 2 ^ 32)) = some (true, 6, none) := by
  decide!

/-- C24, counterexample: in the run of the tagger for `bps = 2`, which makes 24
invocations, the first one (`tagging_id = 0`) carries the dictionary `[0, 1, 2, 3]`
with `is_gray = false`; the second one carries `[0, 1, 3, 2]` with `is_gray = true`. -/
theorem natural_binary_not_gray :
    (symtag_tag (symtag_new [48] 1 2 accept_all ())).2.calls.length = 24 ∧
    ((symtag_tag (symtag_new [48] 1 2 accept_all ())).2.calls.take 2).map
      (fun c => (c.tagging.dict_list, c.tagging.tagging_id, c.tagging.is_gray)) =
      [([0, 1, 2, 3], 0, false), ([0, 1, 3, 2], 1, true)] := by
  decide!

/-- C24, amended: a tagging whose dictionary is `[0, 1, 2, 3]` is classified as not
Gray by `tagging_compute_properties` (its entries 1 and 2 differ in two bits), and
with `no_gray = false` `cccrack_on_tagging` returns `TRUE` for it without analysing
the bits, the object being left as it was. -/
theorem natural_binary_skipped (t : tagging) (h4 : t.dict_len = 4) (h0 : t.dict 0 = 0)
    (h1 : t.dict 1 = 1) (h2 : t.dict 2 = 2) (h3 : t.dict 3 = 3) :
    (tagging_compute_properties t).is_gray = false ∧
    ∀ (self : cccrack_state) (bits : List Nat) (len : Nat), self.params.no_gray = false →
      cccrack_on_tagging self (tagging_compute_properties t) bits len = some (true, self) := by
  have hg : (tagging_compute_properties t).is_gray = false := by
    unfold tagging_compute_properties
    simp only [h4]
    have : List.range 4 = [0, 1, 2, 3] := by decide
    rw [this]
    simp only [List.foldl, h0, h1, h2, h3]
    decide
  refine ⟨hg, ?_⟩
  intro self bits len hng
  unfold cccrack_on_tagging
  split
  · rfl
  · simp [hng, hg]

theorem natural_binary_skipped_witness :
    (tagging_compute_properties natural_tagging).is_gray = false ∧
    ∀ (self : cccrack_state) (bits : List Nat) (len : Nat), self.params.no_gray = false →
      cccrack_on_tagging self (tagging_compute_properties natural_tagging) bits len =
        some (true, self) :=
  natural_binary_skipped natural_tagging rfl rfl rfl rfl rfl

theorem sqrt_width (len l : Nat) (hl : l < min (Nat.sqrt len) CCCRACK_MAX_WIDTH) :
    (l + 1) * (l + 1) ≤ len ∧ l < CCCRACK_MAX_WIDTH ∧
      l + 1 ≤ min (Nat.sqrt len) CCCRACK_MAX_WIDTH := by
  have h1 : l < Nat.sqrt len := lt_of_lt_of_le hl (min_le_left _ _)
  have h2 : l < CCCRACK_MAX_WIDTH := lt_of_lt_of_le hl (min_le_right _ _)
  exact ⟨Nat.le_sqrt.mp h1, h2, hl⟩

theorem set_dims (M : gf2_matrix) (r c b : Nat) :
    (gf2_matrix_set M r c b).rows = M.rows ∧ (gf2_matrix_set M r c b).cols = M.cols ∧
    (gf2_matrix_set M r c b).blocks = M.blocks := ⟨rfl, rfl, rfl⟩

theorem on_tagging_matrix_dims (bits : List Nat) (height l : Nat) :
    (on_tagging_matrix bits height l).rows = height ∧
    (on_tagging_matrix bits height l).cols = l := by
  unfold on_tagging_matrix
  have inner : ∀ (js : List Nat) (i : Nat) (R : gf2_matrix),
      (js.foldl (fun R j => gf2_matrix_set R i j (bits.getD ((i * l + j) % 2 ^ 32) 0)) R).rows =
        R.rows ∧
      (js.foldl (fun R j => gf2_matrix_set R i j (bits.getD ((i * l + j) % 2 ^ 32) 0)) R).cols =
        R.cols := by
    intro js
    induction js with
    | nil => intro i R; exact ⟨rfl, rfl⟩
    | cons j js ih => intro i R; rw [List.foldl_cons]; exact ih i _
  have outer : ∀ (is : List Nat) (R : gf2_matrix),
      (is.foldl (fun R i =>
        (List.range l).foldl
          (fun R j => gf2_matrix_set R i j (bits.getD ((i * l + j) % 2 ^ 32) 0)) R) R).rows =
        R.rows ∧
      (is.foldl (fun R i =>
        (List.range l).foldl
          (fun R j => gf2_matrix_set R i j (bits.getD ((i * l + j) % 2 ^ 32) 0)) R) R).cols =
        R.cols := by
    intro is
    induction is with
    | nil => intro R; exact ⟨rfl, rfl⟩
    | cons i is ih =>
      intro R
      rw [List.foldl_cons]
      have h1 := ih ((List.range l).foldl
          (fun R j => gf2_matrix_set R i j (bits.getD ((i * l + j) % 2 ^ 32) 0)) R)
      have h2 := inner (List.range l) i R
      exact ⟨h1.1.trans h2.1, h1.2.trans h2.2⟩
  exact outer (List.range height) (gf2_matrix_new height l)

theorem width_height_le (len width l : Nat) : width_height len width l * l ≤ len := by
  have h1 : width_height len width l ≤ len / l := by
    unfold width_height
    have := Nat.mod_le (len / l) (2 ^ 32)
    split <;> omega
  exact (Nat.mul_le_mul_right l h1).trans (Nat.div_mul_le_self len l)

/-- For every buffer of fewer than `2 ^ 33` bits and every row width `l` with
`2 ≤ l < W`, `W = min(floor(sqrt(len)), 100)`, the height computed by the analyzer
satisfies `l ≤ height` and `height * l ≤ len`, every index `i * l + j` read while
the matrix is filled is below `len`, and the reduction by columns does not abort.
For every length, `height * l ≤ len`. -/
theorem on_tagging_matrix_bounds (bits : List Nat) (len l : Nat) (hlen : len < 2 ^ 33)
    (h2 : 2 ≤ l) (hl : l < min (Nat.sqrt len) CCCRACK_MAX_WIDTH) :
    l ≤ width_height len (min (Nat.sqrt len) CCCRACK_MAX_WIDTH) l ∧
    width_height len (min (Nat.sqrt len) CCCRACK_MAX_WIDTH) l * l ≤ len ∧
    (∀ i j, i < width_height len (min (Nat.sqrt len) CCCRACK_MAX_WIDTH) l → j < l →
      (i * l + j) % 2 ^ 32 < len) ∧
    (width_reduction bits len (min (Nat.sqrt len) CCCRACK_MAX_WIDTH) l).isSome = true ∧
    ∀ len' width' l', width_height len' width' l' * l' ≤ len' := by
  obtain ⟨hsq, hmax, hW⟩ := sqrt_width len l hl
  have hle := width_height_le len (min (Nat.sqrt len) CCCRACK_MAX_WIDTH) l
  have hdiv : l ≤ len / l := by
    rw [Nat.le_div_iff_mul_le (by omega)]
    nlinarith
  have hlt : len / l < 2 ^ 32 := by
    rw [Nat.div_lt_iff_lt_mul (by omega)]
    omega
  have hge : l ≤ width_height len (min (Nat.sqrt len) CCCRACK_MAX_WIDTH) l := by
    unfold width_height
    rw [Nat.mod_eq_of_lt hlt]
    unfold CCCRACK_MAX_REL_HEIGHT
    split <;> omega
  refine ⟨hge, hle, ?_, ?_, fun len' width' l' => width_height_le len' width' l'⟩
  · intro i j hi hj
    have : i * l + j < width_height len (min (Nat.sqrt len) CCCRACK_MAX_WIDTH) l * l := by
      have : (i + 1) * l ≤ width_height len (min (Nat.sqrt len) CCCRACK_MAX_WIDTH) l * l :=
        Nat.mul_le_mul_right l hi
      nlinarith
    exact lt_of_le_of_lt (Nat.mod_le _ _) (lt_of_lt_of_le this hle)
  · unfold width_reduction gf2_matrix_gauss_jordan_cols
    have hd := on_tagging_matrix_dims bits
      (width_height len (min (Nat.sqrt len) CCCRACK_MAX_WIDTH) l) l
    simp [hd.1, hd.2, hge]

theorem on_tagging_matrix_bounds_witness :
    (49 < 2 ^ 33 ∧ 2 ≤ 4 ∧ 4 < min (Nat.sqrt 49) CCCRACK_MAX_WIDTH) ∧
    4 ≤ width_height 49 (min (Nat.sqrt 49) CCCRACK_MAX_WIDTH) 4 ∧
    width_height 49 (min (Nat.sqrt 49) CCCRACK_MAX_WIDTH) 4 * 4 ≤ 49 ∧
    (∀ i j, i < width_height 49 (min (Nat.sqrt 49) CCCRACK_MAX_WIDTH) 4 → j < 4 →
      (i * 4 + j) % 2 ^ 32 < 49) ∧
    (width_reduction [] 49 (min (Nat.sqrt 49) CCCRACK_MAX_WIDTH) 4).isSome = true ∧
    ∀ len' width' l', width_height len' width' l' * l' ≤ len' :=
  ⟨⟨by decide, by decide, lt_min (Nat.le_sqrt.mpr (by decide)) (by decide)⟩,
    on_tagging_matrix_bounds [] 49 4 (by decide) (by decide)
      (lt_min (Nat.le_sqrt.mpr (by decide)) (by decide))⟩

/-! ## Theorems: rank deficiencies found by the analyzer -/


theorem eye_dims (rows cols : Nat) :
    (gf2_matrix_eye rows cols).rows = rows ∧ (gf2_matrix_eye rows cols).cols = cols := by
  unfold gf2_matrix_eye
  have : ∀ (l : List Nat) (M : gf2_matrix),
      (l.foldl (fun m i => gf2_matrix_set m i i 1) M).rows = M.rows ∧
      (l.foldl (fun m i => gf2_matrix_set m i i 1) M).cols = M.cols := by
    intro l
    induction l with
    | nil => intro M; exact ⟨rfl, rfl⟩
    | cons i l ih => intro M; rw [List.foldl_cons]; exact ih _
  exact this _ _

theorem elim_dims (track : Bool) (i : Nat) (st : gf2_matrix × gf2_matrix) :
    (gauss_jordan_cols_elim track i st).1.cols = st.1.cols ∧
    (gauss_jordan_cols_elim track i st).2.cols = st.2.cols := by
  unfold gauss_jordan_cols_elim
  generalize List.range' (i + 1) (st.1.cols - (i + 1)) = l
  induction l generalizing st with
  | nil => exact ⟨rfl, rfl⟩
  | cons j l ih =>
    rw [List.foldl_cons]
    by_cases hc : gf2_matrix_get st.1 i j ≠ 0
    · rw [if_pos hc]
      have h := ih (gf2_matrix_add_cols st.1 j i,
        if track then gf2_matrix_add_rows st.2 j i else st.2)
      refine ⟨h.1.trans (add_cols_cols _ _ _), h.2.trans ?_⟩
      cases track
      · rfl
      · exact add_rows_cols _ _ _
    · rw [if_neg hc]
      exact ih st

theorem pivot_dims (A : gf2_matrix) (i : Nat) : (gauss_jordan_cols_pivot A i).2.cols = A.cols := by
  unfold gauss_jordan_cols_pivot
  split
  · split <;> rfl
  · rfl

theorem step_dims (track : Bool) (st : gf2_matrix × gf2_matrix × Nat) (i : Nat) :
    (gauss_jordan_cols_step track st i).1.cols = st.1.cols ∧
    (gauss_jordan_cols_step track st i).2.1.cols = st.2.1.cols := by
  unfold gauss_jordan_cols_step
  simp only
  split
  · have h := elim_dims track i ((gauss_jordan_cols_pivot st.1 i).2, st.2.1)
    exact ⟨h.1.trans (pivot_dims _ _), h.2⟩
  · exact ⟨pivot_dims _ _, rfl⟩

theorem gauss_jordan_cols_dims (A R B : gf2_matrix)
    (h : gf2_matrix_gauss_jordan_cols A true = some (R, B)) :
    R.cols = A.cols ∧ B.cols = A.cols := by
  unfold gf2_matrix_gauss_jordan_cols at h
  split at h
  · simp only [if_true, Option.some.injEq, Prod.mk.injEq] at h
    have : ∀ (l : List Nat) (st : gf2_matrix × gf2_matrix × Nat),
        (l.foldl (gauss_jordan_cols_step true) st).1.cols = st.1.cols ∧
        (l.foldl (gauss_jordan_cols_step true) st).2.1.cols = st.2.1.cols := by
      intro l
      induction l with
      | nil => intro st; exact ⟨rfl, rfl⟩
      | cons i l ih =>
        intro st
        rw [List.foldl_cons]
        have h1 := ih (gauss_jordan_cols_step true st i)
        have h2 := step_dims true st i
        exact ⟨h1.1.trans h2.1, h1.2.trans h2.2⟩
    have hd := this (List.range A.cols) (A, gf2_matrix_eye A.cols A.cols, 0)
    obtain ⟨h1, h2⟩ := h
    rw [← h1, ← h2]
    exact ⟨hd.1, hd.2.trans (eye_dims _ _).2⟩
  · simp at h

theorem width_template_rows (t : tagging) (bits : List Nat) (len width l : Nat)
    (rd : cccrack_rankdef) (h : width_template t bits len width l = some rd) :
    rd.n_a = l ∧ ∀ row ∈ rd.h, row.length = l := by
  unfold width_template at h
  obtain ⟨RB, hRB, hrd⟩ := Option.map_eq_some'.mp h
  obtain ⟨R, B⟩ := RB
  subst hrd
  unfold width_reduction at hRB
  obtain ⟨d1, d2⟩ := gauss_jordan_cols_dims _ R B hRB
  rw [(on_tagging_matrix_dims bits _ l).2] at d1 d2
  obtain ⟨f1, f2⟩ := from_matrices_h t R B
  refine ⟨f2.trans d1, ?_⟩
  intro row hrow
  simp only at hrow
  rw [f1, List.mem_map] at hrow
  obtain ⟨c, _, hc⟩ := hrow
  rw [← hc, copy_row_length, d2]

theorem mapM_option_self {α : Type} (f : α → Option α) :
    ∀ (l : List α), (∀ x ∈ l, f x = some x) → l.mapM f = some l := by
  intro l
  induction l with
  | nil => intro _; rfl
  | cons a l ih =>
    intro h
    rw [List.mapM_cons, h a (List.mem_cons_self _ _),
      ih (fun x hx => h x (List.mem_cons_of_mem _ hx))]
    rfl

theorem rankdef_dup_h (orig d : cccrack_rankdef) (h : cccrack_rankdef_dup orig = some d)
    (hrows : ∀ row ∈ orig.h, row.length = orig.n_a) : d.h = orig.h := by
  have hm : (orig.h.mapM fun row => copy_bytes row orig.n_a) = some orig.h := by
    apply mapM_option_self
    intro row hrow
    unfold copy_bytes
    rw [if_pos (le_of_eq (hrows row hrow).symm), ← hrows row hrow, List.take_length]
  unfold cccrack_rankdef_dup at h
  rw [hm] at h
  simp only at h
  split at h
  · simp at h
  · split at h
    · simp at h
    · split at h
      · simp at h
      · simp only [Option.some.injEq] at h
        subst h
        rfl


theorem eval_candidate_built (NA N : Nat) (H : List (List Nat)) (self self' : cccrack_state)
    (tpl : cccrack_rankdef) (hall : ∀ c ∈ self.rankdef, built_from NA N H c)
    (ht : built_from NA N H tpl) (hrows : ∀ row ∈ H, row.length = NA)
    (h : cccrack_eval_candidate self tpl = some self') :
    ∀ c ∈ self'.rankdef, built_from NA N H c := by
  obtain ⟨t1, t2, t3⟩ := ht
  unfold cccrack_eval_candidate at h
  split at h
  · simp at h
  · rename_i d0 hd0
    split at h
    · simp at h
    · rename_i d1 hd1
      split at h
      · simp at h
      · rename_i d hd
        have a := rankdef_dup_fields _ _ hd0
        have a' := rankdef_dup_h _ _ hd0 (by rw [t3, t1]; exact hrows)
        have b := extract_duals_fields _ _ hd1
        have c := compute_generators_fields _ _ hd
        split at h
        · simp only [Option.some.injEq] at h
          subst h
          intro x hx
          simp only [cccrack_push_rankdef, List.mem_append, List.mem_singleton] at hx
          rcases hx with hx | hx
          · exact hall x hx
          · subst hx
            exact ⟨by rw [c.2.2.2.1, b.2.2.2.2.1, a.2.1, t1],
              by rw [c.2.2.2.2.1, b.2.2.2.2.2.1, a.2.2.1, t2],
              by rw [c.2.1, b.2.1, a', t3]⟩
        · simp only [Option.some.injEq] at h
          subst h
          exact hall

theorem enumerate_configs_built (NA N : Nat) (H : List (List Nat)) (self : cccrack_state)
    (tpl : cccrack_rankdef) (r : cccrack_state × cccrack_rankdef)
    (hall : ∀ c ∈ self.rankdef, built_from NA N H c)
    (ht : built_from NA N H tpl) (hrows : ∀ row ∈ H, row.length = NA)
    (h : cccrack_enumerate_configs self tpl = some r) :
    ∀ c ∈ r.1.rankdef, built_from NA N H c := by
  unfold cccrack_enumerate_configs at h
  have hinv := foldlM_option_inv _
    (fun st : cccrack_state × cccrack_rankdef =>
      (∀ c ∈ st.1.rankdef, built_from NA N H c) ∧ built_from NA N H st.2) _ ?_
    (self, tpl) r ⟨hall, ht⟩ h
  · exact hinv.1
  · intro b k b' _ hb hstep
    refine foldlM_option_inv _
      (fun st : cccrack_state × cccrack_rankdef =>
        (∀ c ∈ st.1.rankdef, built_from NA N H c) ∧ built_from NA N H st.2) _ ?_
      b b' hb hstep
    intro st z st' _ hst hbody
    unfold enumerate_configs_body at hbody
    simp only at hbody
    split at hbody
    · cases he : cccrack_eval_candidate st.1 _ with
      | none => rw [he] at hbody; simp at hbody
      | some s1 =>
        rw [he] at hbody
        simp only [Option.map_some', Option.some.injEq] at hbody
        subst hbody
        refine ⟨eval_candidate_built NA N H st.1 s1 _ hst.1 ?_ hrows he, ?_⟩
        · exact ⟨hst.2.1, hst.2.2.1, hst.2.2.2⟩
        · exact ⟨hst.2.1, hst.2.2.1, hst.2.2.2⟩
    · simp only [Option.some.injEq] at hbody
      subst hbody
      exact ⟨hst.1, hst.2⟩

theorem evaluate_built (NA N : Nat) (H : List (List Nat)) (self : cccrack_state)
    (rd : cccrack_rankdef) (r : Bool × Option cccrack_rankdef × cccrack_state)
    (hall : ∀ c ∈ self.rankdef, built_from NA N H c)
    (ht : built_from NA N H rd) (hrows : ∀ row ∈ H, row.length = NA)
    (h : on_tagging_evaluate self rd = some r) :
    r.1 = true ∧ ∀ c ∈ r.2.2.rankdef, built_from NA N H c := by
  unfold on_tagging_evaluate at h
  split at h
  · simp only at h
    cases he : cccrack_eval_candidate self _ with
    | none => rw [he] at h; simp at h
    | some s1 =>
      rw [he] at h
      simp only [Option.map_some', Option.some.injEq] at h
      subst h
      refine ⟨rfl, eval_candidate_built NA N H self s1 _ hall ?_ hrows he⟩
      exact ⟨ht.1, ht.2.1, ht.2.2⟩
  · cases he : cccrack_enumerate_configs self rd with
    | none => rw [he] at h; simp at h
    | some r1 =>
      rw [he] at h
      simp only [Option.map_some', Option.some.injEq] at h
      subst h
      exact ⟨rfl, enumerate_configs_built NA N H self rd r1 hall ht hrows he⟩

theorem width_step_cases (t : tagging) (bits : List Nat) (len width l : Nat)
    (st : Bool × Option cccrack_rankdef × cccrack_state) (hst : st.1 = false) :
    on_tagging_width t bits len width st l =
      match width_reduction bits len width l with
      | none => none
      | some (R, B) =>
        if gf2_matrix_get_rank R < l then
          match st.2.1 with
          | none =>
            if st.2.2.params.n > 0 then
              on_tagging_evaluate st.2.2
                { cccrack_rankdef_from_matrices t R B with n := st.2.2.params.n }
            else some (false, some (cccrack_rankdef_from_matrices t R B), st.2.2)
          | some rankdef =>
            on_tagging_evaluate st.2.2 (cccrack_rankdef_set_second_defficiency rankdef l)
        else some st := by
  unfold on_tagging_width width_reduction width_height
  simp only [hst, Bool.false_eq_true, if_false]

theorem deficient_template (t : tagging) (bits : List Nat) (len width l : Nat)
    (h : deficient bits len width l = true) :
    ∃ R B, width_reduction bits len width l = some (R, B) ∧ gf2_matrix_get_rank R < l ∧
      width_template t bits len width l = some (cccrack_rankdef_from_matrices t R B) := by
  unfold deficient at h
  cases hred : width_reduction bits len width l with
  | none => rw [hred] at h; simp at h
  | some RB =>
    obtain ⟨R, B⟩ := RB
    rw [hred] at h
    simp only [decide_eq_true_eq] at h
    refine ⟨R, B, rfl, h, ?_⟩
    unfold width_template
    rw [hred]
    rfl

theorem deficiency_step (self : cccrack_state) (t : tagging) (bits : List Nat)
    (len width : Nat) (hn : self.params.n = 0) (hrd : self.rankdef = [])
    (done : List Nat) (l : Nat) (hlt : ∀ x ∈ done, x < l) (hl : l < 2 ^ 32)
    (st st' : Bool × Option cccrack_rankdef × cccrack_state)
    (hinv : deficiency_inv self t bits len width done st)
    (h : on_tagging_width t bits len width st l = some st') :
    deficiency_inv self t bits len width (done ++ [l]) st' := by
  obtain ⟨i1, i2, i3⟩ := hinv
  unfold deficiency_inv
  rw [List.filter_append, List.filter_singleton]
  by_cases hst : st.1 = true
  · have e : st' = st := by
      unfold on_tagging_width at h
      rw [if_pos hst] at h
      exact (Option.some.inj h).symm
    subst e
    rcases hD : done.filter (deficient bits len width) with _ | ⟨l1, _ | ⟨l2, rest⟩⟩
    · have := i1 hD
      rw [this] at hst
      exact absurd hst (by simp)
    · have := (i2 l1 hD).1
      rw [this] at hst
      exact absurd hst (by decide)
    · have h3 := i3 l1 l2 rest hD
      refine ⟨by simp, by simp, ?_⟩
      intro a b rest' hab
      simp only [List.cons_append, List.cons.injEq] at hab
      obtain ⟨ha, hb, _⟩ := hab
      subst ha hb
      exact h3
  · have hst' : st.1 = false := by simpa using hst
    rw [width_step_cases t bits len width l st hst'] at h
    cases hred : width_reduction bits len width l with
    | none => rw [hred] at h; simp at h
    | some RB =>
      obtain ⟨R, B⟩ := RB
      rw [hred] at h
      simp only at h
      have hdl : deficient bits len width l = decide (gf2_matrix_get_rank R < l) := by
        unfold deficient
        rw [hred]
      rw [hdl]
      by_cases hrank : gf2_matrix_get_rank R < l
      · rw [if_pos hrank] at h
        simp only [hrank, decide_True, cond_true]
        rcases hD : done.filter (deficient bits len width) with _ | ⟨l1, _ | ⟨l2, rest⟩⟩
        · have e := i1 hD
          subst e
          simp only [hn, gt_iff_lt, lt_self_iff_false, if_false, Option.some.injEq] at h
          subst h
          refine ⟨by simp, ?_, by simp⟩
          intro l1 hl1
          simp only [List.nil_append, List.cons.injEq, and_true] at hl1
          subst hl1
          refine ⟨rfl, ?_, rfl⟩
          unfold width_template
          rw [hred]
          rfl
        · obtain ⟨_, j2, j3⟩ := i2 l1 hD
          have hmem : l1 ∈ done.filter (deficient bits len width) := by rw [hD]; simp
          rw [List.mem_filter] at hmem
          obtain ⟨R1, B1, _, _, htpl⟩ := deficient_template t bits len width l1 hmem.2
          rw [j2, htpl] at h
          simp only at h
          rw [j3] at h
          obtain ⟨hna, hrows⟩ := width_template_rows t bits len width l1 _ htpl
          have hl1 : l1 < l := hlt l1 hmem.1
          have hb := evaluate_built l1 (l - l1) (cccrack_rankdef_from_matrices t R1 B1).h self
            (cccrack_rankdef_set_second_defficiency (cccrack_rankdef_from_matrices t R1 B1) l)
            st' (by rw [hrd]; simp)
            ⟨hna, by
              show (l + (2 ^ 32 - (cccrack_rankdef_from_matrices t R1 B1).n_a % 2 ^ 32)) % 2 ^ 32 = _
              rw [hna]
              omega, rfl⟩
            hrows h
          refine ⟨by simp, by simp, ?_⟩
          intro a b rest' hab
          simp only [List.cons_append, List.nil_append, List.cons.injEq] at hab
          obtain ⟨ha, hb', _⟩ := hab
          subst ha hb'
          exact ⟨hb.1, fun c hc => ⟨_, htpl, hb.2 c hc⟩⟩
        · have := (i3 l1 l2 rest hD).1
          rw [hst'] at this
          exact absurd this (by decide)
      · rw [if_neg hrank] at h
        have e : st' = st := (Option.some.inj h).symm
        subst e
        simp only [hrank, decide_False, cond_false, List.append_nil]
        exact ⟨i1, i2, i3⟩

theorem deficiency_fold (self : cccrack_state) (t : tagging) (bits : List Nat)
    (len width : Nat) (hn : self.params.n = 0) (hrd : self.rankdef = []) :
    ∀ (ls done : List Nat) (st st' : Bool × Option cccrack_rankdef × cccrack_state),
      (done ++ ls).Pairwise (fun x y => x < y) → (∀ y ∈ ls, y < 2 ^ 32) →
      deficiency_inv self t bits len width done st →
      ls.foldlM (on_tagging_width t bits len width) st = some st' →
      deficiency_inv self t bits len width (done ++ ls) st' := by
  intro ls
  induction ls with
  | nil =>
    intro done st st' _ _ hinv h
    simp only [List.foldlM_nil, Option.pure_def, Option.some.injEq] at h
    subst h
    rw [List.append_nil]
    exact hinv
  | cons l ls ih =>
    intro done st st' hpw hb hinv h
    rw [List.foldlM_cons] at h
    cases hstep : on_tagging_width t bits len width st l with
    | none => rw [hstep] at h; simp at h
    | some st1 =>
      rw [hstep] at h
      simp only [Option.bind_eq_bind, Option.some_bind] at h
      have hlt : ∀ x ∈ done, x < l := by
        intro x hx
        exact (List.pairwise_append.mp hpw).2.2 x hx l (List.mem_cons_self _ _)
      have h1 := deficiency_step self t bits len width hn hrd done l hlt
        (hb l (List.mem_cons_self _ _)) st st1 hinv hstep
      have := ih (done ++ [l]) st1 st' (by simpa using hpw)
        (fun y hy => hb y (List.mem_cons_of_mem _ hy)) h1 h
      simpa using this


theorem on_tagging_fresh (p : cccrack_params) (t : tagging) (bits : List Nat) (len : Nat)
    (rb : Bool × cccrack_state) (hn : p.n = 0)
    (h : cccrack_on_tagging { params := p, rankdef := [] } t bits len = some rb) :
    (∀ l1 l2 rest, deficient_widths bits len = l1 :: l2 :: rest →
      ∀ c ∈ rb.2.rankdef, ∃ rd, width_template t bits len (analyzer_width len) l1 = some rd ∧
        built_from l1 (l2 - l1) rd.h c) ∧
    ((deficient_widths bits len).length < 2 → rb.2.rankdef = []) := by
  unfold cccrack_on_tagging at h
  split at h
  · simp only [Option.some.injEq] at h
    subst h
    exact ⟨fun _ _ _ _ c hc => by simp at hc, fun _ => rfl⟩
  · split at h
    · simp only [Option.some.injEq] at h
      subst h
      exact ⟨fun _ _ _ _ c hc => by simp at hc, fun _ => rfl⟩
    · simp only at h
      obtain ⟨st, hst, hr⟩ := Option.map_eq_some'.mp h
      subst hr
      have hinv := deficiency_fold { params := p, rankdef := [] } t bits len
        (min (Nat.sqrt len) CCCRACK_MAX_WIDTH) hn rfl
        (List.range' 2 (min (Nat.sqrt len) CCCRACK_MAX_WIDTH - 2)) []
        (false, none, { params := p, rankdef := [] }) st
        (by simpa using List.pairwise_lt_range' 2 _)
        (by
          intro y hy
          rw [List.mem_range'_1] at hy
          have : min (Nat.sqrt len) CCCRACK_MAX_WIDTH ≤ 100 := min_le_right _ _
          omega)
        ⟨fun _ => rfl, by simp, by simp⟩ hst
      rw [List.nil_append] at hinv
      obtain ⟨i1, i2, i3⟩ := hinv
      unfold deficient_widths analyzer_width
      refine ⟨fun l1 l2 rest hD => (i3 l1 l2 rest hD).2, ?_⟩
      intro hlen
      rcases hD : (List.range' 2 (min (Nat.sqrt len) CCCRACK_MAX_WIDTH - 2)).filter
          (deficient bits len (min (Nat.sqrt len) CCCRACK_MAX_WIDTH)) with
        _ | ⟨l1, _ | ⟨l2, rest⟩⟩
      · rw [i1 hD]
      · rw [(i2 l1 hD).2.2]
      · rw [hD] at hlen
        simp only [List.length_cons] at hlen
        omega

/-! ## Theorems: buffers of constant bits -/

theorem get_new (rows cols r c : Nat) : gf2_matrix_get (gf2_matrix_new rows cols) r c = 0 := by
  unfold gf2_matrix_get gf2_matrix_new
  simp

theorem fill_row_get (b : Nat → Nat) (i : Nat) :
    ∀ (k : Nat) (R : gf2_matrix), k ≤ 32 → ∀ r c, c < 32 →
      gf2_matrix_get ((List.range k).foldl (fun R j => gf2_matrix_set R i j (b j)) R) r c =
        if r = i ∧ c < k then b c &&& 1 else gf2_matrix_get R r c := by
  intro k
  induction k with
  | zero => intro R _ r c _; simp
  | succ k ih =>
    intro R hk r c hc
    rw [List.range_succ, List.foldl_append, List.foldl_cons, List.foldl_nil,
      get_set _ _ _ _ _ _ (by omega) hc, ih R (by omega) r c hc]
    by_cases hr : r = i
    · by_cases hck : c = k
      · subst hck
        simp [hr]
      · by_cases hlt : c < k
        · have : c < k + 1 := by omega
          simp [hr, hck, hlt, this]
        · have : ¬ c < k + 1 := by omega
          simp [hr, hck, hlt, this]
    · simp [hr]

theorem on_tagging_matrix_get (bits : List Nat) (height l : Nat) (hl : l ≤ 32) (r c : Nat)
    (hc : c < l) :
    gf2_matrix_get (on_tagging_matrix bits height l) r c =
      if r < height then bits.getD ((r * l + c) % 2 ^ 32) 0 &&& 1 else 0 := by
  unfold on_tagging_matrix
  have outer : ∀ (n : Nat) (R : gf2_matrix),
      gf2_matrix_get ((List.range n).foldl
        (fun R i =>
          (List.range l).foldl
            (fun R j => gf2_matrix_set R i j (bits.getD ((i * l + j) % 2 ^ 32) 0)) R) R) r c =
        if r < n then bits.getD ((r * l + c) % 2 ^ 32) 0 &&& 1 else gf2_matrix_get R r c := by
    intro n
    induction n with
    | zero => intro R; simp
    | succ n ih =>
      intro R
      rw [List.range_succ, List.foldl_append, List.foldl_cons, List.foldl_nil,
        fill_row_get (fun j => bits.getD ((n * l + j) % 2 ^ 32) 0) n l _ hl r c (by omega), ih R]
      by_cases hrn : r = n
      · subst hrn
        simp [hc]
      · by_cases hlt : r < n
        · have : r < n + 1 := by omega
          simp [hrn, hlt, this]
        · have : ¬ r < n + 1 := by omega
          simp [hrn, hlt, this]
  rw [outer height (gf2_matrix_new height l), get_new]
theorem elim_same_rows (track : Bool) (i n : Nat) (hn : n ≤ 32) (hi : i < n) :
    ∀ (js : List Nat) (s : gf2_matrix × gf2_matrix), (∀ j ∈ js, i < j ∧ j < n) →
      s.1.cols = n → i < s.1.rows → same_rows s.1 → gf2_matrix_get s.1 0 i = 1 →
      same_rows (js.foldl
        (fun s j =>
          if gf2_matrix_get s.1 i j ≠ 0 then
            (gf2_matrix_add_cols s.1 j i, if track then gf2_matrix_add_rows s.2 j i else s.2)
          else s) s).1 ∧
      (js.foldl
        (fun s j =>
          if gf2_matrix_get s.1 i j ≠ 0 then
            (gf2_matrix_add_cols s.1 j i, if track then gf2_matrix_add_rows s.2 j i else s.2)
          else s) s).1.rows = s.1.rows ∧
      (js.foldl
        (fun s j =>
          if gf2_matrix_get s.1 i j ≠ 0 then
            (gf2_matrix_add_cols s.1 j i, if track then gf2_matrix_add_rows s.2 j i else s.2)
          else s) s).1.cols = n ∧
      ∀ c, c < n → c ≠ i → (c ∈ js ∨ gf2_matrix_get s.1 0 c = 0) →
        gf2_matrix_get (js.foldl
          (fun s j =>
            if gf2_matrix_get s.1 i j ≠ 0 then
              (gf2_matrix_add_cols s.1 j i, if track then gf2_matrix_add_rows s.2 j i else s.2)
            else s) s).1 0 c = 0 := by
  intro js
  induction js with
  | nil =>
    intro s _ hc _ hu _
    refine ⟨hu, rfl, hc, ?_⟩
    intro c _ _ h
    rcases h with h | h
    · simp at h
    · exact h
  | cons j js ih =>
    intro s hjs hc hr hu h1
    rw [List.foldl_cons]
    obtain ⟨hij, hjn⟩ := hjs j (List.mem_cons_self _ _)
    have hpos : 0 < s.1.rows := by omega
    have key : ∃ s1 : gf2_matrix × gf2_matrix,
        (if gf2_matrix_get s.1 i j ≠ 0 then
          (gf2_matrix_add_cols s.1 j i, if track then gf2_matrix_add_rows s.2 j i else s.2)
        else s) = s1 ∧ s1.1.cols = n ∧ s1.1.rows = s.1.rows ∧ same_rows s1.1 ∧
        gf2_matrix_get s1.1 0 i = 1 ∧ gf2_matrix_get s1.1 0 j = 0 ∧
        ∀ c, c < n → c ≠ j → gf2_matrix_get s1.1 0 c = gf2_matrix_get s.1 0 c := by
      by_cases hne : gf2_matrix_get s.1 i j ≠ 0
      · rw [if_pos hne]
        refine ⟨_, rfl, (add_cols_cols _ _ _).trans hc, add_cols_rows _ _ _, ?_, ?_, ?_, ?_⟩
        · intro r c hr1 hc1
          simp only [add_cols_rows, add_cols_cols] at hr1 hc1
          rw [get_add_cols _ _ _ _ _ (by omega) (by omega),
            get_add_cols _ _ _ _ _ (by omega) (by omega)]
          simp only [hr1, hpos, true_and]
          rw [hu r j hr1 (by omega), hu r i hr1 (by omega), hu r c hr1 hc1]
        · rw [get_add_cols _ _ _ _ _ (by omega) (by omega)]
          have : ¬ (0 < s.1.rows ∧ i = j) := by omega
          rw [if_neg this]
          exact h1
        · rw [get_add_cols _ _ _ _ _ (by omega) (by omega)]
          simp only [hpos, true_and, if_true]
          have hj1 : gf2_matrix_get s.1 0 j = 1 := by
            have hle := get_le_one s.1 i j
            have := hu i j hr (by omega)
            omega
          rw [hj1, h1]
          rfl
        · intro c hcn hcj
          rw [get_add_cols _ _ _ _ _ (by omega) (by omega)]
          have : ¬ (0 < s.1.rows ∧ c = j) := by omega
          rw [if_neg this]
      · rw [if_neg hne]
        refine ⟨s, rfl, hc, rfl, hu, h1, ?_, fun _ _ _ => rfl⟩
        have := hu i j hr (by omega)
        omega
    obtain ⟨s1, hs1, k1, k2, k3, k4, k5, k6⟩ := key
    rw [hs1]
    obtain ⟨r1, r2, r3, r4⟩ :=
      ih s1 (fun x hx => hjs x (List.mem_cons_of_mem _ hx)) k1 (by omega) k3 k4
    refine ⟨r1, r2.trans k2, r3, ?_⟩
    intro c hcn hci h
    apply r4 c hcn hci
    by_cases hcj : c = j
    · right
      rw [hcj]
      exact k5
    · rcases h with h | h
      · left
        rcases List.mem_cons.mp h with h | h
        · exact absurd h hcj
        · exact h
      · right
        rw [k6 c hcn hcj]
        exact h

theorem step_same_rows (track : Bool) (i n : Nat) (hn : n ≤ 32) (hi : i < n)
    (st : gf2_matrix × gf2_matrix × Nat) (hc : st.1.cols = n) (hr : n ≤ st.1.rows)
    (hu : same_rows st.1)
    (hk : st.2.2 = 0 ∨ (st.2.2 = 1 ∧ ∀ c, i ≤ c → c < n → gf2_matrix_get st.1 0 c = 0)) :
    (gauss_jordan_cols_step track st i).1.cols = n ∧
    (gauss_jordan_cols_step track st i).1.rows = st.1.rows ∧
    same_rows (gauss_jordan_cols_step track st i).1 ∧
    ((gauss_jordan_cols_step track st i).2.2 = 0 ∨
      ((gauss_jordan_cols_step track st i).2.2 = 1 ∧
        ∀ c, i + 1 ≤ c → c < n → gf2_matrix_get (gauss_jordan_cols_step track st i).1 0 c = 0)) := by
  unfold gauss_jordan_cols_step
  simp only
  rcases pivot_spec st.1 i (by omega) with ⟨h0, hA⟩ | ⟨hne, hii, hrows, hcols, j, hij, hj, hperm⟩
  · rw [if_neg (by simp [h0]), hA]
    refine ⟨hc, rfl, hu, ?_⟩
    rcases hk with hk | ⟨hk, hz⟩
    · exact Or.inl hk
    · exact Or.inr ⟨hk, fun c h1 h2 => hz c (by omega) h2⟩
  · rw [if_pos hne]
    have hP : ∀ r c, r < st.1.rows → c < n →
        gf2_matrix_get (gauss_jordan_cols_pivot st.1 i).2 r c = gf2_matrix_get st.1 0 c := by
      intro r c hr1 hc1
      rw [hperm r c]
      apply hu _ c _ (by omega)
      split
      · omega
      · split <;> omega
    have hPu : same_rows (gauss_jordan_cols_pivot st.1 i).2 := by
      intro r c hr1 hc1
      rw [hrows] at hr1
      rw [hcols, hc] at hc1
      rw [hP r c hr1 hc1, hP 0 c (by omega) hc1]
    have hA1 : gf2_matrix_get st.1 0 i = 1 := by
      rw [← hP i i (by omega) hi]
      exact hii
    have hrank : st.2.2 = 0 := by
      rcases hk with hk | ⟨_, hz⟩
      · exact hk
      · have := hz i (le_refl _) hi
        omega
    have he := elim_same_rows track i n hn hi
      (List.range' (i + 1) ((gauss_jordan_cols_pivot st.1 i).2.cols - (i + 1)))
      ((gauss_jordan_cols_pivot st.1 i).2, st.2.1)
      (by
        intro x hx
        rw [List.mem_range'_1, hcols, hc] at hx
        omega)
      (hcols.trans hc) (by rw [hrows]; omega) hPu
      (by rw [hP 0 i (by omega) hi]; exact hA1)
    unfold gauss_jordan_cols_elim
    obtain ⟨e1, e2, e3, e4⟩ := he
    refine ⟨e3, e2.trans hrows, e1, Or.inr ⟨by rw [hrank]; norm_num, ?_⟩⟩
    intro c h1 h2
    apply e4 c h2 (by omega)
    left
    rw [List.mem_range'_1, hcols, hc]
    omega

theorem same_rows_rank (A : gf2_matrix) (hn : A.cols ≤ 32) (hr : A.cols ≤ A.rows)
    (hu : same_rows A) :
    ∃ R B, gf2_matrix_gauss_jordan_cols A true = some (R, B) ∧ gf2_matrix_get_rank R ≤ 1 := by
  have fold : ∀ k, k ≤ A.cols → ∀ b_m : gf2_matrix,
      ((List.range k).foldl (gauss_jordan_cols_step true) (A, b_m, 0)).1.cols = A.cols ∧
      ((List.range k).foldl (gauss_jordan_cols_step true) (A, b_m, 0)).1.rows = A.rows ∧
      same_rows ((List.range k).foldl (gauss_jordan_cols_step true) (A, b_m, 0)).1 ∧
      (((List.range k).foldl (gauss_jordan_cols_step true) (A, b_m, 0)).2.2 = 0 ∨
        (((List.range k).foldl (gauss_jordan_cols_step true) (A, b_m, 0)).2.2 = 1 ∧
          ∀ c, k ≤ c → c < A.cols → gf2_matrix_get
            ((List.range k).foldl (gauss_jordan_cols_step true) (A, b_m, 0)).1 0 c = 0)) := by
    intro k
    induction k with
    | zero => intro _ b_m; exact ⟨rfl, rfl, hu, Or.inl rfl⟩
    | succ k ih =>
      intro hk b_m
      obtain ⟨i1, i2, i3, i4⟩ := ih (by omega) b_m
      rw [List.range_succ, List.foldl_append, List.foldl_cons, List.foldl_nil]
      have h := step_same_rows true k A.cols hn (by omega) _ i1 (by rw [i2]; exact hr) i3 i4
      exact ⟨h.1, h.2.1.trans i2, h.2.2.1, h.2.2.2⟩
  unfold gf2_matrix_gauss_jordan_cols
  rw [if_pos hr]
  refine ⟨_, _, rfl, ?_⟩
  unfold gf2_matrix_get_rank
  simp only [if_true]
  rcases (fold A.cols (le_refl _) (gf2_matrix_eye A.cols A.cols)).2.2.2 with h | h
  · omega
  · omega
theorem width_height_ge (len l : Nat) (hlen : len < 2 ^ 33) (h2 : 2 ≤ l)
    (hl : l < min (Nat.sqrt len) CCCRACK_MAX_WIDTH) :
    l ≤ width_height len (min (Nat.sqrt len) CCCRACK_MAX_WIDTH) l := by
  obtain ⟨hsq, hmax, hW⟩ := sqrt_width len l hl
  have hdiv : l ≤ len / l := by
    rw [Nat.le_div_iff_mul_le (by omega)]
    nlinarith
  have hlt : len / l < 2 ^ 32 := by
    rw [Nat.div_lt_iff_lt_mul (by omega)]
    omega
  unfold width_height
  rw [Nat.mod_eq_of_lt hlt]
  unfold CCCRACK_MAX_REL_HEIGHT
  split <;> omega

theorem constant_matrix_get (m v width l : Nat) (hl : l ≤ 32) (r c : Nat)
    (hr : r < width_height m width l) (hc : c < l) :
    gf2_matrix_get (on_tagging_matrix (List.replicate m v) (width_height m width l) l) r c =
      v &&& 1 := by
  rw [on_tagging_matrix_get _ _ _ hl r c hc, if_pos hr]
  have hle := width_height_le m width l
  have h1 : r * l + c < width_height m width l * l := by
    have : (r + 1) * l ≤ width_height m width l * l := Nat.mul_le_mul_right l hr
    nlinarith
  have h2 : (r * l + c) % 2 ^ 32 < m :=
    lt_of_le_of_lt (Nat.mod_le _ _) (lt_of_lt_of_le h1 hle)
  rw [List.getD_eq_getElem?_getD, List.getElem?_replicate, if_pos h2]
  rfl

theorem constant_deficient (m v width l : Nat) (h2 : 2 ≤ l) (hl : l ≤ 32)
    (hh : l ≤ width_height m width l) :
    ∃ R B, width_reduction (List.replicate m v) m width l = some (R, B) ∧
      gf2_matrix_get_rank R ≤ 1 ∧ deficient (List.replicate m v) m width l = true := by
  have hd := on_tagging_matrix_dims (List.replicate m v) (width_height m width l) l
  have hu : same_rows (on_tagging_matrix (List.replicate m v) (width_height m width l) l) := by
    intro r c hr hc
    rw [hd.1] at hr
    rw [hd.2] at hc
    rw [constant_matrix_get m v width l hl r c hr hc,
      constant_matrix_get m v width l hl 0 c (by omega) hc]
  obtain ⟨R, B, hgj, hrank⟩ := same_rows_rank _ (by rw [hd.2]; exact hl)
    (by rw [hd.1, hd.2]; exact hh) hu
  refine ⟨R, B, hgj, hrank, ?_⟩
  unfold deficient width_reduction
  rw [hgj]
  simp only [decide_eq_true_eq]
  omega

theorem width_fold_done (t : tagging) (bits : List Nat) (len width : Nat) :
    ∀ (ls : List Nat) (st : Bool × Option cccrack_rankdef × cccrack_state), st.1 = true →
      ls.foldlM (on_tagging_width t bits len width) st = some st := by
  intro ls
  induction ls with
  | nil => intro st _; rfl
  | cons l ls ih =>
    intro st h
    rw [List.foldlM_cons]
    have : on_tagging_width t bits len width st l = some st := by
      unfold on_tagging_width
      rw [if_pos h]
    rw [this]
    exact ih st h

theorem on_tagging_constant (self : cccrack_state) (t : tagging) (m v : Nat)
    (hm : m < 2 ^ 33) (hn : self.params.n = 0)
    (hk : ¬ (self.params.k > 0 ∧ self.params.K > 0)) :
    cccrack_on_tagging self t (List.replicate m v) m = some (true, self) := by
  unfold cccrack_on_tagging
  split
  · rfl
  · split
    · rfl
    · simp only
      have key : ∃ st, (List.range' 2 (min (Nat.sqrt m) CCCRACK_MAX_WIDTH - 2)).foldlM
          (on_tagging_width t (List.replicate m v) m (min (Nat.sqrt m) CCCRACK_MAX_WIDTH))
          (false, none, self) = some st ∧ st.2.2 = self := by
        by_cases hW2 : min (Nat.sqrt m) CCCRACK_MAX_WIDTH ≤ 2
        · have : min (Nat.sqrt m) CCCRACK_MAX_WIDTH - 2 = 0 := by omega
          rw [this]
          exact ⟨_, rfl, rfl⟩
        · have e2 : min (Nat.sqrt m) CCCRACK_MAX_WIDTH - 2 =
              (min (Nat.sqrt m) CCCRACK_MAX_WIDTH - 3) + 1 := by omega
          rw [e2, List.range'_succ, List.foldlM_cons,
            width_step_cases t _ m _ 2 (false, none, self) rfl]
          obtain ⟨R, B, hred, hrank, hdef⟩ := constant_deficient m v
            (min (Nat.sqrt m) CCCRACK_MAX_WIDTH) 2 (le_refl _) (by decide)
            (width_height_ge m 2 hm (le_refl _) (by omega))
          obtain ⟨R0, B0, hred0, _, htpl⟩ := deficient_template t _ m _ 2 hdef
          have hna := (width_template_rows t _ m _ 2 _ htpl).1
          rw [hred] at hred0
          simp only [Option.some.injEq, Prod.mk.injEq] at hred0
          rw [← hred0.1, ← hred0.2] at hna
          rw [hred]
          have hlt : gf2_matrix_get_rank R < 2 := by omega
          simp only [hlt, if_true, hn, gt_iff_lt, lt_irrefl, if_false, Option.bind_eq_bind,
            Option.some_bind]
          by_cases hW3 : min (Nat.sqrt m) CCCRACK_MAX_WIDTH ≤ 3
          · have : min (Nat.sqrt m) CCCRACK_MAX_WIDTH - 3 = 0 := by omega
            rw [this]
            exact ⟨_, rfl, rfl⟩
          · have e3 : min (Nat.sqrt m) CCCRACK_MAX_WIDTH - 3 =
                (min (Nat.sqrt m) CCCRACK_MAX_WIDTH - 4) + 1 := by omega
            rw [e3, List.range'_succ, List.foldlM_cons,
              width_step_cases t _ m _ 3 (false, some (cccrack_rankdef_from_matrices t R B), self)
                rfl]
            obtain ⟨R3, B3, hred3, hrank3, _⟩ := constant_deficient m v
              (min (Nat.sqrt m) CCCRACK_MAX_WIDTH) 3 (by decide) (by decide)
              (width_height_ge m 3 hm (by decide) (by omega))
            rw [hred3]
            have hlt3 : gf2_matrix_get_rank R3 < 3 := by omega
            have hev : on_tagging_evaluate self
                (cccrack_rankdef_set_second_defficiency (cccrack_rankdef_from_matrices t R B) 3) =
                some (true,
                  some (cccrack_rankdef_set_second_defficiency
                    (cccrack_rankdef_from_matrices t R B) 3), self) := by
              unfold on_tagging_evaluate
              rw [if_neg hk]
              unfold cccrack_enumerate_configs cccrack_rankdef_set_second_defficiency
              simp only [hna]
              rfl
            simp only [hlt3, if_true, hev, Option.bind_eq_bind, Option.some_bind]
            exact ⟨_, width_fold_done t _ m _ _ _ rfl, rfl⟩
      obtain ⟨st, hst, hself⟩ := key
      rw [hst, Option.map_some', hself]
theorem demodulate_constant (m : Nat) (t : tagging) (ht : t.bps = 1) :
    demodulate_bits (List.replicate m 48) m t =
      List.replicate m (t.dict (0 &&& t.mask) &&& 1) := by
  unfold demodulate_bits
  rw [ht]
  have hs : demodulate_shifts 1 = [0] := by decide
  rw [hs]
  have : ∀ k, k ≤ m →
      ((List.range k).flatMap fun i =>
        [0].map fun j =>
          (t.dict ((((List.replicate m 48).getD i 0 + (2 ^ 32 - 48)) % 2 ^ 32) &&& t.mask)
            >>> j) &&& 1) = List.replicate k (t.dict (0 &&& t.mask) &&& 1) := by
    intro k
    induction k with
    | zero => intro _; rfl
    | succ k ih =>
      intro hk
      rw [List.range_succ, List.flatMap_append, ih (by omega), List.replicate_succ']
      have hk1 : k < m := by omega
      have hg : (List.replicate m 48).getD k 0 = 48 := by
        rw [List.getD_eq_getElem?_getD, List.getElem?_replicate, if_pos hk1]
        rfl
      have h0 : (48 + (2 ^ 32 - 48)) % 2 ^ 32 = 0 := by norm_num
      simp only [List.flatMap_cons, List.flatMap_nil, List.append_nil, List.map_cons,
        List.map_nil, Nat.shiftRight_zero, hg, h0]
  exact this m (le_refl _)

theorem from_file_zero_symbols {σ : Type} (m : Nat) (hm1 : 1 ≤ m) (hm : m < 2 ^ 32)
    (cb : σ → tagging → List Nat → Nat → Bool × σ) (priv : σ) :
    symtag_new_from_file (List.replicate m 48) 0 cb priv =
      some (symtag_new (List.replicate m 48) m 1 cb priv) := by
  have hv : valid_symbols (List.replicate m 48) = List.replicate m 48 := by
    unfold valid_symbols
    rw [List.takeWhile_replicate]
    simp
  obtain ⟨b, hb, h1, _, _, hmin⟩ := bps_detect_scan_spec (List.replicate m 48) 1 0
    (le_refl _) (by decide) (by rw [List.length_replicate]; omega)
  have hb1 : b = 1 := by
    have := hmin 1 (le_refl _) (by
      intro c hc
      rw [hv] at hc
      rw [List.eq_of_mem_replicate hc]
      decide)
    omega
  subst hb1
  rw [hv, List.length_replicate] at hb
  unfold symtag_new_from_file
  simp only [List.length_replicate, Nat.mod_eq_of_lt hm, if_true]
  have ht : (List.replicate m 48).take m = List.replicate m 48 := by
    rw [List.take_of_length_le]
    rw [List.length_replicate]
  rw [ht]
  have hb2 : bps_detect_scan (List.replicate m 48) (1, 2, 0) = some (1, 2 ^ 1, 0 + m) := hb
  rw [hb2]
  have hm0 : ¬ (0 + m = 0) := by omega
  simp only [hm0, if_false]
  have : ¬ (0 + m < m) := by omega
  rw [if_neg this]

theorem replay_fixed {σ : Type} (cb : σ → tagging → List Nat → Nat → Bool × σ) (p : σ) :
    ∀ L : List tagging_call, (∀ c ∈ L, cb p c.tagging c.bits c.len = (true, p)) →
      (replay cb p L).2 = p ∧ (replay cb p L).1.all id = true := by
  intro L
  induction L with
  | nil => intro _; exact ⟨rfl, rfl⟩
  | cons c L ih =>
    intro h
    have hc := h c (List.mem_cons_self _ _)
    have hL := ih (fun x hx => h x (List.mem_cons_of_mem _ hx))
    unfold replay
    rw [hc]
    simp only [List.all_cons, id, Bool.true_and]
    exact hL

theorem tag_zero_symbols (m : Nat) (hm : m < 2 ^ 32) (p : cccrack_params) (hn : p.n = 0)
    (hk : ¬ (p.k > 0 ∧ p.K > 0)) :
    (symtag_tag (symtag_new (List.replicate m 48) m 1 cccrack_handler
      (some { params := p, rankdef := [] }))).1 = true ∧
    (symtag_tag (symtag_new (List.replicate m 48) m 1 cccrack_handler
      (some { params := p, rankdef := [] }))).2.priv = some { params := p, rankdef := [] } ∧
    ∀ c ∈ (symtag_tag (symtag_new (List.replicate m 48) m 1 cccrack_handler
        (some { params := p, rankdef := [] }))).2.calls,
      c.len = m ∧ ∃ v, c.bits = List.replicate m v := by
  have hf := tag_frame_internal
    ((symtag_new (List.replicate m 48) m 1 cccrack_handler
      (some { params := p, rankdef := [] })).tagging.dict_len + 1)
    { symtag_new (List.replicate m 48) m 1 cccrack_handler
        (some { params := p, rankdef := [] }) with
      tagging := { (symtag_new (List.replicate m 48) m 1 cccrack_handler
        (some { params := p, rankdef := [] })).tagging with tagging_id := 0 }
      sel_mask := 0 } 0
  obtain ⟨_, _, _, _, _, _, L1, hL1, hg⟩ := hf
  obtain ⟨_, _, L, hL, hpriv, hres, _⟩ := tag_stop_tag
    (symtag_new (List.replicate m 48) m 1 cccrack_handler (some { params := p, rankdef := [] }))
  have hLL : L1 = L := by
    have e1 : (symtag_tag (symtag_new (List.replicate m 48) m 1 cccrack_handler
        (some { params := p, rankdef := [] }))).2.calls = [] ++ L1 := hL1
    have e2 : (symtag_tag (symtag_new (List.replicate m 48) m 1 cccrack_handler
        (some { params := p, rankdef := [] }))).2.calls = [] ++ L := hL
    rw [e1] at e2
    simpa using e2
  subst hLL
  have hcalls : ∀ c ∈ L1, c.len = m ∧ ∃ v, c.bits = List.replicate m v := by
    intro c hc
    obtain ⟨g1, g2, g3, _, _, _⟩ := hg c hc
    have e_bits : c.bits = demodulate_bits (List.replicate m 48) m c.tagging := g1
    have e_len : c.len = (m * 1) % 2 ^ 64 := g2
    have e_bps : c.tagging.bps = 1 := g3
    refine ⟨?_, _, e_bits.trans (demodulate_constant m c.tagging e_bps)⟩
    rw [e_len]
    omega
  have hfix := replay_fixed cccrack_handler (some { params := p, rankdef := [] }) L1
    (by
      intro c hc
      obtain ⟨h1, v, h2⟩ := hcalls c hc
      unfold cccrack_handler
      simp only
      rw [h1, h2, on_tagging_constant { params := p, rankdef := [] } c.tagging m v (by omega)
        hn hk])
  refine ⟨?_, ?_, ?_⟩
  · rw [hres]
    exact hfix.2
  · rw [hpriv]
    exact hfix.1
  · intro c hc
    rw [hL] at hc
    exact hcalls c (by simpa [symtag_new] using hc)
/-- C23, counterexample: on the input of 16 symbols `'0'` (bps auto-detected as 1)
the analyzer is called with the buffers of 16 bits `0` (dictionary `[0, 1]`) and of
16 bits `1` (dictionary `[1, 0]`); its width is `W = 4`, and at the row widths 2 and
3 the reduced matrix of the first buffer records rank 0 and that of the second
rank 1: both widths are deficient for both buffers and a record with `n_a = 2` is
built at `l = 2`. With `(k, n, K)` forced to `(1, 2, 1)` the session retains a
candidate. -/
theorem session_zero_symbols_deficient :
    (cccrack_session (List.replicate 16 48) cccrack_params_INITIALIZER).map
        (fun r => r.2.symtag.calls.map fun c => (c.tagging.dict_list, c.bits)) =
      some [([0, 1], List.replicate 16 0), ([1, 0], List.replicate 16 1)] ∧
    analyzer_width 16 = 4 ∧
    [2, 3].map (fun l => (width_reduction (List.replicate 16 0) 16 4 l).map
        fun RB => gf2_matrix_get_rank RB.1) = [some 0, some 0] ∧
    [2, 3].map (fun l => (width_reduction (List.replicate 16 1) 16 4 l).map
        fun RB => gf2_matrix_get_rank RB.1) = [some 1, some 1] ∧
    deficient_widths (List.replicate 16 0) 16 = [2, 3] ∧
    deficient_widths (List.replicate 16 1) 16 = [2, 3] ∧
    (width_template binary_tagging (List.replicate 16 0) 16 4 2).map
        (fun rd => (rd.n_a, rd.h)) = some (2, [[1, 0], [0, 1]]) ∧
    (cccrack_session (List.replicate 16 48) short_params).map
        (fun r => r.2.rankdef.map fun c => ([c.k, c.n, c.K, c.muT, c.n_a], c.h, c.likely)) =
      some [([1, 2, 1, 0, 2], [[1, 1]], true)] := by
  decide!

/-- C23, amended: for an input of `m` symbols `'0'` (`1 ≤ m < 2 ^ 32`, bps
auto-detected) analysed with `n` not forced and `k` or `K` not forced, the session
succeeds, every buffer handed to the analyzer holds `m` equal bits, and no candidate
is retained. The reduced matrix of a buffer of equal bits does not have rank `l`:
at every row width `2 ≤ l < W` with `l ≤ 32` the reduction records a rank of at
most 1, so that each of these widths is deficient and the record built from the
reduction, with `n_a = l`, exists. -/
theorem session_zero_symbols (m : Nat) (p : cccrack_params) (hm1 : 1 ≤ m) (hm : m < 2 ^ 32)
    (hb : p.bps = 0) (hn : p.n = 0) (hk : p.k = 0 ∨ p.K = 0) :
    (∃ r, cccrack_session (List.replicate m 48) p = some r ∧ r.1 = true ∧
      r.2.rankdef = [] ∧
      ∀ c ∈ r.2.symtag.calls, c.len = m ∧ ∃ v, c.bits = List.replicate m v) ∧
    ∀ v l, 2 ≤ l → l ≤ 32 → l < analyzer_width m →
      (∃ R B, width_reduction (List.replicate m v) m (analyzer_width m) l = some (R, B) ∧
        gf2_matrix_get_rank R ≤ 1) ∧
      deficient (List.replicate m v) m (analyzer_width m) l = true ∧
      ∀ t, ∃ rd, width_template t (List.replicate m v) m (analyzer_width m) l = some rd ∧
        rd.n_a = l := by
  refine ⟨?_, ?_⟩
  · have hk1 : ¬ (p.k > 0 ∧ p.K > 0) := by omega
    obtain ⟨t1, t2, t3⟩ := tag_zero_symbols m hm p hn hk1
    unfold cccrack_session cccrack_new
    rw [hb, from_file_zero_symbols m hm1 hm]
    simp only [Option.map_some', Option.some_bind]
    unfold cccrack_run
    have e : ({ symtag_new (List.replicate m 48) m 1 cccrack_handler
          (some { params := p, rankdef := [] }) with
        priv := some { params := p, rankdef := [] } } : symtag (Option cccrack_state)) =
        symtag_new (List.replicate m 48) m 1 cccrack_handler
          (some { params := p, rankdef := [] }) := rfl
    simp only [e, t2, Option.map_some']
    exact ⟨_, rfl, t1, rfl, t3⟩
  · intro v l h2 h32 hl
    obtain ⟨R, B, hred, hrank, hdef⟩ := constant_deficient m v (analyzer_width m) l h2 h32
      (width_height_ge m l (by omega) h2 hl)
    refine ⟨⟨R, B, hred, hrank⟩, hdef, ?_⟩
    intro t
    obtain ⟨R0, B0, _, _, htpl⟩ := deficient_template t _ m _ l hdef
    exact ⟨_, htpl, (width_template_rows t _ m _ l _ htpl).1⟩

theorem session_zero_symbols_witness :
    (1 ≤ 16 ∧ 16 < 2 ^ 32 ∧ cccrack_params_INITIALIZER.bps = 0 ∧
      cccrack_params_INITIALIZER.n = 0 ∧
      (cccrack_params_INITIALIZER.k = 0 ∨ cccrack_params_INITIALIZER.K = 0)) ∧
    (∃ r, cccrack_session (List.replicate 16 48) cccrack_params_INITIALIZER = some r ∧
      r.1 = true ∧ r.2.rankdef = [] ∧
      ∀ c ∈ r.2.symtag.calls, c.len = 16 ∧ ∃ v, c.bits = List.replicate 16 v) ∧
    ∀ v l, 2 ≤ l → l ≤ 32 → l < analyzer_width 16 →
      (∃ R B, width_reduction (List.replicate 16 v) 16 (analyzer_width 16) l = some (R, B) ∧
        gf2_matrix_get_rank R ≤ 1) ∧
      deficient (List.replicate 16 v) 16 (analyzer_width 16) l = true ∧
      ∀ t, ∃ rd, width_template t (List.replicate 16 v) 16 (analyzer_width 16) l = some rd ∧
        rd.n_a = l :=
  ⟨⟨by decide, by decide, rfl, rfl, Or.inl rfl⟩,
    session_zero_symbols 16 cccrack_params_INITIALIZER (by decide) (by decide) rfl rfl
      (Or.inl rfl)⟩

/-! ## Theorems: the population count -/

theorem and_split (k x y m M : Nat) (hx : x < 2 ^ k) (hm : m < 2 ^ k) :
    (x + 2 ^ k * y) &&& (m + 2 ^ k * M) = (x &&& m) + 2 ^ k * (y &&& M) := by
  apply Nat.eq_of_testBit_eq
  intro j
  have hxm : x &&& m < 2 ^ k := Nat.and_lt_two_pow x hm
  rw [Nat.testBit_and, Nat.add_comm x, Nat.add_comm m, Nat.add_comm (x &&& m),
    Nat.testBit_mul_pow_two_add y hx, Nat.testBit_mul_pow_two_add M hm,
    Nat.testBit_mul_pow_two_add (y &&& M) hxm]
  by_cases hj : j < k
  · simp [hj]
  · simp [hj]

theorem word8_and (f g : Nat → Nat) (hf : ∀ i, f i < 2 ^ 8) (hg : ∀ i, g i < 2 ^ 8) :
    word8 f &&& word8 g = word8 fun i => f i &&& g i := by
  unfold word8
  rw [and_split 8 _ _ _ _ (hf 0) (hg 0), and_split 8 _ _ _ _ (hf 1) (hg 1),
    and_split 8 _ _ _ _ (hf 2) (hg 2), and_split 8 _ _ _ _ (hf 3) (hg 3),
    and_split 8 _ _ _ _ (hf 4) (hg 4), and_split 8 _ _ _ _ (hf 5) (hg 5),
    and_split 8 _ _ _ _ (hf 6) (hg 6)]

theorem word8_add (f g : Nat → Nat) : word8 f + word8 g = word8 fun i => f i + g i := by
  unfold word8
  ring

theorem word8_lt (f : Nat → Nat) (hf : ∀ i, f i < 2 ^ 8) : word8 f < 2 ^ 64 := by
  unfold word8
  have h0 := hf 0
  have h1 := hf 1
  have h2 := hf 2
  have h3 := hf 3
  have h4 := hf 4
  have h5 := hf 5
  have h6 := hf 6
  have h7 := hf 7
  omega

theorem word8_congr (f g : Nat → Nat) (h : ∀ i, i < 8 → f i = g i) : word8 f = word8 g := by
  unfold word8
  rw [h 0 (by decide), h 1 (by decide), h 2 (by decide), h 3 (by decide), h 4 (by decide),
    h 5 (by decide), h 6 (by decide), h 7 (by decide)]

theorem word8_shift (f : Nat → Nat) (hf : ∀ i, f i < 2 ^ 8) (s : Nat) (hs : s ≤ 4) :
    word8 f >>> s =
      word8 fun i => f i / 2 ^ s + 2 ^ (8 - s) * (if i < 7 then f (i + 1) % 2 ^ s else 0) := by
  unfold word8
  have h0 := hf 0
  have h1 := hf 1
  have h2 := hf 2
  have h3 := hf 3
  have h4 := hf 4
  have h5 := hf 5
  have h6 := hf 6
  have h7 := hf 7
  rw [Nat.shiftRight_eq_div_pow]
  interval_cases s <;> norm_num <;> omega

theorem word8_bytes (b : Nat) (hb : b < 2 ^ 64) : b = word8 fun i => b / 2 ^ (8 * i) % 2 ^ 8 := by
  unfold word8
  norm_num
  omega
theorem popcount_byte_facts :
    ∀ x < 256,
      popcount_pairs x < 256 ∧
      popcount_nibbles (popcount_pairs x) / 16 ≤ 4 ∧
      popcount_nibbles (popcount_pairs x) % 16 ≤ 4 ∧
      popcount_bytes (popcount_nibbles (popcount_pairs x)) = set_bits 8 x ∧
      set_bits 8 x ≤ 8 := by
  decide!

theorem popcount_carry_facts :
    (∀ x < 256, ∀ e < 2, (x / 2 + 128 * e) &&& 0x55 = (x >>> 1) &&& 0x55) ∧
    (∀ x < 256, ∀ e < 4, (x / 4 + 64 * e) &&& 0x33 = (x >>> 2) &&& 0x33) ∧
    (∀ x < 69, ∀ e < 5, (x + (x / 16 + 16 * e)) &&& 0x0F = (x + (x >>> 4)) &&& 0x0F) := by
  decide!

theorem popcount_stage1 (g : Nat → Nat) (hg : ∀ i, g i < 2 ^ 8) :
    (word8 g &&& 0x5555555555555555) + ((word8 g >>> 1) &&& 0x5555555555555555) =
      word8 fun i => popcount_pairs (g i) := by
  have hM : 0x5555555555555555 = word8 fun _ => 0x55 := by unfold word8; norm_num
  have hs : ∀ i, g i / 2 ^ 1 + 2 ^ (8 - 1) * (if i < 7 then g (i + 1) % 2 ^ 1 else 0) < 2 ^ 8 := by
    intro i
    have := hg i
    split <;> omega
  rw [hM, word8_and g _ hg (fun _ => by decide), word8_shift g hg 1 (by decide),
    word8_and _ _ hs (fun _ => by decide), word8_add]
  apply word8_congr
  intro i _
  unfold popcount_pairs
  have hlt : (if i < 7 then g (i + 1) % 2 ^ 1 else 0) < 2 := by split <;> omega
  have := popcount_carry_facts.1 (g i) (hg i) _ hlt
  norm_num at this ⊢
  rw [this]

theorem popcount_stage2 (g : Nat → Nat) (hg : ∀ i, g i < 2 ^ 8) :
    (word8 g &&& 0x3333333333333333) + ((word8 g >>> 2) &&& 0x3333333333333333) =
      word8 fun i => popcount_nibbles (g i) := by
  have hM : 0x3333333333333333 = word8 fun _ => 0x33 := by unfold word8; norm_num
  have hs : ∀ i, g i / 2 ^ 2 + 2 ^ (8 - 2) * (if i < 7 then g (i + 1) % 2 ^ 2 else 0) < 2 ^ 8 := by
    intro i
    have := hg i
    split <;> omega
  rw [hM, word8_and g _ hg (fun _ => by decide), word8_shift g hg 2 (by decide),
    word8_and _ _ hs (fun _ => by decide), word8_add]
  apply word8_congr
  intro i _
  unfold popcount_nibbles
  have hlt : (if i < 7 then g (i + 1) % 2 ^ 2 else 0) < 4 := by split <;> omega
  have := popcount_carry_facts.2.1 (g i) (hg i) _ hlt
  norm_num at this ⊢
  rw [this]

theorem popcount_stage3 (g : Nat → Nat) (hg : ∀ i, g i / 16 ≤ 4 ∧ g i % 16 ≤ 4) :
    (word8 g + (word8 g >>> 4)) &&& 0x0F0F0F0F0F0F0F0F =
      word8 fun i => popcount_bytes (g i) := by
  have hM : 0x0F0F0F0F0F0F0F0F = word8 fun _ => 0x0F := by unfold word8; norm_num
  have hg8 : ∀ i, g i < 2 ^ 8 := by
    intro i
    have := hg i
    omega
  have hs : ∀ i, g i + (g i / 2 ^ 4 + 2 ^ (8 - 4) * (if i < 7 then g (i + 1) % 2 ^ 4 else 0)) <
      2 ^ 8 := by
    intro i
    have := hg i
    have := hg (i + 1)
    split <;> omega
  rw [hM, word8_shift g hg8 4 (by decide), word8_add, word8_and _ _ hs (fun _ => by decide)]
  apply word8_congr
  intro i _
  unfold popcount_bytes
  have hlt : (if i < 7 then g (i + 1) % 2 ^ 4 else 0) < 5 := by
    have := hg (i + 1)
    split <;> omega
  have hx : g i < 69 := by
    have := hg i
    omega
  have := popcount_carry_facts.2.2 (g i) hx _ hlt
  norm_num at this ⊢
  rw [this]

theorem horner_div (z0 z1 z2 z3 R : Nat) (h0 : z0 < 256) (h1 : z1 < 256) (h2 : z2 < 256)
    (h3 : z3 < 256) :
    (z0 + 256 * R) / 256 = R ∧ (z0 + 256 * (z1 + 256 * R)) / 65536 = R ∧
    (z0 + 256 * (z1 + 256 * (z2 + 256 * (z3 + 256 * R)))) / 4294967296 = R := by
  refine ⟨?_, ?_, ?_⟩ <;> omega

theorem popcount_sum (c : Nat → Nat) (hc : ∀ i, c i ≤ 8) (b4 b5 : Nat)
    (e4 : b4 = (word8 c + (word8 c >>> 8)) % 2 ^ 64)
    (e5 : b5 = (b4 + (b4 >>> 16)) % 2 ^ 64) :
    (((b5 + (b5 >>> 32)) % 2 ^ 64) &&& 0x0000007F) % 2 ^ 32 =
      c 0 + c 1 + c 2 + c 3 + c 4 + c 5 + c 6 + c 7 := by
  have h127 : ∀ x : Nat, x &&& 0x0000007F = x % 2 ^ 7 := by
    intro x
    exact Nat.and_pow_two_sub_one_eq_mod x 7
  rw [h127]
  unfold word8 at e4
  have h0 := hc 0
  have h1 := hc 1
  have h2 := hc 2
  have h3 := hc 3
  have h4 := hc 4
  have h5 := hc 5
  have h6 := hc 6
  have h7 := hc 7
  simp only [Nat.shiftRight_eq_div_pow] at e4 e5 ⊢
  norm_num at e4 e5 ⊢
  rw [(horner_div (c 0) 0 0 0 _ (by omega) (by decide) (by decide) (by decide)).1] at e4
  have v4 : b4 = (c 0 + c 1) + 256 * ((c 1 + c 2) + 256 * ((c 2 + c 3) + 256 * ((c 3 + c 4) +
      256 * ((c 4 + c 5) + 256 * ((c 5 + c 6) + 256 * ((c 6 + c 7) + 256 * c 7)))))) := by
    rw [e4, Nat.mod_eq_of_lt (by omega)]
    ring
  clear e4
  rw [v4, (horner_div (c 0 + c 1) (c 1 + c 2) 0 0 _ (by omega) (by omega) (by decide)
    (by decide)).2.1] at e5
  have v5 : b5 = (c 0 + c 1 + c 2 + c 3) + 256 * ((c 1 + c 2 + c 3 + c 4) +
      256 * ((c 2 + c 3 + c 4 + c 5) + 256 * ((c 3 + c 4 + c 5 + c 6) +
      256 * ((c 4 + c 5 + c 6 + c 7) + 256 * ((c 5 + c 6 + c 7) +
      256 * ((c 6 + c 7) + 256 * c 7)))))) := by
    rw [e5, Nat.mod_eq_of_lt (by omega)]
    ring
  clear e5 v4
  have d3 : b5 / 4294967296 = (c 4 + c 5 + c 6 + c 7) + 256 * ((c 5 + c 6 + c 7) +
      256 * ((c 6 + c 7) + 256 * c 7)) := by
    rw [v5]
    exact (horner_div _ _ _ _ _ (by omega) (by omega) (by omega) (by omega)).2.2
  rw [d3]
  obtain ⟨T, hT⟩ : ∃ T, b5 + ((c 4 + c 5 + c 6 + c 7) + 256 * ((c 5 + c 6 + c 7) +
      256 * ((c 6 + c 7) + 256 * c 7))) =
      (c 0 + c 1 + c 2 + c 3 + c 4 + c 5 + c 6 + c 7) + 256 * T :=
    ⟨(c 1 + c 2 + c 3 + c 4 + c 5 + c 6 + c 7) +
      256 * ((c 2 + c 3 + c 4 + c 5 + c 6 + c 7) + 256 * ((c 3 + c 4 + c 5 + c 6 + c 7) +
      256 * ((c 4 + c 5 + c 6 + c 7) + 256 * ((c 5 + c 6 + c 7) +
      256 * ((c 6 + c 7) + 256 * c 7))))), by rw [v5]; ring⟩
  rw [hT]
  clear hT d3 v5
  omega
theorem popcount64_word8 (f : Nat → Nat) (hf : ∀ i, f i < 2 ^ 8) :
    popcount64 (word8 f) =
      set_bits 8 (f 0) + set_bits 8 (f 1) + set_bits 8 (f 2) + set_bits 8 (f 3) +
      set_bits 8 (f 4) + set_bits 8 (f 5) + set_bits 8 (f 6) + set_bits 8 (f 7) := by
  have hp : ∀ i, popcount_pairs (f i) < 2 ^ 8 := fun i => (popcount_byte_facts (f i) (hf i)).1
  have hn : ∀ i, popcount_nibbles (popcount_pairs (f i)) / 16 ≤ 4 ∧
      popcount_nibbles (popcount_pairs (f i)) % 16 ≤ 4 := fun i =>
    ⟨(popcount_byte_facts (f i) (hf i)).2.1, (popcount_byte_facts (f i) (hf i)).2.2.1⟩
  have hn8 : ∀ i, popcount_nibbles (popcount_pairs (f i)) < 2 ^ 8 := by
    intro i
    have := hn i
    omega
  have e1 : ((word8 f &&& 0x5555555555555555) + ((word8 f >>> 1) &&& 0x5555555555555555)) %
      2 ^ 64 = word8 fun i => popcount_pairs (f i) := by
    rw [popcount_stage1 f hf, Nat.mod_eq_of_lt (word8_lt _ hp)]
  have e2 : ((word8 (fun i => popcount_pairs (f i)) &&& 0x3333333333333333) +
      ((word8 (fun i => popcount_pairs (f i)) >>> 2) &&& 0x3333333333333333)) % 2 ^ 64 =
      word8 fun i => popcount_nibbles (popcount_pairs (f i)) := by
    rw [popcount_stage2 _ hp, Nat.mod_eq_of_lt (word8_lt _ hn8)]
  have e3 : ((word8 (fun i => popcount_nibbles (popcount_pairs (f i))) +
      (word8 (fun i => popcount_nibbles (popcount_pairs (f i))) >>> 4)) % 2 ^ 64) &&&
      0x0F0F0F0F0F0F0F0F =
      word8 fun i => popcount_bytes (popcount_nibbles (popcount_pairs (f i))) := by
    have hlt : word8 (fun i => popcount_nibbles (popcount_pairs (f i))) +
        (word8 (fun i => popcount_nibbles (popcount_pairs (f i))) >>> 4) < 2 ^ 64 := by
      have h1 := word8_lt _ hn8
      have h2 : word8 (fun i => popcount_nibbles (popcount_pairs (f i))) >>> 4 ≤
          word8 (fun i => popcount_nibbles (popcount_pairs (f i))) / 16 := by
        rw [Nat.shiftRight_eq_div_pow]
      have h3 : word8 (fun i => popcount_nibbles (popcount_pairs (f i))) ≤
          0x4444444444444444 := by
        simp only [word8]
        have a0 := hn 0
        have a1 := hn 1
        have a2 := hn 2
        have a3 := hn 3
        have a4 := hn 4
        have a5 := hn 5
        have a6 := hn 6
        have a7 := hn 7
        omega
      omega
    rw [Nat.mod_eq_of_lt hlt, popcount_stage3 _ hn]
  have hc : ∀ i, popcount_bytes (popcount_nibbles (popcount_pairs (f i))) ≤ 8 := by
    intro i
    rw [(popcount_byte_facts (f i) (hf i)).2.2.2.1]
    exact (popcount_byte_facts (f i) (hf i)).2.2.2.2
  unfold popcount64
  simp only [e1, e2, e3]
  rw [popcount_sum (fun i => popcount_bytes (popcount_nibbles (popcount_pairs (f i)))) hc _ _
    rfl rfl]
  simp only [(popcount_byte_facts (f _) (hf _)).2.2.2.1]

theorem set_bits_byte (b n m : Nat) (hm : m = n + 8) :
    set_bits m b = set_bits n b + set_bits 8 (b / 2 ^ n % 2 ^ 8) := by
  subst hm
  unfold set_bits
  rw [List.range_add, List.filter_append, List.length_append, List.filter_map, List.length_map]
  congr 2
  apply List.filter_congr
  intro j hj
  rw [List.mem_range] at hj
  simp only [Function.comp, Nat.testBit_mod_two_pow, hj, decide_True, Bool.true_and,
    ← Nat.shiftRight_eq_div_pow, Nat.testBit_shiftRight]

theorem set_bits_word (b : Nat) :
    set_bits 64 b =
      set_bits 8 (b / 2 ^ (8 * 0) % 2 ^ 8) + set_bits 8 (b / 2 ^ (8 * 1) % 2 ^ 8) +
      set_bits 8 (b / 2 ^ (8 * 2) % 2 ^ 8) + set_bits 8 (b / 2 ^ (8 * 3) % 2 ^ 8) +
      set_bits 8 (b / 2 ^ (8 * 4) % 2 ^ 8) + set_bits 8 (b / 2 ^ (8 * 5) % 2 ^ 8) +
      set_bits 8 (b / 2 ^ (8 * 6) % 2 ^ 8) + set_bits 8 (b / 2 ^ (8 * 7) % 2 ^ 8) := by
  rw [set_bits_byte b 56 64 rfl, set_bits_byte b 48 56 rfl, set_bits_byte b 40 48 rfl,
    set_bits_byte b 32 40 rfl, set_bits_byte b 24 32 rfl, set_bits_byte b 16 24 rfl,
    set_bits_byte b 8 16 rfl, set_bits_byte b 0 8 rfl]
  have h0 : set_bits 0 b = 0 := rfl
  rw [h0]
  ring

theorem set_bits_differences (b : Nat) : set_bits 64 b = bit_differences b 0 := by
  unfold set_bits bit_differences
  congr 1
  apply List.filter_congr
  intro k _
  simp

/-- C33: for every 64-bit value `b`, `popcount64(b)`, with its expressions parsed as
C does, is the number of the bits of `b` that are set. -/
theorem popcount64_set_bits (b : Nat) (hb : b < 2 ^ 64) :
    popcount64 b = set_bits 64 b ∧ set_bits 64 b = bit_differences b 0 := by
  refine ⟨?_, set_bits_differences b⟩
  have hf : ∀ i, (fun i => b / 2 ^ (8 * i) % 2 ^ 8) i < 2 ^ 8 := fun i => Nat.mod_lt _ (by decide)
  have h := popcount64_word8 (fun i => b / 2 ^ (8 * i) % 2 ^ 8) hf
  rw [← word8_bytes b hb] at h
  rw [h, set_bits_word b]

theorem popcount64_set_bits_witness :
    0xF0F0F0F0F0F0F0F1 < 2 ^ 64 ∧
    popcount64 0xF0F0F0F0F0F0F0F1 = set_bits 64 0xF0F0F0F0F0F0F0F1 ∧
    set_bits 64 0xF0F0F0F0F0F0F0F1 = bit_differences 0xF0F0F0F0F0F0F0F1 0 :=
  ⟨by decide, popcount64_set_bits 0xF0F0F0F0F0F0F0F1 (by decide)⟩

/-! ## Theorems: bounds of the enumerated hypotheses -/

theorem foldlM_option_none {α β : Type} (f : β → α → Option β) :
    ∀ (l : List α) (b : β), (∃ a ∈ l, ∀ b, f b a = none) → l.foldlM f b = none := by
  intro l
  induction l with
  | nil => intro b h; obtain ⟨a, ha, _⟩ := h; simp at ha
  | cons x l ih =>
    intro b h
    obtain ⟨a, ha, hf⟩ := h
    rw [List.foldlM_cons]
    cases hx : f b x with
    | none => rfl
    | some b1 =>
      simp only [Option.bind_eq_bind, Option.some_bind]
      rcases List.mem_cons.mp ha with h1 | h1
      · rw [← h1, hf b] at hx
        simp at hx
      · exact ih b1 ⟨a, h1, hf⟩

theorem mapM_option_none {α β : Type} (f : α → Option β) :
    ∀ (l : List α), (∃ a ∈ l, f a = none) → l.mapM f = none := by
  intro l
  induction l with
  | nil => intro h; obtain ⟨a, ha, _⟩ := h; simp at ha
  | cons x l ih =>
    intro h
    obtain ⟨a, ha, hf⟩ := h
    rw [List.mapM_cons]
    cases hx : f x with
    | none => rfl
    | some b1 =>
      rcases List.mem_cons.mp ha with h1 | h1
      · rw [← h1, hf] at hx
        simp at hx
      · rw [ih ⟨a, h1, hf⟩]
        rfl

theorem extract_duals_outside (rd : cccrack_rankdef) (row : List Nat) (k j : Nat)
    (hrow : row ∈ rd.h) (hk : k ≤ rd.muT) (hj : j < rd.n)
    (hout : row.length ≤ (rd.n * k + j) % 2 ^ 32) :
    cccrack_rankdef_extract_duals rd = none := by
  unfold cccrack_rankdef_extract_duals
  apply foldlM_option_none
  refine ⟨row, hrow, ?_⟩
  intro s
  have hp : rankdef_poly row rd.n rd.muT j (fun k => k) = none := by
    unfold rankdef_poly
    apply foldlM_option_none
    refine ⟨k, List.mem_range.mpr (by omega), ?_⟩
    intro poly
    rw [List.getElem?_eq_none hout]
    rfl
  have hps : rankdef_polys row rd.n rd.muT (fun k => k) = none := by
    unfold rankdef_polys
    exact mapM_option_none _ _ ⟨j, List.mem_range.mpr hj, hp⟩
  rw [hps]
  rfl

theorem enumerate_body_outside (k z : Nat) (st : cccrack_state × cccrack_rankdef)
    (k' j : Nat) (hrows : ∀ row ∈ st.2.h, row.length = st.2.n_a) (hne : st.2.h ≠ [])
    (hK : 1 < (((st.2.n_a + (2 ^ 32 - (st.2.n_a * k) % 2 ^ 32 / st.2.n) + (2 ^ 32 - z)) %
      2 ^ 32) / k + 1) % 2 ^ 32)
    (hk' : k' ≤ (st.2.n_a + (2 ^ 32 - (st.2.n_a * k) % 2 ^ 32 / st.2.n) + (2 ^ 32 - z)) %
      2 ^ 32)
    (hj : j < st.2.n) (hout : st.2.n_a ≤ (st.2.n * k' + j) % 2 ^ 32) :
    enumerate_configs_body st.2.n k st z = none := by
  unfold enumerate_configs_body
  simp only [gt_iff_lt, hK, if_true]
  unfold cccrack_eval_candidate
  cases hd : cccrack_rankdef_dup
      { st.2 with
        muT := (st.2.n_a + (2 ^ 32 - (st.2.n_a * k) % 2 ^ 32 / st.2.n) + (2 ^ 32 - z)) % 2 ^ 32
        k := k
        K := (((st.2.n_a + (2 ^ 32 - (st.2.n_a * k) % 2 ^ 32 / st.2.n) + (2 ^ 32 - z)) %
          2 ^ 32) / k + 1) % 2 ^ 32 } with
  | none => rfl
  | some d =>
    have hf := rankdef_dup_fields _ d hd
    have hh := rankdef_dup_h _ d hd hrows
    obtain ⟨row, hrow⟩ := List.exists_mem_of_ne_nil _ hne
    have he : cccrack_rankdef_extract_duals d = none := by
      apply extract_duals_outside d row k' j
      · rw [hh]; exact hrow
      · rw [hf.2.2.2.2.2.1]; exact hk'
      · rw [hf.2.2.1]; exact hj
      · rw [hf.2.2.1, hrows row hrow]; exact hout
    simp only [he, Option.map_none']
/-- C32, failing behaviour: whenever the body of the loops of
`cccrack_enumerate_configs` evaluates a hypothesis (`K > 1`) for which an index
`n * t + j`, `t ≤ muT`, `j < n`, is not below `n_a`, the dual vectors (of length
`n_a`) are read outside their bounds. This happens for the 36 symbols of
`odd_symbols`: the first two deficient widths are 3 and 5, so `n_a = 3`, `n = 2`
and, for `k = 1`, `z = 1`, `muT = 1` and `K = 2`; polynomial 1 of the dual vector
`[1, 0, 1]` needs its entry `2 * 1 + 1 = 3`, and the session has no defined result.
The subtraction wraps as well: for `n_a = 2`, `n = 5`, `k = 1` and `z = 3` the body
leaves `muT = 2 ^ 32 - 1` and `K = 0`, and for `z = 4` (`muT = 2 ^ 32 - 2`,
`K = 2 ^ 32 - 1`) the hypothesis is evaluated and reads outside the dual vectors. -/
theorem enumerate_configs_reads_outside :
    (∀ (k z : Nat) (st : cccrack_state × cccrack_rankdef) (t j : Nat),
      (∀ row ∈ st.2.h, row.length = st.2.n_a) → st.2.h ≠ [] →
      1 < (((st.2.n_a + (2 ^ 32 - (st.2.n_a * k) % 2 ^ 32 / st.2.n) + (2 ^ 32 - z)) %
        2 ^ 32) / k + 1) % 2 ^ 32 →
      t ≤ (st.2.n_a + (2 ^ 32 - (st.2.n_a * k) % 2 ^ 32 / st.2.n) + (2 ^ 32 - z)) % 2 ^ 32 →
      j < st.2.n → st.2.n_a ≤ (st.2.n * t + j) % 2 ^ 32 →
      enumerate_configs_body st.2.n k st z = none) ∧
    deficient_widths odd_bits 36 = [3, 5] ∧
    (width_template binary_tagging odd_bits 36 (analyzer_width 36) 3).map
      (fun rd => (rd.n_a, (cccrack_rankdef_set_second_defficiency rd 5).n, rd.h)) =
      some (3, 2, [[1, 0, 1]]) ∧
    (enumerate_configs_body 2 1
      ({ params := cccrack_params_INITIALIZER, rankdef := [] }, odd_template) 1).isNone = true ∧
    rankdef_poly [1, 0, 1] 2 1 0 (fun k => k) = some 3 ∧
    rankdef_poly [1, 0, 1] 2 1 1 (fun k => k) = none ∧
    (cccrack_session odd_symbols cccrack_params_INITIALIZER).isNone = true ∧
    (enumerate_configs_body 5 1 ({ params := all_params, rankdef := [] }, narrow_template) 3).map
      (fun r => (r.2.muT, r.2.K, r.1.rankdef.length)) = some (2 ^ 32 - 1, 0, 0) ∧
    enumerate_configs_body 5 1 ({ params := all_params, rankdef := [] }, narrow_template) 4 =
      none := by
  refine ⟨fun k z st t j h1 h2 h3 h4 h5 h6 => enumerate_body_outside k z st t j h1 h2 h3 h4 h5 h6,
    by decide!, by decide!, by decide!, by decide!, by decide!, by decide!, by decide!, ?_⟩
  exact enumerate_body_outside 1 4 ({ params := all_params, rankdef := [] }, narrow_template)
    1 0 (by decide) (by decide) (by decide) (by decide) (by decide) (by decide)

/-! ## Theorems: full rank and independent columns -/

theorem dotf_comm (n : Nat) (f g : Nat → Nat) : dotf n f g = dotf n g f := by
  induction n with
  | zero => rfl
  | succ n ih => rw [dotf_succ, dotf_succ, ih, Nat.and_comm]

theorem dotf_zero (n : Nat) (f g : Nat → Nat) (h : ∀ j, j < n → f j &&& g j = 0) :
    dotf n f g = 0 := by
  induction n with
  | zero => rfl
  | succ n ih =>
    rw [dotf_succ, ih (fun j hj => h j (by omega)), h n (by omega)]
    rfl

theorem dotf_only (n c : Nat) (f g : Nat → Nat) (hc : c < n)
    (h : ∀ j, j < n → j ≠ c → f j &&& g j = 0) : dotf n f g = f c &&& g c := by
  induction n with
  | zero => omega
  | succ n ih =>
    rw [dotf_succ]
    by_cases hcn : c = n
    · subst hcn
      rw [dotf_zero c f g (fun j hj => h j (by omega) (by omega))]
      simp
    · rw [ih (by omega) (fun j hj hne => h j (by omega) hne), h n (by omega) (by omega)]
      simp

theorem dotf_single (n a x : Nat) (g : Nat → Nat) (ha : a < n) :
    dotf n (fun c => if c = a then x else 0) g = x &&& g a := by
  rw [dotf_only n a _ g ha]
  · simp
  · intro j _ hne
    simp [hne]

theorem dotf_add_cols (n a b : Nat) (f g g' : Nat → Nat) (ha : a < n) (hb : b < n)
    (hg : ∀ c, c < n → g' c = if c = a then g a ^^^ g b else g c) :
    dotf n f g' = dotf n (fun c => if c = b then f b ^^^ f a else f c) g := by
  have e1 : dotf n f g' = dotf n (fun c => g c ^^^ (if c = a then g b else 0)) f := by
    rw [dotf_comm]
    apply dotf_congr
    · intro c hc
      rw [hg c hc]
      by_cases hca : c = a
      · simp [hca]
      · simp [hca]
    · intro _ _; rfl
  have e2 : dotf n (fun c => if c = b then f b ^^^ f a else f c) g =
      dotf n (fun c => f c ^^^ (if c = b then f a else 0)) g := by
    apply dotf_congr
    · intro c _
      by_cases hcb : c = b
      · simp [hcb]
      · simp [hcb]
    · intro _ _; rfl
  rw [e1, e2, dotf_xor, dotf_xor, dotf_single n a (g b) f ha, dotf_single n b (f a) g hb,
    dotf_comm n g f, Nat.and_comm]

theorem dependent_add_cols (A : gf2_matrix) (a b : Nat) (h32 : A.cols ≤ 32) (ha : a < A.cols)
    (hb : b < A.cols) (hab : a ≠ b) :
    dependent_columns (gf2_matrix_add_cols A a b) ↔ dependent_columns A := by
  have key : ∀ (f : Nat → Nat) (r : Nat), r < A.rows →
      dotf A.cols f (fun j => gf2_matrix_get (gf2_matrix_add_cols A a b) r j) =
        dotf A.cols (fun c => if c = b then f b ^^^ f a else f c)
          (fun j => gf2_matrix_get A r j) := by
    intro f r hr
    apply dotf_add_cols A.cols a b f _ _ ha hb
    intro c hc
    rw [get_add_cols A a b r c (by omega) (by omega)]
    simp [hr]
  have sel : ∀ f : Nat → Nat, (∃ j, j < A.cols ∧ f j &&& 1 = 1) →
      ∃ j, j < A.cols ∧ (fun c => if c = b then f b ^^^ f a else f c) j &&& 1 = 1 := by
    intro f ⟨j, hj, hf⟩
    by_cases hfa : f a &&& 1 = 1
    · refine ⟨a, ha, ?_⟩
      simp only [hab, if_false]
      exact hfa
    · by_cases hjb : j = b
      · refine ⟨b, hb, ?_⟩
        simp only [if_true]
        rw [Nat.and_xor_distrib_right, ← hjb, hf]
        have h1 : f a &&& 1 ≤ 1 := Nat.and_le_right
        have h0 : f a &&& 1 = 0 := by omega
        rw [h0]
        rfl
      · refine ⟨j, hj, ?_⟩
        simp only [hjb, if_false]
        exact hf
  constructor
  · intro ⟨f, hnull, hsel⟩
    rw [add_cols_cols] at hsel
    refine ⟨fun c => if c = b then f b ^^^ f a else f c, ?_, sel f hsel⟩
    intro r hr
    rw [← key f r hr]
    have := hnull r (by rw [add_cols_rows]; exact hr)
    rw [add_cols_cols] at this
    exact this
  · intro ⟨g, hnull, hsel⟩
    refine ⟨fun c => if c = b then g b ^^^ g a else g c, ?_, ?_⟩
    · intro r hr
      rw [add_cols_rows] at hr
      rw [add_cols_cols, key _ r hr]
      refine Eq.trans ?_ (hnull r hr)
      apply dotf_congr
      · intro c _
        by_cases hcb : c = b
        · subst hcb
          simp only [if_true, hab, if_false]
          rw [Nat.xor_assoc, Nat.xor_self, Nat.xor_zero]
        · simp only [hcb, if_false]
      · intro _ _; rfl
    · rw [add_cols_cols]
      exact sel g hsel
theorem pivot_none (A : gf2_matrix) (i : Nat) (h : (gauss_jordan_cols_pivot A i).1 = 0) :
    (gauss_jordan_cols_pivot A i).2 = A ∧ gf2_matrix_get A i i = 0 ∧
    ∀ j, i < j → j < A.rows → gf2_matrix_get A j i = 0 := by
  unfold gauss_jordan_cols_pivot at h ⊢
  by_cases h0 : gf2_matrix_get A i i = 0
  · rw [if_pos h0] at h ⊢
    cases hf : (List.range' (i + 1) (A.rows - (i + 1))).find?
        (fun j => gf2_matrix_get A j i != 0) with
    | none =>
      refine ⟨rfl, h0, ?_⟩
      intro j hij hj
      have := List.find?_eq_none.mp hf j (by rw [List.mem_range'_1]; omega)
      simpa using this
    | some j =>
      rw [hf] at h
      simp at h
  · rw [if_neg h0] at h
    exact absurd h h0

theorem dependent_perm (P A : gf2_matrix) (σ : Nat → Nat) (hrows : P.rows = A.rows)
    (hcols : P.cols = A.cols) (hσ : ∀ r, r < A.rows → σ r < A.rows ∧ σ (σ r) = r)
    (hget : ∀ r c, gf2_matrix_get P r c = gf2_matrix_get A (σ r) c) :
    dependent_columns P ↔ dependent_columns A := by
  constructor
  · intro ⟨f, hnull, hsel⟩
    rw [hcols] at hsel
    refine ⟨f, ?_, hsel⟩
    intro r hr
    have h := hnull (σ r) (by rw [hrows]; exact (hσ r hr).1)
    rw [hcols] at h
    refine Eq.trans ?_ h
    apply dotf_congr
    · intro _ _; rfl
    · intro c _
      show gf2_matrix_get A r c = gf2_matrix_get P (σ r) c
      rw [hget, (hσ r hr).2]
  · intro ⟨f, hnull, hsel⟩
    rw [← hcols] at hsel
    refine ⟨f, ?_, hsel⟩
    intro r hr
    rw [hrows] at hr
    have h := hnull (σ r) (hσ r hr).1
    rw [hcols]
    refine Eq.trans ?_ h
    apply dotf_congr
    · intro _ _; rfl
    · intro c _
      exact hget r c

theorem elim_full (track : Bool) (i n : Nat) (hn : n ≤ 32) (hi : i < n)
    (F : gf2_matrix × gf2_matrix → Nat → gf2_matrix × gf2_matrix)
    (hF : F = fun s j =>
      if gf2_matrix_get s.1 i j ≠ 0 then
        (gf2_matrix_add_cols s.1 j i, if track then gf2_matrix_add_rows s.2 j i else s.2)
      else s) :
    ∀ (js : List Nat) (s : gf2_matrix × gf2_matrix), (∀ j ∈ js, i < j ∧ j < n) →
      s.1.cols = n →
      (js.foldl F s).1.rows = s.1.rows ∧ (js.foldl F s).1.cols = n ∧
      (dependent_columns (js.foldl F s).1 ↔ dependent_columns s.1) ∧
      (∀ r c, c ≤ i → gf2_matrix_get (js.foldl F s).1 r c = gf2_matrix_get s.1 r c) ∧
      (∀ r c, c < n → gf2_matrix_get s.1 r i = 0 →
        gf2_matrix_get (js.foldl F s).1 r c = gf2_matrix_get s.1 r c) ∧
      (gf2_matrix_get s.1 i i = 1 → i < s.1.rows → ∀ c, c < n → i < c →
        (c ∈ js ∨ gf2_matrix_get s.1 i c = 0) → gf2_matrix_get (js.foldl F s).1 i c = 0) := by
  intro js
  induction js with
  | nil =>
    intro s _ hc
    refine ⟨rfl, hc, Iff.rfl, fun _ _ _ => rfl, fun _ _ _ _ => rfl, ?_⟩
    intro _ _ c _ _ h
    rcases h with h | h
    · simp at h
    · exact h
  | cons j js ih =>
    intro s hjs hc
    rw [List.foldl_cons]
    obtain ⟨hij, hjn⟩ := hjs j (List.mem_cons_self _ _)
    have key : (F s j).1.cols = n ∧ (F s j).1.rows = s.1.rows ∧
        (dependent_columns (F s j).1 ↔ dependent_columns s.1) ∧
        (∀ r c, c < 32 → c ≠ j → gf2_matrix_get (F s j).1 r c = gf2_matrix_get s.1 r c) ∧
        (∀ r, gf2_matrix_get s.1 r i = 0 →
          gf2_matrix_get (F s j).1 r j = gf2_matrix_get s.1 r j) ∧
        (gf2_matrix_get s.1 i i = 1 → i < s.1.rows → gf2_matrix_get (F s j).1 i j = 0) := by
      rw [hF]
      simp only
      by_cases hne : gf2_matrix_get s.1 i j ≠ 0
      · rw [if_pos hne]
        refine ⟨(add_cols_cols _ _ _).trans hc, add_cols_rows _ _ _,
          dependent_add_cols s.1 j i (by omega) (by omega) (by omega) (by omega), ?_, ?_, ?_⟩
        · intro r c hc32 hcj
          rw [get_add_cols _ _ _ _ _ (by omega) hc32]
          have : ¬ (r < s.1.rows ∧ c = j) := fun h => hcj h.2
          rw [if_neg this]
        · intro r h0
          rw [get_add_cols _ _ _ _ _ (by omega) (by omega), h0, Nat.xor_zero]
          split <;> rfl
        · intro h1 hr
          rw [get_add_cols _ _ _ _ _ (by omega) (by omega)]
          have : i < s.1.rows ∧ j = j := ⟨hr, rfl⟩
          rw [if_pos this, h1]
          have hle := get_le_one s.1 i j
          have hj1 : gf2_matrix_get s.1 i j = 1 := by omega
          rw [hj1]
          rfl
      · rw [if_neg hne]
        refine ⟨hc, rfl, Iff.rfl, fun _ _ _ _ => rfl, fun _ _ => rfl, ?_⟩
        intro _ _
        omega
    obtain ⟨k1, k2, k3, k4, k5, k6⟩ := key
    obtain ⟨r1, r2, r3, r4, r5, r6⟩ :=
      ih (F s j) (fun x hx => hjs x (List.mem_cons_of_mem _ hx)) k1
    refine ⟨r1.trans k2, r2, r3.trans k3, ?_, ?_, ?_⟩
    · intro r c hci
      rw [r4 r c hci, k4 r c (by omega) (by omega)]
    · intro r c hcn h0
      have h0' : gf2_matrix_get (F s j).1 r i = 0 := by
        rw [k4 r i (by omega) (by omega)]
        exact h0
      rw [r5 r c hcn h0']
      by_cases hcj : c = j
      · rw [hcj]
        exact k5 r h0
      · exact k4 r c (by omega) hcj
    · intro h1 hr c hcn hic h
      have h1' : gf2_matrix_get (F s j).1 i i = 1 := by
        rw [k4 i i (by omega) (by omega)]
        exact h1
      apply r6 h1' (by rw [k2]; exact hr) c hcn hic
      by_cases hcj : c = j
      · right
        rw [hcj]
        exact k6 h1 hr
      · rcases h with h | h
        · left
          rcases List.mem_cons.mp h with h | h
          · exact absurd h hcj
          · exact h
        · right
          rw [k4 i c (by omega) hcj]
          exact h
theorem full_step (A0 : gf2_matrix) (track : Bool) (k : Nat)
    (st : gf2_matrix × gf2_matrix × Nat) (h32 : A0.cols ≤ 32) (hrows : A0.cols ≤ A0.rows)
    (hk : k < A0.cols) (h : full_inv A0 k st) :
    full_inv A0 (k + 1) (gauss_jordan_cols_step track st k) := by
  obtain ⟨hr, hc, hdep, hst⟩ := h
  unfold gauss_jordan_cols_step
  simp only
  by_cases hp : (gauss_jordan_cols_pivot st.1 k).1 ≠ 0
  · rw [if_pos hp]
    rcases pivot_spec st.1 k (by omega) with ⟨h0, _⟩ | ⟨_, hii, prow, pcol, j, hkj, hj, hperm⟩
    · exact absurd h0 hp
    · have hσ : ∀ r, r < st.1.rows →
          (if r = j then k else if r = k then j else r) < st.1.rows ∧
          (if (if r = j then k else if r = k then j else r) = j then k
            else if (if r = j then k else if r = k then j else r) = k then j
            else (if r = j then k else if r = k then j else r)) = r := by
        intro r hrr
        have hkr : k < st.1.rows := by omega
        exact ⟨by split_ifs <;> omega, by split_ifs <;> omega⟩
      have depP := dependent_perm (gauss_jordan_cols_pivot st.1 k).2 st.1 _ prow pcol hσ hperm
      have he := elim_full track k A0.cols h32 hk _ rfl
        (List.range' (k + 1) ((gauss_jordan_cols_pivot st.1 k).2.cols - (k + 1)))
        ((gauss_jordan_cols_pivot st.1 k).2, st.2.1)
        (by
          intro x hx
          rw [List.mem_range'_1, pcol, hc] at hx
          omega)
        (pcol.trans hc)
      unfold gauss_jordan_cols_elim
      obtain ⟨e1, e2, e3, e4, e5, e6⟩ := he
      refine ⟨e1.trans (prow.trans hr), e2, e3.trans (depP.trans hdep), ?_⟩
      rcases hst with ⟨hrank, hstair⟩ | ⟨hrank, i0, hi0, hnull⟩
      · left
        refine ⟨by rw [hrank]; exact Nat.mod_eq_of_lt (by omega), ?_⟩
        intro r hrk
        by_cases hrlt : r < k
        · have hrow : ∀ c, gf2_matrix_get (gauss_jordan_cols_pivot st.1 k).2 r c =
              gf2_matrix_get st.1 r c := by
            intro c
            rw [hperm r c]
            have h1 : r ≠ j := by omega
            have h2 : r ≠ k := by omega
            simp [h1, h2]
          have hz : gf2_matrix_get (gauss_jordan_cols_pivot st.1 k).2 r k = 0 := by
            rw [hrow]
            exact (hstair r hrlt).2 k hrlt hk
          refine ⟨?_, ?_⟩
          · rw [e5 r r (by omega) hz, hrow]
            exact (hstair r hrlt).1
          · intro c hrc hcn
            rw [e5 r c hcn hz, hrow]
            exact (hstair r hrlt).2 c hrc hcn
        · have hrk' : r = k := by omega
          subst hrk'
          refine ⟨?_, ?_⟩
          · rw [e4 r r (le_refl _)]
            exact hii
          · intro c hrc hcn
            apply e6 hii (by rw [prow]; omega) c hcn hrc
            left
            rw [List.mem_range'_1, pcol, hc]
            omega
      · right
        refine ⟨?_, i0, by omega, ?_⟩
        · have := Nat.mod_le (st.2.2 + 1) (2 ^ 32)
          show (st.2.2 + 1) % 2 ^ 32 < k + 1
          omega
        · intro r hrr
          rw [e4 r i0 (by omega), hperm r i0]
          apply hnull
          rw [← hr]
          exact (hσ r (by rw [hr]; exact hrr)).1
  · rw [if_neg hp]
    have hp0 : (gauss_jordan_cols_pivot st.1 k).1 = 0 := by
      by_contra hne
      exact hp hne
    obtain ⟨pe, p0, pbelow⟩ := pivot_none st.1 k hp0
    rw [pe]
    refine ⟨hr, hc, hdep, Or.inr ?_⟩
    rcases hst with ⟨hrank, hstair⟩ | ⟨hrank, i0, hi0, hnull⟩
    · refine ⟨by show st.2.2 < k + 1; omega, k, by omega, ?_⟩
      intro r hrr
      by_cases h1 : r < k
      · exact (hstair r h1).2 k h1 hk
      · by_cases h2 : r = k
        · rw [h2]; exact p0
        · exact pbelow r (by omega) (by rw [hr]; exact hrr)
    · exact ⟨by show st.2.2 < k + 1; omega, i0, by omega, hnull⟩

theorem full_fold (A0 : gf2_matrix) (track : Bool) (b_m : gf2_matrix) (h32 : A0.cols ≤ 32)
    (hrows : A0.cols ≤ A0.rows) :
    ∀ k, k ≤ A0.cols →
      full_inv A0 k ((List.range k).foldl (gauss_jordan_cols_step track) (A0, b_m, 0)) := by
  intro k
  induction k with
  | zero =>
    intro _
    exact ⟨rfl, rfl, Iff.rfl, Or.inl ⟨rfl, fun r hr => absurd hr (Nat.not_lt_zero r)⟩⟩
  | succ k ih =>
    intro hk
    rw [List.range_succ, List.foldl_append, List.foldl_cons, List.foldl_nil]
    exact full_step A0 track k _ h32 hrows (by omega) (ih (by omega))

theorem and_low_zero (x y : Nat) (hx : x &&& 1 = 0) (hy : y ≤ 1) : x &&& y = 0 := by
  have h : y = 0 ∨ y = 1 := by omega
  rcases h with h | h
  · rw [h]; simp
  · rw [h]; exact hx

theorem full_rank_dependent (A : gf2_matrix) (track : Bool) (h32 : A.cols ≤ 32)
    (hrows : A.cols ≤ A.rows) :
    ∃ R B, gf2_matrix_gauss_jordan_cols A track = some (R, B) ∧
      gf2_matrix_get_rank R ≤ A.cols ∧
      (gf2_matrix_get_rank R = A.cols ↔ ¬ dependent_columns A) := by
  have hinv := full_fold A track
    (if track then gf2_matrix_eye A.cols A.cols else gf2_matrix_new 0 0) h32 hrows A.cols
    (le_refl _)
  refine ⟨_, _, by unfold gf2_matrix_gauss_jordan_cols; rw [if_pos hrows], ?_⟩
  obtain ⟨hr, hc, hdep, hst⟩ := hinv
  unfold gf2_matrix_get_rank
  simp only
  rcases hst with ⟨hrank, hstair⟩ | ⟨hrank, i0, hi0, hnull⟩
  · refine ⟨le_of_eq hrank, ?_⟩
    refine ⟨fun _ => ?_, fun _ => hrank⟩
    rw [← hdep]
    intro ⟨f, hnullf, hsel⟩
    rw [hc] at hsel
    have hex : ∃ j, j < A.cols ∧ f j &&& 1 = 1 := hsel
    obtain ⟨hc0, hf0⟩ := Nat.find_spec hex
    have hrow := hnullf (Nat.find hex) (by rw [hr]; omega)
    rw [hc, dotf_only A.cols (Nat.find hex) _ _ hc0, (hstair _ hc0).1, hf0] at hrow
    · exact absurd hrow (by decide)
    · intro j hj hne
      by_cases hlt : j < Nat.find hex
      · have hnot := Nat.find_min hex hlt
        have hle : f j &&& 1 ≤ 1 := Nat.and_le_right
        have h0 : f j &&& 1 = 0 := by
          by_contra hcon
          exact hnot ⟨hj, by omega⟩
        exact and_low_zero _ _ h0 (get_le_one _ _ _)
      · show f j &&& gf2_matrix_get _ (Nat.find hex) j = 0
        rw [(hstair _ hc0).2 j (by omega) hj]
        simp
  · refine ⟨le_of_lt hrank, ?_⟩
    refine ⟨fun h => absurd h (by omega), fun h => absurd ?_ h⟩
    rw [← hdep]
    refine ⟨fun c => if c = i0 then 1 else 0, ?_, i0, by rw [hc]; exact hi0, by simp⟩
    intro r hrr
    rw [hc, dotf_single A.cols i0 1 _ hi0, hnull r (by rw [← hr]; exact hrr)]
    rfl

theorem independent_iff (A : gf2_matrix) : independent_columns A ↔ ¬ dependent_columns A := by
  constructor
  · intro hind ⟨f, hnull, j, hj, hf⟩
    have hv : null_vector A ((List.range A.cols).map f) := by
      intro r hr
      unfold xor_columns
      refine Eq.trans ?_ (hnull r hr)
      apply dotf_congr
      · intro c hc
        rw [List.getD_eq_getElem?_getD, List.getElem?_map, List.getElem?_range hc]
        rfl
      · intro _ _; rfl
    have h0 := hind _ hv j hj
    rw [List.getD_eq_getElem?_getD, List.getElem?_map, List.getElem?_range hj] at h0
    have h0' : f j &&& 1 = 0 := h0
    omega
  · intro hnd v hv j hj
    by_contra hcon
    apply hnd
    refine ⟨fun c => v.getD c 0, hv, j, hj, ?_⟩
    have hle : v.getD j 0 &&& 1 ≤ 1 := Nat.and_le_right
    show v.getD j 0 &&& 1 = 1
    omega

theorem gauss_jordan_cols_full_rank (A : gf2_matrix) (track : Bool) (h32 : A.cols ≤ 32)
    (hrows : A.cols ≤ A.rows) :
    ∃ R B, gf2_matrix_gauss_jordan_cols A track = some (R, B) ∧
      gf2_matrix_get_rank R ≤ A.cols ∧
      (gf2_matrix_get_rank R = A.cols ↔ independent_columns A) := by
  obtain ⟨R, B, h1, h2, h3⟩ := full_rank_dependent A track h32 hrows
  exact ⟨R, B, h1, h2, h3.trans (independent_iff A).symm⟩

theorem deficient_iff (bits : List Nat) (len width l : Nat) (h32 : l ≤ 32)
    (hh : l ≤ width_height len width l) :
    deficient bits len width l = true ↔
      ¬ independent_columns (on_tagging_matrix bits (width_height len width l) l) := by
  have hd := on_tagging_matrix_dims bits (width_height len width l) l
  obtain ⟨R, B, h1, h2, h3⟩ := gauss_jordan_cols_full_rank
    (on_tagging_matrix bits (width_height len width l) l) true (by rw [hd.2]; exact h32)
    (by rw [hd.1, hd.2]; exact hh)
  rw [hd.2] at h2 h3
  unfold deficient width_reduction
  rw [h1, ← h3]
  simp only [decide_eq_true_eq]
  omega

theorem is_null_vector_iff (A : gf2_matrix) (v : List Nat) :
    is_null_vector A v = true ↔ null_vector A v := by
  unfold is_null_vector null_vector
  simp [List.all_eq_true]
/-- C31, failing behaviour: for a matrix of at most 32 columns with `cols ≤ rows` the
rank recorded by `gf2_matrix_gauss_jordan_cols` equals `cols` exactly when the
columns are linearly independent, and the analyzer's test `rank < l` at a row width
`l ≤ 32` fires exactly when the matrix it built has a non-trivial null vector. For
the 33 x 33 matrix `twin_matrix`, whose columns 0 and 32 are equal (the vector that
selects these two columns is a null vector), the recorded rank is `cols = 33`. -/
theorem gauss_jordan_cols_full_rank_wide :
    (∀ (A : gf2_matrix) (track : Bool), A.cols ≤ 32 → A.cols ≤ A.rows →
      ∃ R B, gf2_matrix_gauss_jordan_cols A track = some (R, B) ∧
        (gf2_matrix_get_rank R = A.cols ↔ independent_columns A)) ∧
    (∀ (bits : List Nat) (len width l : Nat), l ≤ 32 → l ≤ width_height len width l →
      (deficient bits len width l = true ↔
        ¬ independent_columns (on_tagging_matrix bits (width_height len width l) l))) ∧
    (twin_matrix.rows, twin_matrix.cols) = (33, 33) ∧
    (gf2_matrix_gauss_jordan_cols twin_matrix true).map
      (fun p => gf2_matrix_get_rank p.1) = some 33 ∧
    null_vector twin_matrix (1 :: List.replicate 31 0 ++ [1]) ∧
    ¬ independent_columns twin_matrix := by
  have hv : null_vector twin_matrix (1 :: List.replicate 31 0 ++ [1]) :=
    (is_null_vector_iff _ _).mp (by decide!)
  refine ⟨?_, fun bits len width l h32 hh => deficient_iff bits len width l h32 hh,
    by decide, by decide!, hv, ?_⟩
  · intro A track h32 hrows
    obtain ⟨R, B, h1, _, h3⟩ := gauss_jordan_cols_full_rank A track h32 hrows
    exact ⟨R, B, h1, h3⟩
  · intro hind
    exact absurd (hind _ hv 0 (by decide)) (by decide)

/-! ## Theorems: rank, null columns and dual vectors -/

theorem full_rank_null_col (A : gf2_matrix) (track : Bool) (h32 : A.cols ≤ 32)
    (hrows : A.cols ≤ A.rows) :
    ∃ R B, gf2_matrix_gauss_jordan_cols A track = some (R, B) ∧
      (gf2_matrix_get_rank R < A.cols →
        ∃ i, i < A.cols ∧ ∀ r, r < A.rows → gf2_matrix_get R r i = 0) := by
  have hinv := full_fold A track
    (if track then gf2_matrix_eye A.cols A.cols else gf2_matrix_new 0 0) h32 hrows A.cols
    (le_refl _)
  refine ⟨_, _, by unfold gf2_matrix_gauss_jordan_cols; rw [if_pos hrows], ?_⟩
  obtain ⟨_, _, _, hst⟩ := hinv
  unfold gf2_matrix_get_rank
  simp only
  intro hlt
  rcases hst with ⟨hrank, _⟩ | ⟨_, i0, hi0, hnull⟩
  · omega
  · exact ⟨i0, hi0, hnull⟩

theorem null_col_count_pos (R : gf2_matrix) (i : Nat) (h32 : R.cols ≤ 32) (hi : i < R.cols)
    (h : ∀ r, r < R.rows → gf2_matrix_get R r i = 0) : 1 ≤ null_col_count R := by
  unfold null_col_count
  apply List.length_pos_of_mem (a := i)
  rw [List.mem_filter, List.mem_range, col_is_null_iff R i (by omega)]
  exact ⟨hi, h⟩

theorem rank_null_cols (A : gf2_matrix) (track : Bool) (hrows : A.cols ≤ A.rows)
    (h32 : A.cols ≤ 32) :
    ∃ R B, gf2_matrix_gauss_jordan_cols A track = some (R, B) ∧ R.cols = A.cols ∧
      gf2_matrix_get_rank R + null_col_count R ≤ A.cols ∧
      (gf2_matrix_get_rank R < A.cols → 1 ≤ null_col_count R) ∧
      (gf2_matrix_get_rank R = A.cols ↔ null_col_count R = 0) ∧
      (gf2_matrix_get_rank R = A.cols ↔ independent_columns A) := by
  obtain ⟨st, hst, hinv⟩ := gauss_jordan_cols_spec A track h32 hrows
  obtain ⟨R, B, hgj, hnc⟩ := full_rank_null_col A track h32 hrows
  obtain ⟨R2, B2, h2, _, hfull⟩ := gauss_jordan_cols_full_rank A track h32 hrows
  rw [hgj] at h2 hst
  simp only [Option.some.injEq, Prod.mk.injEq] at h2 hst
  obtain ⟨hR2, _⟩ := h2
  obtain ⟨hR, _⟩ := hst
  rw [← hR2] at hfull
  have hcols : R.cols = A.cols := by
    rw [hR]
    exact hinv.cols
  have hrowsR : R.rows = A.rows := by
    rw [hR]
    exact hinv.rows
  have hle : gf2_matrix_get_rank R + null_col_count R ≤ A.cols := by
    rw [hR]
    exact null_cols_le A track h32 hrows st hinv
  have hpos : gf2_matrix_get_rank R < A.cols → 1 ≤ null_col_count R := by
    intro hlt
    obtain ⟨i, hi, hz⟩ := hnc hlt
    exact null_col_count_pos R i (by rw [hcols]; exact h32) (by rw [hcols]; exact hi)
      (by
        intro r hr
        exact hz r (by rw [← hrowsR]; exact hr))
  refine ⟨R, B, hgj, hcols, hle, hpos, ?_, hfull⟩
  constructor
  · intro h
    omega
  · intro h
    by_contra hne
    have := hpos (by omega)
    omega

/-- C3, amended: for every matrix `A` with `cols ≤ rows` and at most 32 columns,
`gf2_matrix_gauss_jordan_cols(A, ...)` returns, and the rank recorded on the
reduced matrix plus the number of its columns for which `gf2_matrix_col_is_null`
holds is at most `cols(A)`. When the recorded rank is below `cols(A)` at least one
column of the reduced matrix is null, so that no column is null exactly when the
rank is `cols(A)`, which happens exactly when the columns of `A` are linearly
independent. -/
theorem gauss_jordan_cols_rank_bound (A : gf2_matrix) (track : Bool)
    (hrows : A.cols ≤ A.rows) (h32 : A.cols ≤ 32) :
    ∃ R B, gf2_matrix_gauss_jordan_cols A track = some (R, B) ∧ R.cols = A.cols ∧
      gf2_matrix_get_rank R + null_col_count R ≤ A.cols ∧
      (gf2_matrix_get_rank R < A.cols → 1 ≤ null_col_count R) ∧
      (gf2_matrix_get_rank R = A.cols ↔ null_col_count R = 0) ∧
      (gf2_matrix_get_rank R = A.cols ↔ independent_columns A) :=
  rank_null_cols A track hrows h32

/-- Witness of `gauss_jordan_cols_rank_bound` on the 3 x 3 matrix of rows
`110`, `101`, `011`, whose columns are dependent: the recorded rank is 2 and one
column of the reduced matrix is null. -/
theorem gauss_jordan_cols_rank_bound_witness :
    (gf2_matrix_gauss_jordan_cols (matrix_of_rows 3 3 [3, 5, 6]) true).map
      (fun p => (gf2_matrix_get_rank p.1, null_col_count p.1)) = some (2, 1) ∧
    ∃ R B, gf2_matrix_gauss_jordan_cols (matrix_of_rows 3 3 [3, 5, 6]) true = some (R, B) ∧
      R.cols = (matrix_of_rows 3 3 [3, 5, 6]).cols ∧
      gf2_matrix_get_rank R + null_col_count R ≤ (matrix_of_rows 3 3 [3, 5, 6]).cols ∧
      (gf2_matrix_get_rank R < (matrix_of_rows 3 3 [3, 5, 6]).cols → 1 ≤ null_col_count R) ∧
      (gf2_matrix_get_rank R = (matrix_of_rows 3 3 [3, 5, 6]).cols ↔ null_col_count R = 0) ∧
      (gf2_matrix_get_rank R = (matrix_of_rows 3 3 [3, 5, 6]).cols ↔
        independent_columns (matrix_of_rows 3 3 [3, 5, 6])) :=
  ⟨by decide,
    gauss_jordan_cols_rank_bound (matrix_of_rows 3 3 [3, 5, 6]) true (by decide) (by decide)⟩

/-- C2, amended: for every matrix `A` with `cols ≤ rows` and at most 32 columns,
after `gf2_matrix_gauss_jordan_cols(A, &B)` the dual vectors collected by
`cccrack_rankdef_populate`, which are the rows of `B` whose index is a null column
of the reduced `A`, are linearly independent vectors of the right null space of the
original `A`; `h_count` is the number of null columns of the reduced matrix, it is
at most `cols(A)` minus the recorded rank, and at least one dual vector is
collected exactly when the recorded rank is below `cols(A)`, that is, exactly when
`A` has a non-trivial null vector. -/
theorem gauss_jordan_cols_duals (A : gf2_matrix) (t : tagging)
    (hrows : A.cols ≤ A.rows) (h32 : A.cols ≤ 32) :
    ∃ R B, gf2_matrix_gauss_jordan_cols A true = some (R, B) ∧
      (cccrack_rankdef_from_matrices t R B).h =
        ((List.range A.cols).filter fun c => gf2_matrix_col_is_null R c).map
          (gf2_matrix_copy_row B) ∧
      (cccrack_rankdef_from_matrices t R B).h_count = null_col_count R ∧
      (∀ v ∈ (cccrack_rankdef_from_matrices t R B).h, v.length = A.cols ∧ null_vector A v) ∧
      linearly_independent A.cols (cccrack_rankdef_from_matrices t R B).h ∧
      (cccrack_rankdef_from_matrices t R B).h_count + gf2_matrix_get_rank R ≤ A.cols ∧
      (1 ≤ (cccrack_rankdef_from_matrices t R B).h_count ↔ gf2_matrix_get_rank R < A.cols) ∧
      (1 ≤ (cccrack_rankdef_from_matrices t R B).h_count ↔ ¬ independent_columns A) := by
  obtain ⟨st, hst, hinv⟩ := gauss_jordan_cols_spec A true h32 hrows
  obtain ⟨R, B, hgj, hcols, hle, hpos, _, hfull⟩ := rank_null_cols A true hrows h32
  rw [hgj] at hst
  simp only [Option.some.injEq, Prod.mk.injEq] at hst
  obtain ⟨hR, hB⟩ := hst
  have hh := (from_matrices_h t R B).1
  rw [hcols] at hh
  have hcount : (cccrack_rankdef_from_matrices t R B).h_count = null_col_count R := by
    unfold cccrack_rankdef.h_count null_col_count
    rw [hh, List.length_map, hcols]
  refine ⟨R, B, hgj, hh, hcount, ?_, ?_, ?_, ?_, ?_⟩
  · intro v hv
    rw [hh, List.mem_map] at hv
    obtain ⟨c, hc, rfl⟩ := hv
    rw [List.mem_filter, List.mem_range] at hc
    refine ⟨by rw [copy_row_length, hB, (hinv.bcols rfl).1], ?_⟩
    have := null_col_null_vector A st h32 hinv c hc.1 (by have h2 := hc.2; rw [hR] at h2; exact h2)
    rw [hB]
    exact this
  · rw [hh, hB]
    exact triangular_independent st.2.1 A.cols (hinv.bcols rfl).1 (hinv.tri rfl) _
      (List.filter_sublist _)
  · rw [hcount]
    omega
  · rw [hcount]
    constructor
    · intro h
      omega
    · exact hpos
  · rw [hcount, ← hfull]
    constructor
    · intro h
      omega
    · intro h
      exact hpos (by omega)

/-- Witness of `gauss_jordan_cols_duals` on the 3 x 3 matrix of rows
`110`, `101`, `011`: one dual vector, `[1, 1, 1]`, is collected. -/
theorem gauss_jordan_cols_duals_witness :
    (gf2_matrix_gauss_jordan_cols (matrix_of_rows 3 3 [3, 5, 6]) true).map
      (fun p => (cccrack_rankdef_from_matrices binary_tagging p.1 p.2).h) =
      some [[1, 1, 1]] ∧
    ∃ R B, gf2_matrix_gauss_jordan_cols (matrix_of_rows 3 3 [3, 5, 6]) true = some (R, B) ∧
      (cccrack_rankdef_from_matrices binary_tagging R B).h =
        ((List.range (matrix_of_rows 3 3 [3, 5, 6]).cols).filter fun c =>
          gf2_matrix_col_is_null R c).map (gf2_matrix_copy_row B) ∧
      (cccrack_rankdef_from_matrices binary_tagging R B).h_count = null_col_count R ∧
      (∀ v ∈ (cccrack_rankdef_from_matrices binary_tagging R B).h,
        v.length = (matrix_of_rows 3 3 [3, 5, 6]).cols ∧
          null_vector (matrix_of_rows 3 3 [3, 5, 6]) v) ∧
      linearly_independent (matrix_of_rows 3 3 [3, 5, 6]).cols
        (cccrack_rankdef_from_matrices binary_tagging R B).h ∧
      (cccrack_rankdef_from_matrices binary_tagging R B).h_count + gf2_matrix_get_rank R ≤
        (matrix_of_rows 3 3 [3, 5, 6]).cols ∧
      (1 ≤ (cccrack_rankdef_from_matrices binary_tagging R B).h_count ↔
        gf2_matrix_get_rank R < (matrix_of_rows 3 3 [3, 5, 6]).cols) ∧
      (1 ≤ (cccrack_rankdef_from_matrices binary_tagging R B).h_count ↔
        ¬ independent_columns (matrix_of_rows 3 3 [3, 5, 6])) :=
  ⟨by decide,
    gauss_jordan_cols_duals (matrix_of_rows 3 3 [3, 5, 6]) binary_tagging (by decide)
      (by decide)⟩

/-! ## Theorems: evaluation of the hypotheses when vectors are read past their end -/

/-- C30, failing input: for a buffer of `2 ^ 33` bits the analyzer has
`width = 100`, and at row width 2 the quotient `len / l = 2 ^ 32` stored in the
`unsigned int` `height` is 0: the matrix has no row and the assertion
`cols <= rows` of `gf2_matrix_gauss_jordan_cols` fails, whatever the bits, so that
`cccrack_on_tagging` does not return for any Gray-coded tagging it analyses. -/
theorem on_tagging_height_wraps :
    2 < min (Nat.sqrt (2 ^ 33)) CCCRACK_MAX_WIDTH ∧
    width_height (2 ^ 33) (min (Nat.sqrt (2 ^ 33)) CCCRACK_MAX_WIDTH) 2 = 0 ∧
    (∀ bits : List Nat,
      (width_reduction bits (2 ^ 33) (min (Nat.sqrt (2 ^ 33)) CCCRACK_MAX_WIDTH) 2).isNone =
        true) ∧
    ∀ (self : cccrack_state) (t : tagging) (bits : List Nat),
      self.params.tagging = -1 → t.is_gray = true →
        (cccrack_on_tagging self t bits (2 ^ 33)).isNone = true := by
  have hw : min (Nat.sqrt (2 ^ 33)) CCCRACK_MAX_WIDTH = 100 := by
    have : (100 : Nat) ≤ Nat.sqrt (2 ^ 33) := Nat.le_sqrt.mpr (by decide)
    unfold CCCRACK_MAX_WIDTH
    omega
  rw [hw]
  have hh : width_height (2 ^ 33) 100 2 = 0 := by decide
  have hred : ∀ bits : List Nat, width_reduction bits (2 ^ 33) 100 2 = none := by
    intro bits
    unfold width_reduction
    rw [hh]
    unfold gf2_matrix_gauss_jordan_cols
    have := on_tagging_matrix_dims bits 0 2
    simp [this.1, this.2]
  refine ⟨by decide, hh, fun bits => by rw [hred bits]; rfl, ?_⟩
  intro self t bits htag hgray
  unfold cccrack_on_tagging
  rw [if_neg (by simp [htag]), if_neg (by simp [hgray])]
  simp only [hw]
  have hl : List.range' 2 (100 - 2) = 2 :: List.range' 3 97 := by decide
  rw [hl, List.foldlM_cons, width_step_cases t bits (2 ^ 33) 100 2 (false, none, self) rfl,
    hred bits]
  rfl

end CCCrack
